import Mathlib

/-!
# Verification of the go-algo core engines

This development embeds the two core engines of the repository:

* `listdist.Distance` (file `part_001`): the rolling-row edit-distance
  engine over `int64` costs with the `Inhibit` sentinel and the optional
  cutoff-based early exit.  Go's `int64` is modelled as `ℤ`; the theorems
  about the engine carry explicit range hypotheses keeping every
  intermediate sum inside the `int64` range, so that `ℤ` addition agrees
  with the machine addition of the source.
* `assign.Assign` / `optimalCost` (file `part_003`): the Hungarian
  (Kuhn–Munkres) assignment engine.  The opaque `Cost` interface is
  instantiated at `ℤ` with `AddCost`/`SubCost` as integer addition and
  subtraction and `Less` as `<`, which is the model of the spec's cost
  contract (total order with an add/subtract pair consistent with it)
  used by all cost-configuration claims.  The two unbounded `for` loops
  of `optimalCost` are modelled with an explicit fuel parameter; `none`
  models divergence of the source, and the termination theorems show the
  chosen fuel is never exhausted under the documented cost invariants.
-/

set_option maxHeartbeats 1600000

namespace ListDist

/-- `const Inhibit = 1<<63 - 1` from the source (the maximum `int64`). -/
def Inhibit : ℤ := 2 ^ 63 - 1

/-- The `Cost` record returned by a `CostFunc` (fields as in the source). -/
structure Cost where
  SwapAB : ℤ
  DeleteA : ℤ
  InsertB : ℤ
  deriving DecidableEq

/-- `type CostFunc func(ar, br any) Cost`; `nil` arguments are `none`. -/
abbrev CostFunc (α : Type _) := Option α → Option α → Cost

/-- `StandardCost` from the source: every operation costs 1. -/
def StandardCost {α : Type _} : CostFunc α := fun _ _ => ⟨1, 1, 1⟩

/-- First loop of `Distance`: builds `lst[1..]` from `lst[0] = 0`,
inserting each element of `b` with `Inhibit` propagation. -/
def initRowAux {α : Type _} (f : CostFunc α) : ℤ → List α → List ℤ
  | _, [] => []
  | prev, br :: bs =>
    let c := (f none (some br)).InsertB
    let v := if c = Inhibit ∨ prev = Inhibit then Inhibit else prev + c
    v :: initRowAux f v bs

/-- The initial row `lst` of `Distance` (index 0 holds the zero value). -/
def initRow {α : Type _} (f : CostFunc α) (b : List α) : List ℤ :=
  0 :: initRowAux f 0 b

/-- Body of the inner loop of `Distance` for one cell: `last` is the stale
diagonal value, `left` the freshly written cell to the left and `up` the
stale value being overwritten.  Mirrors the candidate scan of the source
line by line. -/
def cellMin {α : Type _} [DecidableEq α] (f : CostFunc α) (ar br : α)
    (last left up : ℤ) : ℤ :=
  let c := f (some ar) (some br)
  let m0 : ℤ :=
    if ar = br then last
    else if c.SwapAB ≠ Inhibit ∧ last ≠ Inhibit then last + c.SwapAB else Inhibit
  let m1 : ℤ :=
    if c.InsertB ≠ Inhibit ∧ left ≠ Inhibit ∧ left + c.InsertB < m0 then left + c.InsertB
    else m0
  if c.DeleteA ≠ Inhibit ∧ up ≠ Inhibit ∧ up + c.DeleteA < m1 then up + c.DeleteA
  else m1

/-- Inner loop of `Distance` over `b`, with `last, lst[i] = lst[i], min`
captured by passing `up` and the freshly computed cell along. -/
def rowAux {α : Type _} [DecidableEq α] (f : CostFunc α) (ar : α) :
    ℤ → ℤ → List α → List ℤ → List ℤ
  | _, _, [], _ => []
  | _, _, _ :: _, [] => []
  | last, left, br :: bs, up :: olds =>
    let m2 := cellMin f ar br last left up
    m2 :: rowAux f ar up m2 bs olds

/-- One iteration of the outer loop of `Distance`: updates `lst[0]` with the
deletion cost of `ar` and then runs the inner loop. -/
def distRow {α : Type _} [DecidableEq α] (f : CostFunc α) (ar : α) (b : List α) :
    List ℤ → List ℤ
  | [] => []
  | l0 :: rest =>
    let c := (f (some ar) none).DeleteA
    let v0 := if c = Inhibit ∨ l0 = Inhibit then Inhibit else l0 + c
    v0 :: rowAux f ar l0 v0 b rest

/-- The `stop` flag after a row: `true` unless some freshly computed inner
cell (index ≥ 1) is `< cut`.  `lst[0]` is not inspected by the source. -/
def stopRow (cut : ℤ) : List ℤ → Bool
  | [] => true
  | _ :: cells => cells.all fun v => !(v < cut)

/-- Outer loop of `Distance` over `a`, with the early `break` of the source
when `cut != 0 && stop`. -/
def distLoop {α : Type _} [DecidableEq α] (f : CostFunc α) (b : List α) (cut : ℤ) :
    List α → List ℤ → List ℤ
  | [], lst => lst
  | ar :: arest, lst =>
    let lst2 := distRow f ar b lst
    if cut ≠ 0 ∧ stopRow cut lst2 then lst2 else distLoop f b cut arest lst2

/-- `Distance(a, b, f, cut)` from the source: returns `lst[len(lst)-1]`. -/
def Distance {α : Type _} [DecidableEq α] (a b : List α) (f : CostFunc α) (cut : ℤ) : ℤ :=
  (distLoop f b cut a (initRow f b)).getLastD 0

/-!
## Reference semantics

`refDrev` follows the words of the spec: the classic edit-distance
recurrence in which substituting `A[i]` by `B[j]` costs
`f(A[i],B[j]).substitute` (forced to zero on equal elements), deleting
`A[i]` costs `f(A[i],absent).delete` and inserting `B[j]` costs
`f(absent,B[j]).insert`.  It peels aligned positions from the right, so
it is phrased on the reversed sequences: `refDist a b = refDrev
a.reverse b.reverse`.  `refDrevO` is the same recurrence with inhibited
transitions excluded from the candidate sets; `none` means that no
feasible transformation path exists.
-/

/-- Claim-side recurrence on reversed sequences, all transitions usable. -/
def refDrev {α : Type _} [DecidableEq α] (f : CostFunc α) : List α → List α → ℤ
  | [], [] => 0
  | [], y :: ys => refDrev f [] ys + (f none (some y)).InsertB
  | x :: xs, [] => refDrev f xs [] + (f (some x) none).DeleteA
  | x :: xs, y :: ys =>
    min (min (refDrev f xs ys + (if x = y then 0 else (f (some x) (some y)).SwapAB))
             (refDrev f xs (y :: ys) + (f (some x) none).DeleteA))
        (refDrev f (x :: xs) ys + (f none (some y)).InsertB)
  termination_by l1 l2 => l1.length + l2.length

/-- The claim-side minimum transformation cost from `a` to `b`. -/
def refDist {α : Type _} [DecidableEq α] (f : CostFunc α) (a b : List α) : ℤ :=
  refDrev f a.reverse b.reverse

/-- Add a transition cost to a partial path cost; an inhibited cost or an
infeasible operand yields an infeasible result. -/
def addCand : Option ℤ → ℤ → Option ℤ
  | none, _ => none
  | some v, c => if c = Inhibit then none else some (v + c)

/-- Minimum of two candidate path costs, ignoring infeasible candidates. -/
def minCand : Option ℤ → Option ℤ → Option ℤ
  | none, o => o
  | o, none => o
  | some v, some w => some (min v w)

/-- Claim-side recurrence with inhibited transitions excluded; `none`
means that every path uses an inhibited transition. -/
def refDrevO {α : Type _} [DecidableEq α] (f : CostFunc α) : List α → List α → Option ℤ
  | [], [] => some 0
  | [], y :: ys => addCand (refDrevO f [] ys) (f none (some y)).InsertB
  | x :: xs, [] => addCand (refDrevO f xs []) (f (some x) none).DeleteA
  | x :: xs, y :: ys =>
    minCand (minCand
        (if x = y then refDrevO f xs ys
         else addCand (refDrevO f xs ys) (f (some x) (some y)).SwapAB)
        (addCand (refDrevO f xs (y :: ys)) (f (some x) none).DeleteA))
      (addCand (refDrevO f (x :: xs) ys) (f none (some y)).InsertB)
  termination_by l1 l2 => l1.length + l2.length

/-- Claim-side minimum feasible transformation cost (`none` = infeasible). -/
def refDistO {α : Type _} [DecidableEq α] (f : CostFunc α) (a b : List α) : Option ℤ :=
  refDrevO f a.reverse b.reverse

/-- How the engine represents a candidate: infeasible is the sentinel. -/
def reprI : Option ℤ → ℤ
  | none => Inhibit
  | some v => v

/-- A cost component is inhibited or a bounded non-negative weight. -/
def OkComp (M c : ℤ) : Prop := c = Inhibit ∨ (0 ≤ c ∧ c ≤ M)

/-- All cost components produced by `f` are inhibited or in `[0, M]`. -/
def OkCosts {α : Type _} (f : CostFunc α) (M : ℤ) : Prop :=
  ∀ x y, OkComp M ((f (some x) (some y)).SwapAB) ∧
         OkComp M ((f (some x) none).DeleteA) ∧
         OkComp M ((f none (some y)).InsertB)

/-- The delete cost of an element does not depend on the aligned partner,
and neither does the insert cost: `f(a,b).delete = f(a,absent).delete`
and `f(a,b).insert = f(absent,b).insert`. -/
def ConsistentCosts {α : Type _} (f : CostFunc α) : Prop :=
  ∀ x y, (f (some x) (some y)).DeleteA = (f (some x) none).DeleteA ∧
         (f (some x) (some y)).InsertB = (f none (some y)).InsertB

/-- The represented values of the reference cells of one row beyond
column `rb.length`, for remaining elements `bs` of `b`. -/
def idealCells {α : Type _} [DecidableEq α] (f : CostFunc α) (ra rb : List α) :
    List α → List ℤ
  | [] => []
  | y :: ys => reprI (refDrevO f ra (y :: rb)) :: idealCells f ra (y :: rb) ys

/-- The represented values of a full reference row for the processed
(reversed) prefix `ra` of `a`. -/
def idealRow {α : Type _} [DecidableEq α] (f : CostFunc α) (ra b : List α) : List ℤ :=
  reprI (refDrevO f ra []) :: idealCells f ra [] b

/-- All cost components produced by `f` are finite weights in `[0, M]`. -/
def FiniteCosts {α : Type _} (f : CostFunc α) (M : ℤ) : Prop :=
  ∀ x y, (0 ≤ (f (some x) (some y)).SwapAB ∧ (f (some x) (some y)).SwapAB ≤ M) ∧
         (0 ≤ (f (some x) none).DeleteA ∧ (f (some x) none).DeleteA ≤ M) ∧
         (0 ≤ (f none (some y)).InsertB ∧ (f none (some y)).InsertB ≤ M)

/-- A cost function with non-negative costs whose delete and insert costs
depend on the aligned partner (legal per the engine signature). -/
def f0 : CostFunc ℕ := fun x y =>
  match x, y with
  | some _, some _ => ⟨5, 9, 9⟩
  | some _, none => ⟨0, 1, 0⟩
  | none, some _ => ⟨0, 0, 1⟩
  | none, none => ⟨0, 0, 0⟩

/-- A cost function whose finite deletion costs sum exactly to the
inhibited sentinel value. -/
def f7 : CostFunc ℕ := fun x _ =>
  match x with
  | some 0 => ⟨0, 1, 0⟩
  | some _ => ⟨0, Inhibit - 1, 0⟩
  | none => ⟨0, 0, 0⟩

/-- The claim-side recurrence cells of one row (total version). -/
def refCells {α : Type _} [DecidableEq α] (f : CostFunc α) (ra rb : List α) :
    List α → List ℤ
  | [] => []
  | y :: ys => refDrev f ra (y :: rb) :: refCells f ra (y :: rb) ys

/-- A full claim-side row for the processed (reversed) prefix `ra`. -/
def refRow {α : Type _} [DecidableEq α] (f : CostFunc α) (ra b : List α) : List ℤ :=
  refDrev f ra [] :: refCells f ra [] b

end ListDist

namespace Assign

/-!
## The assignment engine (`part_003`)

The opaque `Cost` interface is instantiated at `ℤ`: `AddCost`/`SubCost`
are integer addition/subtraction and `Less` is `<`, the model of the
spec's cost contract used by the cost-configuration claims.  `NodeKey`
is omitted: the core never calls it (spec §4.4).  The two unbounded
loops of `optimalCost` (the alternating-tree search and the augmenting
walk) take an explicit fuel; `none` models divergence of the source.
Arrays of size `n+1` are modelled as functions on `ℕ`, read and written
only at indices `0..n`.
-/

/-- `type Pair struct { Source, Target any; Cost Cost }`. -/
structure Pair (α : Type _) where
  source : Option α
  target : Option α
  cost : ℤ
  deriving DecidableEq, Repr

/-- `AssignOptions` with `Cost` instantiated at `ℤ` (see above). -/
structure AssignOptions (α : Type _) where
  editCost : Option α → Option α → ℤ
  minCost : ℤ
  maxCost : ℤ

/-- The mutable state of `optimalCost`: `sourceCost`, `targetCost`,
`targetSource`, `minSlack`, `targetTrail`, `visitedTarget`. -/
structure HState where
  sC : ℕ → ℤ
  tC : ℕ → ℤ
  ts : ℕ → ℕ
  ms : ℕ → ℤ
  trail : ℕ → ℕ
  vis : ℕ → Bool

/-- One step of the `for j := 0; j < n; j++` slack scan: update
`minSlack[j]`/`targetTrail[j]` for unvisited `j` and track the running
minimum `delta` with its target. -/
def scanStep (cost : ℕ → ℕ → ℤ) (cs cur : ℕ) (sC tC : ℕ → ℤ) (vis : ℕ → Bool)
    (acc : (ℕ → ℤ) × (ℕ → ℕ) × ℤ × ℕ) (j : ℕ) : (ℕ → ℤ) × (ℕ → ℕ) × ℤ × ℕ :=
  let ms := acc.1
  let tr := acc.2.1
  let delta := acc.2.2.1
  let next := acc.2.2.2
  if vis j then acc
  else
    let curSlack := cost cs j - sC cs - tC j
    let ms2 := if curSlack < ms j then Function.update ms j curSlack else ms
    let tr2 := if curSlack < ms j then Function.update tr j cur else tr
    if ms2 j < delta then (ms2, tr2, ms2 j, j) else (ms2, tr2, delta, next)

/-- The whole slack scan, starting from `delta = MaxCost, nextTarget = 0`. -/
def scanLoop (cost : ℕ → ℕ → ℤ) (cs cur : ℕ) (sC tC : ℕ → ℤ) (vis : ℕ → Bool)
    (n : ℕ) (ms : ℕ → ℤ) (tr : ℕ → ℕ) (maxCost : ℤ) :
    (ℕ → ℤ) × (ℕ → ℕ) × ℤ × ℕ :=
  (List.range n).foldl (scanStep cost cs cur sC tC vis) (ms, tr, maxCost, 0)

/-- One step of the `for j := 0; j <= n; j++` potential update. -/
def updStep (delta : ℤ) (ts : ℕ → ℕ) (vis : ℕ → Bool)
    (acc : (ℕ → ℤ) × (ℕ → ℤ) × (ℕ → ℤ)) (j : ℕ) : (ℕ → ℤ) × (ℕ → ℤ) × (ℕ → ℤ) :=
  let sC := acc.1
  let tC := acc.2.1
  let ms := acc.2.2
  if vis j then
    (Function.update sC (ts j) (sC (ts j) + delta),
     Function.update tC j (tC j - delta), ms)
  else (sC, tC, Function.update ms j (ms j - delta))

/-- The whole potential update over `j = 0 .. n`. -/
def updLoop (delta : ℤ) (ts : ℕ → ℕ) (vis : ℕ → Bool) (n : ℕ)
    (sC tC ms : ℕ → ℤ) : (ℕ → ℤ) × (ℕ → ℤ) × (ℕ → ℤ) :=
  (List.range (n + 1)).foldl (updStep delta ts vis) (sC, tC, ms)

/-- One iteration of the alternating-tree loop: mark the current target
visited, scan slacks from its matched source, update potentials by
`delta` and move to the chosen next target. -/
def innerStep (cost : ℕ → ℕ → ℤ) (n : ℕ) (maxCost : ℤ) (st : HState) (cur : ℕ) :
    HState × ℕ :=
  let vis2 := Function.update st.vis cur true
  let cs := st.ts cur
  let scanned := scanLoop cost cs cur st.sC st.tC vis2 n st.ms st.trail maxCost
  let delta := scanned.2.2.1
  let next := scanned.2.2.2
  let upd := updLoop delta st.ts vis2 n st.sC st.tC scanned.1
  (⟨upd.1, upd.2.1, st.ts, upd.2.2, scanned.2.1, vis2⟩, next)

/-- `for targetSource[currentTarget] != n { ... }` with explicit fuel;
`none` models divergence. -/
def innerLoop (cost : ℕ → ℕ → ℤ) (n : ℕ) (maxCost : ℤ) :
    ℕ → HState → ℕ → Option (HState × ℕ)
  | fuel, st, cur =>
    if st.ts cur = n then some (st, cur)
    else
      match fuel with
      | 0 => none
      | fuel + 1 =>
        let stepped := innerStep cost n maxCost st cur
        innerLoop cost n maxCost fuel stepped.1 stepped.2

/-- The augmenting walk `for currentTarget != n { flip }` with fuel. -/
def augmentLoop (n : ℕ) (trail : ℕ → ℕ) : ℕ → (ℕ → ℕ) → ℕ → Option (ℕ → ℕ)
  | fuel, ts, cur =>
    if cur = n then some ts
    else
      match fuel with
      | 0 => none
      | fuel + 1 =>
        augmentLoop n trail fuel (Function.update ts cur (ts (trail cur))) (trail cur)

/-- Per-phase initialisation: `targetSource[n] = i` and the reset of
`minSlack`, `targetTrail` and `visitedTarget`. -/
def resetPhase (n : ℕ) (maxCost : ℤ) (st : HState) (i : ℕ) : HState :=
  ⟨st.sC, st.tC, Function.update st.ts n i,
   fun _ => maxCost, fun _ => n, fun _ => false⟩

/-- One phase of the main loop of `optimalCost` for source `i`. -/
def phase (cost : ℕ → ℕ → ℤ) (n : ℕ) (maxCost : ℤ) (st : HState) (i : ℕ) :
    Option HState :=
  match innerLoop cost n maxCost (3 * n + 3) (resetPhase n maxCost st i) n with
  | none => none
  | some (st1, cur) =>
    match augmentLoop n st1.trail (n + 1) st1.ts cur with
    | none => none
    | some ts2 => some ⟨st1.sC, st1.tC, ts2, st1.ms, st1.trail, st1.vis⟩

/-- The initial state of `optimalCost`: potentials at `MinCost`, all
targets unmatched (`targetSource[j] = n`). -/
def initState (n : ℕ) (minCost : ℤ) : HState :=
  ⟨fun _ => minCost, fun _ => minCost, fun _ => n,
   fun _ => minCost, fun _ => n, fun _ => false⟩

/-- The first `k` phases of the main loop. -/
def runPhases (cost : ℕ → ℕ → ℤ) (n : ℕ) (maxCost minCost : ℤ) : ℕ → Option HState
  | 0 => some (initState n minCost)
  | k + 1 =>
    match runPhases cost n maxCost minCost k with
    | none => none
    | some st => phase cost n maxCost st k

/-- `optimalCost(costs, options)`: the final `targetSource` mapping, or
`none` when the source diverges. -/
def optimalCost (cost : ℕ → ℕ → ℤ) (n : ℕ) (maxCost minCost : ℤ) :
    Option (ℕ → ℕ) :=
  (runPhases cost n maxCost minCost n).map (·.ts)

/-- The square cost matrix built by `Assign` (side `max n m`, with
deletion costs on padding columns, insertion costs on padding rows and
`MinCost` filler in the corner). -/
def buildCosts {α : Type _} [Inhabited α] (sources targets : List α)
    (o : AssignOptions α) : ℕ → ℕ → ℤ := fun i j =>
  if i < sources.length ∧ j < targets.length then
    o.editCost (some (sources.getD i default)) (some (targets.getD j default))
  else if i < sources.length then
    o.editCost (some (sources.getD i default)) none
  else if j < targets.length then
    o.editCost none (some (targets.getD j default))
  else o.minCost

/-- The result-translation step of `Assign` for one final matching cell
`optimal[j] = i`.  Note the insert branch emits `targets[i]`, exactly as
the source does. -/
def translatePair {α : Type _} [Inhabited α] (sources targets : List α)
    (o : AssignOptions α) (costs : ℕ → ℕ → ℤ) (optimal : ℕ → ℕ)
    (acc : List (Pair α)) (j : ℕ) : List (Pair α) :=
  let n := sources.length
  let m := targets.length
  let i := optimal j
  let cost := costs i j
  if i < n ∧ j < m then
    if cost = o.maxCost then
      acc ++ [⟨some (sources.getD i default), none, cost⟩,
              ⟨none, some (targets.getD j default), cost⟩]
    else
      acc ++ [⟨some (sources.getD i default), some (targets.getD j default), cost⟩]
  else if i < n ∧ m ≤ j then
    acc ++ [⟨some (sources.getD i default), none, cost⟩]
  else if n ≤ i ∧ j < m then
    acc ++ [⟨none, some (targets.getD i default), cost⟩]
  else acc

/-- `Assign(sources, targets, options)`; `none` models divergence of
`optimalCost`. -/
def Assign {α : Type _} [Inhabited α] (sources targets : List α)
    (o : AssignOptions α) : Option (List (Pair α)) :=
  let size := max sources.length targets.length
  let costs := buildCosts sources targets o
  (optimalCost costs size o.maxCost o.minCost).map fun optimal =>
    (List.range size).foldl (translatePair sources targets o costs optimal) []

/-- The total cost of the assignment realized by `Assign`: the cost of
the matched matrix cell of every column, each counted once. -/
def assignCost {α : Type _} [Inhabited α] (sources targets : List α)
    (o : AssignOptions α) : Option ℤ :=
  let size := max sources.length targets.length
  let costs := buildCosts sources targets o
  (optimalCost costs size o.maxCost o.minCost).map fun optimal =>
    ((List.range size).map fun j => costs (optimal j) j).sum

/-- Brute-force minimum total cost over all one-to-one assignments on a
square matrix of the given side. -/
def minAssignmentCost (size : ℕ) (cost : ℕ → ℕ → ℤ) : Option ℤ :=
  (((List.range size).permutations').map fun p =>
    ((List.range size).map fun j => cost (p.getD j 0) j).sum).min?

/-- Insertion-only options giving target 10 insertion cost 5 and target
20 insertion cost 3 (all costs within `[minCost, maxCost]`). -/
def insOpts : AssignOptions ℕ := {
  editCost := fun s t =>
    match s, t with
    | none, some 10 => 5
    | none, some 20 => 3
    | _, _ => 0
  minCost := 0
  maxCost := 100 }

/-- Options of the repository test `Update with max cost becomes
delete+insert`: matching 0 with 1 costs `maxCost`, deletions and
insertions cost `maxCost - 1`. -/
def maxOpts : AssignOptions ℕ := {
  editCost := fun s t =>
    match s, t with
    | some 0, some 1 => 2 ^ 31
    | none, _ => 2 ^ 31 - 1
    | _, none => 2 ^ 31 - 1
    | _, _ => 2 ^ 31
  minCost := 0
  maxCost := 2 ^ 31 }

/-- Degenerate options allowed by the cost invariants
`MinCost ≤ c ≤ MaxCost`: every cost is 0 and `MinCost = MaxCost = 0`. -/
def zeroOpts : AssignOptions ℕ := {
  editCost := fun _ _ => 0
  minCost := 0
  maxCost := 0 }

/-- The slack of edge `(cs, j)` with respect to the current potentials. -/
def slackv (cost : ℕ → ℕ → ℤ) (cs : ℕ) (sC tC : ℕ → ℤ) (j : ℕ) : ℤ :=
  cost cs j - sC cs - tC j

/-- Specification of the slack scan after processing the columns of
`pre`: pointwise description of `minSlack` and `targetTrail`, and the
running minimum `delta` with its chosen target. -/
structure ScanInv (cost : ℕ → ℕ → ℤ) (cs cur : ℕ) (sC tC : ℕ → ℤ) (vis : ℕ → Bool)
    (maxCost : ℤ) (ms0 : ℕ → ℤ) (tr0 : ℕ → ℕ) (pre : List ℕ)
    (acc : (ℕ → ℤ) × (ℕ → ℕ) × ℤ × ℕ) : Prop where
  ms_mem : ∀ j ∈ pre, vis j = false →
    acc.1 j = min (ms0 j) (slackv cost cs sC tC j)
  ms_other : ∀ j, j ∉ pre ∨ vis j = true → acc.1 j = ms0 j
  tr_mem_lt : ∀ j ∈ pre, vis j = false → slackv cost cs sC tC j < ms0 j →
    acc.2.1 j = cur
  tr_mem_ge : ∀ j ∈ pre, vis j = false → ¬(slackv cost cs sC tC j < ms0 j) →
    acc.2.1 j = tr0 j
  tr_other : ∀ j, j ∉ pre ∨ vis j = true → acc.2.1 j = tr0 j
  delta_le : acc.2.2.1 ≤ maxCost
  delta_le_ms : ∀ j ∈ pre, vis j = false → acc.2.2.1 ≤ acc.1 j
  fired : acc.2.2.1 < maxCost →
    acc.2.2.2 ∈ pre ∧ vis acc.2.2.2 = false ∧ acc.1 acc.2.2.2 = acc.2.2.1
  unfired : maxCost ≤ acc.2.2.1 → acc.2.2.2 = 0 ∧ acc.2.2.1 = maxCost

/-- Specification of the potential update after processing `pre`:
sources matched to a visited target gained `delta`, visited targets
lost `delta`, unvisited targets had their minimum slack reduced. -/
structure UpdInv (delta : ℤ) (ts : ℕ → ℕ) (vis : ℕ → Bool)
    (sC0 tC0 ms0 : ℕ → ℤ) (pre : List ℕ)
    (acc : (ℕ → ℤ) × (ℕ → ℤ) × (ℕ → ℤ)) : Prop where
  sC_hit : ∀ s, (∃ j ∈ pre, vis j = true ∧ ts j = s) → acc.1 s = sC0 s + delta
  sC_miss : ∀ s, (¬ ∃ j ∈ pre, vis j = true ∧ ts j = s) → acc.1 s = sC0 s
  tC_vis : ∀ j ∈ pre, vis j = true → acc.2.1 j = tC0 j - delta
  tC_other : ∀ j, j ∉ pre ∨ vis j = false → acc.2.1 j = tC0 j
  ms_unvis : ∀ j ∈ pre, vis j = false → acc.2.2 j = ms0 j - delta
  ms_other : ∀ j, j ∉ pre ∨ vis j = true → acc.2.2 j = ms0 j

/-- Number of visited targets (indices `0..n`). -/
def visCard (n : ℕ) (st : HState) : ℕ :=
  ((Finset.range (n + 1)).filter (fun j => st.vis j = true)).card

/-- The invariant of the alternating-tree loop of `optimalCost`, at the
loop-condition test point, for phase source `i`.  `st.sC i` accumulates
the sum of the `delta` updates of the phase. -/
structure LoopInv (cost : ℕ → ℕ → ℤ) (n : ℕ) (W : ℤ) (i : ℕ)
    (st : HState) (cur : ℕ) : Prop where
  hi : i < n
  cur_le : cur ≤ n
  ts_dummy : st.ts n = i
  ts_lt : ∀ j, j < n → st.ts j ≠ n → st.ts j < i
  ts_ne_i : ∀ j, j < n → st.ts j ≠ i
  ts_inj : ∀ j1 j2, j1 < n → j2 < n → st.ts j1 ≠ n → st.ts j2 ≠ n → j1 ≠ j2 →
    st.ts j1 ≠ st.ts j2
  unmatched_exists : ∃ j, j < n ∧ st.ts j = n
  feas : ∀ a b, a < n → b < n → st.sC a + st.tC b ≤ cost a b
  tight : ∀ j, j < n → st.ts j ≠ n → st.sC (st.ts j) + st.tC j = cost (st.ts j) j
  unmatched_tC : ∀ j, j < n → st.ts j = n → st.tC j = 0
  unmatched_unvis : ∀ j, j < n → st.ts j = n → st.vis j = false
  fresh_sC : ∀ s, i < s → s ≤ n → st.sC s = 0
  vis_n : st.vis n = true
  D_lb : 0 ≤ st.sC i
  D_ub : st.sC i ≤ W
  ms_cap : ∀ j, j < n → st.vis j = false → st.ms j ≤ W - st.sC i
  ms_nonneg : ∀ j, j < n → st.vis j = false → 0 ≤ st.ms j
  ms_le_slack : ∀ j t, j < n → st.vis j = false → t ≤ n → st.vis t = true →
    st.ms j ≤ slackv cost (st.ts t) st.sC st.tC j
  ms_witness : ∀ j, j < n → st.vis j = false →
    (st.trail j ≠ n → st.ms j = slackv cost (st.ts (st.trail j)) st.sC st.tC j) ∧
    (st.trail j = n → st.ms j = min (W - st.sC i) (slackv cost i st.sC st.tC j))
  trail_lt : ∀ x, x ≤ n → st.trail x ≠ n → st.trail x < n ∧ st.vis (st.trail x) = true
  vis_path : ∀ j, j < n → st.vis j = true →
    (st.trail j ≠ n → slackv cost (st.ts (st.trail j)) st.sC st.tC j = 0) ∧
    (st.trail j = n → slackv cost i st.sC st.tC j = 0 ∨
      (st.sC i = W ∧ ∀ x, x ≤ n → st.trail x ≠ j))
  cur_ms : st.vis cur = false → cur < n ∧ st.ms cur = 0
  order : ∃ r : ℕ → ℕ,
    (∀ x, x ≤ n → st.vis x = true → st.trail x ≠ n → r (st.trail x) < r x) ∧
    (∀ j, j ≤ n → st.vis j = true → r j < visCard n st)

/-- The invariant of the main phase loop of `optimalCost` after `k`
completed phases: sources `0..k-1` are matched injectively, dual
feasibility holds and every matched edge is tight. -/
structure PhaseInv (cost : ℕ → ℕ → ℤ) (n : ℕ) (k : ℕ) (st : HState) : Prop where
  ts_lt : ∀ j, j < n → st.ts j ≠ n → st.ts j < k
  cover : ∀ s, s < k → ∃ j, j < n ∧ st.ts j = s
  count : ((Finset.range n).filter (fun j => st.ts j ≠ n)).card = k
  feas : ∀ a b, a < n → b < n → st.sC a + st.tC b ≤ cost a b
  tight : ∀ j, j < n → st.ts j ≠ n → st.sC (st.ts j) + st.tC j = cost (st.ts j) j
  unmatched_tC : ∀ j, j < n → st.ts j = n → st.tC j = 0
  fresh_sC : ∀ s, k ≤ s → s ≤ n → st.sC s = 0

/-- Termination measure for the alternating-tree loop: unvisited targets
(twice), whether the phase total is still below `MaxCost`, and whether
the current target was already visited. -/
def loopMeasure (n : ℕ) (W : ℤ) (i : ℕ) (st : HState) (cur : ℕ) : ℕ :=
  2 * (n + 1 - visCard n st) + (if st.sC i < W then 1 else 0) +
    (if st.vis cur = true then 1 else 0)

/-- Options with every cost equal to 1 and `MinCost = MaxCost = 1`:
allowed by the stated cost invariants `MinCost ≤ c ≤ MaxCost`. -/
def onesOpts : AssignOptions ℕ := {
  editCost := fun _ _ => 1
  minCost := 1
  maxCost := 1 }

/-- The degenerate all-zero cost matrix of `zeroOpts` on two sources and
two targets. -/
def zcost : ℕ → ℕ → ℤ := buildCosts [0, 1] [0, 1] zeroOpts

/-- The state of `optimalCost` for `zcost` after its first phase. -/
def zst9 : HState :=
  (runPhases zcost 2 zeroOpts.maxCost zeroOpts.minCost 1).getD (initState 2 0)

/-- The all-ones cost matrix of `onesOpts`. -/
def c8cost : ℕ → ℕ → ℤ := buildCosts [5, 6] [7, 8] onesOpts

/-- The state of `optimalCost` for `c8cost` after its first phase. -/
def st8 : HState :=
  (runPhases c8cost 2 onesOpts.maxCost onesOpts.minCost 1).getD (initState 2 1)

end Assign

namespace ListDist

theorem addCand_bound {o : Option ℤ} {c M K v : ℤ} (hc : OkComp M c)
    (ho : ∀ w, o = some w → 0 ≤ w ∧ w ≤ K)
    (h : addCand o c = some v) : 0 ≤ v ∧ v ≤ K + M := by
  cases o with
  | none => simp [addCand] at h
  | some w =>
    rcases hc with hc | hc
    · simp [addCand, hc] at h
    · have hw := ho w rfl
      simp only [addCand] at h
      split at h
      · exact absurd h (by simp)
      · cases h; constructor <;> omega

theorem minCand_bound {o1 o2 : Option ℤ} {K v : ℤ}
    (h1 : ∀ w, o1 = some w → 0 ≤ w ∧ w ≤ K)
    (h2 : ∀ w, o2 = some w → 0 ≤ w ∧ w ≤ K)
    (h : minCand o1 o2 = some v) : 0 ≤ v ∧ v ≤ K := by
  cases o1 with
  | none => simpa [minCand] using h2 v (by simpa [minCand] using h)
  | some w1 =>
    cases o2 with
    | none =>
      have := h1 w1 rfl
      simp only [minCand] at h
      cases h; exact this
    | some w2 =>
      have b1 := h1 w1 rfl
      have b2 := h2 w2 rfl
      simp only [minCand] at h
      cases h
      constructor <;> [exact le_min b1.1 b2.1; exact min_le_of_left_le b1.2]

theorem bound_mono {o : Option ℤ} {K1 K2 : ℤ} (hK : K1 ≤ K2)
    (h : ∀ w, o = some w → 0 ≤ w ∧ w ≤ K1) :
    ∀ w, o = some w → 0 ≤ w ∧ w ≤ K2 :=
  fun w hw => ⟨(h w hw).1, le_trans (h w hw).2 hK⟩

/-- Feasible reference values are non-negative and bounded by the number
of transitions times the per-transition bound. -/
theorem refDrevO_bound {α : Type _} [DecidableEq α] {f : CostFunc α} {M : ℤ}
    (hok : OkCosts f M) (hM : 0 ≤ M) :
    ∀ (ra rb : List α) (v : ℤ), refDrevO f ra rb = some v →
      0 ≤ v ∧ v ≤ (ra.length + rb.length) * M := by
  intro ra rb
  induction ra, rb using refDrevO.induct f with
  | case1 =>
    intro v h
    rw [refDrevO] at h
    cases h; simp
  | case2 y ys ih =>
    intro v h
    rw [refDrevO] at h
    have hb := addCand_bound (M := M) (hok y y).2.2 ih h
    simp only [List.length_nil, List.length_cons]
    refine ⟨hb.1, le_trans hb.2 (le_of_eq ?_)⟩
    simp only [List.length_nil, List.length_cons]
    push_cast
    ring
  | case3 x xs ih =>
    intro v h
    rw [refDrevO] at h
    have hb := addCand_bound (M := M) (hok x x).2.1 ih h
    simp only [List.length_nil, List.length_cons]
    refine ⟨hb.1, le_trans hb.2 (le_of_eq ?_)⟩
    simp only [List.length_nil, List.length_cons]
    push_cast
    ring
  | case4 x xs y ys ih1 ih2 ih3 =>
    intro v h
    rw [refDrevO] at h
    simp only [List.length_cons]
    set K : ℤ := ((xs.length + 1 + (ys.length + 1) : ℕ) : ℤ) * M with hKdef
    have hdiag : ∀ w, (if x = y then refDrevO f xs ys
        else addCand (refDrevO f xs ys) (f (some x) (some y)).SwapAB) = some w →
        0 ≤ w ∧ w ≤ K := by
      split
      · refine bound_mono ?_ ih1
        rw [hKdef]; push_cast; nlinarith
      · intro w hw
        have hb := addCand_bound (M := M) (hok x y).1 ih1 hw
        refine ⟨hb.1, le_trans hb.2 ?_⟩
        rw [hKdef]; push_cast; nlinarith
    have hdel : ∀ w,
        addCand (refDrevO f xs (y :: ys)) ((f (some x) none).DeleteA) = some w →
        0 ≤ w ∧ w ≤ K := by
      intro w hw
      have hb := addCand_bound (M := M) (hok x y).2.1 ih2 hw
      refine ⟨hb.1, le_trans hb.2 (le_of_eq ?_)⟩
      rw [hKdef]; simp only [List.length_nil, List.length_cons]; push_cast; ring
    have hins : ∀ w,
        addCand (refDrevO f (x :: xs) ys) ((f none (some y)).InsertB) = some w →
        0 ≤ w ∧ w ≤ K := by
      intro w hw
      have hb := addCand_bound (M := M) (hok x y).2.2 ih3 hw
      refine ⟨hb.1, le_trans hb.2 (le_of_eq ?_)⟩
      rw [hKdef]; simp only [List.length_nil, List.length_cons]; push_cast; ring
    exact minCand_bound (fun w hw => minCand_bound hdiag hdel hw) hins h

theorem natMulM_le {k k2 : ℕ} {M : ℤ} (h : k ≤ k2) (hM : 0 ≤ M) :
    (k : ℤ) * M ≤ (k2 : ℤ) * M :=
  mul_le_mul_of_nonneg_right (by exact_mod_cast h) hM

theorem cellBound {α : Type _} [DecidableEq α] {f : CostFunc α} {M : ℤ}
    (hok : OkCosts f M) (hM : 0 ≤ M) (ra rb : List α) {B : ℤ}
    (hB : ((ra.length + rb.length : ℕ) : ℤ) * M ≤ B) :
    ∀ w, refDrevO f ra rb = some w → 0 ≤ w ∧ w ≤ B :=
  bound_mono (by exact_mod_cast hB) (refDrevO_bound hok hM ra rb)

/-- The propagation step of the source for a single delete or insert
transition agrees with `addCand` on represented values. -/
theorem step_eq {o : Option ℤ} {c M : ℤ} (hc : OkComp M c) (hMI : M < Inhibit)
    (hK : ∀ w, o = some w → w < Inhibit) :
    (if c = Inhibit ∨ reprI o = Inhibit then Inhibit else reprI o + c) =
      reprI (addCand o c) := by
  cases o with
  | none => simp [reprI, addCand]
  | some w =>
    have hw := hK w rfl
    rcases hc with hc | hc
    · simp [reprI, addCand, hc]
    · have hcI : c ≠ Inhibit := by omega
      have hwI : w ≠ Inhibit := by omega
      simp [reprI, addCand, hcI, hwI]

/-- The diagonal candidate of the source agrees with the reference
diagonal candidate on represented values. -/
theorem diagStep_eq {α : Type _} [DecidableEq α] {od : Option ℤ} {sw M : ℤ} (x y : α)
    (hc : OkComp M sw) (hMI : M < Inhibit)
    (hod : ∀ w, od = some w → w < Inhibit) :
    (if x = y then reprI od
     else if sw ≠ Inhibit ∧ reprI od ≠ Inhibit then reprI od + sw else Inhibit) =
      reprI (if x = y then od else addCand od sw) := by
  by_cases hxy : x = y
  · simp [hxy]
  · cases o : od with
    | none => simp [hxy, reprI, addCand]
    | some w =>
      have hw := hod w o
      rcases hc with hc | hc
      · simp [hxy, reprI, addCand, hc]
      · have hcI : sw ≠ Inhibit := by omega
        have hwI : w ≠ Inhibit := by omega
        simp [hxy, reprI, addCand, hcI, hwI]

/-- The strict-improvement update of the source running minimum agrees
with `minCand` against an `addCand` candidate on represented values. -/
theorem minStep_eq {o0 oo : Option ℤ} {cw M K : ℤ}
    (hc : OkComp M cw) (hM : 0 ≤ M) (hKM : K + M < Inhibit)
    (h0 : ∀ w, o0 = some w → w < Inhibit)
    (hoo : ∀ w, oo = some w → 0 ≤ w ∧ w ≤ K) :
    (if cw ≠ Inhibit ∧ reprI oo ≠ Inhibit ∧ reprI oo + cw < reprI o0 then reprI oo + cw
     else reprI o0) = reprI (minCand o0 (addCand oo cw)) := by
  cases o : oo with
  | none =>
    cases o0 with
    | none => simp [reprI, minCand, addCand]
    | some u => simp [reprI, minCand, addCand]
  | some w =>
    have hw := hoo w o
    rcases hc with hc | hc
    · cases o0 with
      | none => simp [reprI, minCand, addCand, hc]
      | some u => simp [reprI, minCand, addCand, hc]
    · have hcI : cw ≠ Inhibit := by omega
      have hwI : w ≠ Inhibit := by omega
      have hsum : w + cw < Inhibit := by omega
      cases o0 with
      | none =>
        simp only [reprI, minCand, addCand, if_neg hcI]
        simp [hcI, hwI, reprI] at hsum ⊢
        omega
      | some u =>
        have hu := h0 u rfl
        simp only [reprI, addCand, if_neg hcI, minCand]
        by_cases hlt : w + cw < u
        · simp [hcI, hwI, hlt, reprI]
          omega
        · simp [hcI, hwI, hlt, reprI]
          omega

/-- `minCand` allows exchanging the second and third candidates. -/
theorem minCand_right_comm (a b c : Option ℤ) :
    minCand (minCand a b) c = minCand (minCand a c) b := by
  rcases a with _ | va <;> rcases b with _ | vb <;> rcases c with _ | vc <;>
    simp only [minCand, Option.some.injEq] <;> omega

theorem M_le_cast_mul {k : ℕ} {M : ℤ} (hM : 0 ≤ M) (hk : 1 ≤ k) :
    M ≤ ((k : ℕ) : ℤ) * M := by
  have h1 : ((1 : ℕ) : ℤ) * M ≤ ((k : ℕ) : ℤ) * M := natMulM_le hk hM
  simpa using h1

theorem refDrevO_bound2 {α : Type _} [DecidableEq α] {f : CostFunc α} {M : ℤ}
    (hok : OkCosts f M) (hM : 0 ≤ M) (ra rb : List α) :
    ∀ v, refDrevO f ra rb = some v →
      0 ≤ v ∧ v ≤ ((ra.length + rb.length : ℕ) : ℤ) * M := by
  intro v h
  have hb := refDrevO_bound hok hM ra rb v h
  refine ⟨hb.1, le_trans hb.2 (le_of_eq ?_)⟩
  push_cast
  ring

theorem initRowAux_cons {α : Type _} (f : CostFunc α) (prev : ℤ) (y : α) (ys : List α) :
    initRowAux f prev (y :: ys) =
      (if (f none (some y)).InsertB = Inhibit ∨ prev = Inhibit then Inhibit
       else prev + (f none (some y)).InsertB) ::
        initRowAux f
          (if (f none (some y)).InsertB = Inhibit ∨ prev = Inhibit then Inhibit
           else prev + (f none (some y)).InsertB) ys := rfl

theorem idealCells_cons {α : Type _} [DecidableEq α] (f : CostFunc α)
    (ra rb : List α) (y : α) (ys : List α) :
    idealCells f ra rb (y :: ys) =
      reprI (refDrevO f ra (y :: rb)) :: idealCells f ra (y :: rb) ys := rfl

theorem rowAux_cons {α : Type _} [DecidableEq α] (f : CostFunc α) (ar br : α)
    (last left : ℤ) (bs : List α) (up : ℤ) (olds : List ℤ) :
    rowAux f ar last left (br :: bs) (up :: olds) =
      cellMin f ar br last left up ::
        rowAux f ar up (cellMin f ar br last left up) bs olds := rfl

theorem distRow_cons {α : Type _} [DecidableEq α] (f : CostFunc α) (ar : α)
    (b : List α) (l0 : ℤ) (rest : List ℤ) :
    distRow f ar b (l0 :: rest) =
      (if (f (some ar) none).DeleteA = Inhibit ∨ l0 = Inhibit then Inhibit
       else l0 + (f (some ar) none).DeleteA) ::
        rowAux f ar l0
          (if (f (some ar) none).DeleteA = Inhibit ∨ l0 = Inhibit then Inhibit
           else l0 + (f (some ar) none).DeleteA) b rest := rfl

/-- The cell computation of the source equals the reference recurrence
candidates on represented values, under cost consistency and bounds. -/
theorem cellMin_eq {α : Type _} [DecidableEq α] {f : CostFunc α} {M : ℤ}
    (hok : OkCosts f M) (hcons : ConsistentCosts f) (hM : 0 ≤ M)
    (ar br : α) (od ol ou : Option ℤ) {K : ℤ}
    (hKM : K + 2 * M < Inhibit) (hK : 0 ≤ K)
    (hod : ∀ w, od = some w → 0 ≤ w ∧ w ≤ K)
    (hol : ∀ w, ol = some w → 0 ≤ w ∧ w ≤ K + M)
    (hou : ∀ w, ou = some w → 0 ≤ w ∧ w ≤ K + M) :
    cellMin f ar br (reprI od) (reprI ol) (reprI ou) =
      reprI (minCand (minCand
        (if ar = br then od else addCand od ((f (some ar) (some br)).SwapAB))
        (addCand ou ((f (some ar) none).DeleteA)))
        (addCand ol ((f none (some br)).InsertB))) := by
  have hMI : M < Inhibit := by omega
  have hdiag0 : ∀ w,
      (if ar = br then od else addCand od ((f (some ar) (some br)).SwapAB)) = some w →
      0 ≤ w ∧ w ≤ K + M := by
    intro w hw
    split at hw
    · have := hod w hw; omega
    · exact addCand_bound (hok ar br).1 hod hw
  have h02 : ∀ w,
      minCand (if ar = br then od else addCand od ((f (some ar) (some br)).SwapAB))
        (addCand ol ((f none (some br)).InsertB)) = some w → w < Inhibit := by
    intro w hw
    have := minCand_bound (K := K + 2 * M)
      (bound_mono (by omega) hdiag0)
      (fun u hu => by
        have := addCand_bound (hok ar br).2.2 hol hu; omega) hw
    omega
  simp only [cellMin]
  rw [(hcons ar br).1, (hcons ar br).2]
  rw [diagStep_eq ar br (hok ar br).1 hMI (fun w hw => by have := hod w hw; omega)]
  rw [minStep_eq (K := K + M) (hok ar br).2.2 hM (by omega)
    (fun w hw => by have := hdiag0 w hw; omega) hol]
  rw [minStep_eq (K := K + M) (hok ar br).2.1 hM (by omega) h02 hou]
  rw [minCand_right_comm]

/-- The first loop of `Distance` computes the represented reference cells
of the row for the empty consumed prefix. -/
theorem initRowAux_eq {α : Type _} [DecidableEq α] {f : CostFunc α} {M : ℤ}
    (hok : OkCosts f M) (hM : 0 ≤ M) :
    ∀ (bs rb : List α), ((rb.length + bs.length + 1 : ℕ) : ℤ) * M < Inhibit →
      initRowAux f (reprI (refDrevO f ([] : List α) rb)) bs =
        idealCells f ([] : List α) rb bs := by
  intro bs
  induction bs with
  | nil => intro rb _; rfl
  | cons y ys ih =>
    intro rb hbig
    have hMI : M < Inhibit :=
      lt_of_le_of_lt (M_le_cast_mul hM (by omega)) hbig
    have pb := refDrevO_bound2 hok hM ([] : List α) rb
    simp only [List.length_nil, Nat.zero_add] at pb
    have hprev : ∀ w, refDrevO f ([] : List α) rb = some w → w < Inhibit := by
      intro w hw
      have h1 := (pb w hw).2
      have h2 : ((rb.length : ℕ) : ℤ) * M ≤
          ((rb.length + (y :: ys).length + 1 : ℕ) : ℤ) * M := natMulM_le (by omega) hM
      omega
    rw [initRowAux_cons, idealCells_cons]
    rw [step_eq (hok y y).2.2 hMI hprev]
    have hfold : addCand (refDrevO f ([] : List α) rb) ((f none (some y)).InsertB) =
        refDrevO f ([] : List α) (y :: rb) := by
      rw [refDrevO]
    rw [hfold]
    have hlen : (y :: rb).length + ys.length + 1 = rb.length + (y :: ys).length + 1 := by
      simp [List.length_cons]; omega
    have := ih (y :: rb) (by rw [hlen]; exact hbig)
    rw [this]

/-- The inner loop of `Distance` maps the reference cells of the previous
row to the reference cells of the next row. -/
theorem rowAux_eq {α : Type _} [DecidableEq α] {f : CostFunc α} {M : ℤ} (ar : α)
    (hok : OkCosts f M) (hcons : ConsistentCosts f) (hM : 0 ≤ M) :
    ∀ (bs rb ra : List α),
      ((ra.length + rb.length + bs.length + 2 : ℕ) : ℤ) * M < Inhibit →
      rowAux f ar (reprI (refDrevO f ra rb)) (reprI (refDrevO f (ar :: ra) rb)) bs
        (idealCells f ra rb bs) = idealCells f (ar :: ra) rb bs := by
  intro bs
  induction bs with
  | nil => intro rb ra _; rfl
  | cons br bs ih =>
    intro rb ra hbig
    rw [idealCells_cons, rowAux_cons, idealCells_cons]
    have hKM : ((ra.length + rb.length : ℕ) : ℤ) * M + 2 * M < Inhibit := by
      have e : ((ra.length + rb.length : ℕ) : ℤ) * M + 2 * M =
          ((ra.length + rb.length + 2 : ℕ) : ℤ) * M := by push_cast; ring
      rw [e]
      exact lt_of_le_of_lt (natMulM_le (by omega) hM) hbig
    have hK : (0 : ℤ) ≤ ((ra.length + rb.length : ℕ) : ℤ) * M :=
      mul_nonneg (by positivity) hM
    have hol : ∀ w, refDrevO f (ar :: ra) rb = some w →
        0 ≤ w ∧ w ≤ ((ra.length + rb.length : ℕ) : ℤ) * M + M := by
      intro w hw
      have := refDrevO_bound2 hok hM (ar :: ra) rb w hw
      refine ⟨this.1, le_trans this.2 (le_of_eq ?_)⟩
      simp only [List.length_cons]
      push_cast; ring
    have hou : ∀ w, refDrevO f ra (br :: rb) = some w →
        0 ≤ w ∧ w ≤ ((ra.length + rb.length : ℕ) : ℤ) * M + M := by
      intro w hw
      have := refDrevO_bound2 hok hM ra (br :: rb) w hw
      refine ⟨this.1, le_trans this.2 (le_of_eq ?_)⟩
      simp only [List.length_cons]
      push_cast; ring
    have hcell := cellMin_eq hok hcons hM ar br (refDrevO f ra rb)
      (refDrevO f (ar :: ra) rb) (refDrevO f ra (br :: rb)) hKM hK
      (refDrevO_bound2 hok hM ra rb) hol hou
    have hfold : reprI (minCand (minCand
        (if ar = br then refDrevO f ra rb
         else addCand (refDrevO f ra rb) ((f (some ar) (some br)).SwapAB))
        (addCand (refDrevO f ra (br :: rb)) ((f (some ar) none).DeleteA)))
        (addCand (refDrevO f (ar :: ra) rb) ((f none (some br)).InsertB))) =
        reprI (refDrevO f (ar :: ra) (br :: rb)) := by
      rw [refDrevO]
    rw [hcell, hfold]
    have hlen : ra.length + (br :: rb).length + bs.length + 2 =
        ra.length + rb.length + (br :: bs).length + 2 := by
      simp [List.length_cons]; omega
    have := ih (br :: rb) ra (by rw [hlen]; exact hbig)
    rw [this]

/-- One outer iteration of `Distance` maps the reference row of the
consumed prefix to the reference row with one more consumed element. -/
theorem distRow_eq {α : Type _} [DecidableEq α] {f : CostFunc α} {M : ℤ} (ar : α)
    (b ra : List α) (hok : OkCosts f M) (hcons : ConsistentCosts f) (hM : 0 ≤ M)
    (hbig : ((ra.length + b.length + 2 : ℕ) : ℤ) * M < Inhibit) :
    distRow f ar b (idealRow f ra b) = idealRow f (ar :: ra) b := by
  have hMI : M < Inhibit := lt_of_le_of_lt (M_le_cast_mul hM (by omega)) hbig
  have hprev : ∀ w, refDrevO f ra ([] : List α) = some w → w < Inhibit := by
    intro w hw
    have h1 := (refDrevO_bound2 hok hM ra ([] : List α) w hw).2
    have h2 : ((ra.length + ([] : List α).length : ℕ) : ℤ) * M ≤
        ((ra.length + b.length + 2 : ℕ) : ℤ) * M :=
      natMulM_le (by simp [List.length_nil]; omega) hM
    omega
  unfold idealRow
  rw [distRow_cons]
  rw [step_eq (hok ar ar).2.1 hMI hprev]
  have hfold : addCand (refDrevO f ra ([] : List α)) ((f (some ar) none).DeleteA) =
      refDrevO f (ar :: ra) ([] : List α) := by
    rw [refDrevO]
  rw [hfold]
  have hlen : ra.length + ([] : List α).length + b.length + 2 =
      ra.length + b.length + 2 := by simp
  have := rowAux_eq ar hok hcons hM b ([] : List α) ra (by rw [hlen]; exact hbig)
  rw [this]

/-- With `cut = 0` the outer loop never breaks and computes the reference
row of the whole consumed input. -/
theorem distLoop_zero_eq {α : Type _} [DecidableEq α] {f : CostFunc α} {M : ℤ}
    (b : List α) (hok : OkCosts f M) (hcons : ConsistentCosts f) (hM : 0 ≤ M) :
    ∀ (arest ra : List α),
      ((ra.length + arest.length + b.length + 1 : ℕ) : ℤ) * M < Inhibit →
      distLoop f b 0 arest (idealRow f ra b) = idealRow f (arest.reverse ++ ra) b := by
  intro arest
  induction arest with
  | nil => intro ra _; simp [distLoop]
  | cons ar arest ih =>
    intro ra hbig
    rw [distLoop]
    rw [if_neg (by simp)]
    have h1 : ((ra.length + b.length + 2 : ℕ) : ℤ) * M < Inhibit :=
      lt_of_le_of_lt (natMulM_le (by simp [List.length_cons]; omega) hM) hbig
    rw [distRow_eq ar b ra hok hcons hM h1]
    have hlen : (ar :: ra).length + arest.length + b.length + 1 =
        ra.length + (ar :: arest).length + b.length + 1 := by
      simp [List.length_cons]; omega
    have h2 := ih (ar :: ra) (by rw [hlen]; exact hbig)
    rw [h2]
    simp [List.reverse_cons, List.append_assoc]

theorem idealCells_getLastD {α : Type _} [DecidableEq α] (f : CostFunc α) (ra : List α) :
    ∀ (bs rb : List α),
      (idealCells f ra rb bs).getLastD (reprI (refDrevO f ra rb)) =
        reprI (refDrevO f ra (bs.reverse ++ rb)) := by
  intro bs
  induction bs with
  | nil => intro rb; rfl
  | cons y ys ih =>
    intro rb
    rw [idealCells_cons, List.getLastD_cons, ih (y :: rb)]
    simp [List.reverse_cons, List.append_assoc]

theorem idealRow_getLastD {α : Type _} [DecidableEq α] (f : CostFunc α)
    (ra b : List α) :
    (idealRow f ra b).getLastD 0 = reprI (refDrevO f ra b.reverse) := by
  unfold idealRow
  rw [List.getLastD_cons, idealCells_getLastD]
  simp

theorem initRow_eq {α : Type _} [DecidableEq α] {f : CostFunc α} {M : ℤ}
    (b : List α) (hok : OkCosts f M) (hM : 0 ≤ M)
    (hbig : ((b.length + 1 : ℕ) : ℤ) * M < Inhibit) :
    initRow f b = idealRow f ([] : List α) b := by
  unfold initRow idealRow
  have h0 : (0 : ℤ) = reprI (refDrevO f ([] : List α) ([] : List α)) := by
    rw [refDrevO]; rfl
  rw [h0, initRowAux_eq hok hM b ([] : List α) (by simpa using hbig)]

/-- Master correspondence: with `cut = 0` the engine returns the
represented reference value, under cost consistency and range bounds. -/
theorem distance_zero_eq {α : Type _} [DecidableEq α] (f : CostFunc α) {M : ℤ}
    (a b : List α) (hok : OkCosts f M) (hcons : ConsistentCosts f) (hM : 0 ≤ M)
    (hbig : ((a.length + b.length + 1 : ℕ) : ℤ) * M < Inhibit) :
    Distance a b f 0 = reprI (refDistO f a b) := by
  unfold Distance
  have hb1 : ((b.length + 1 : ℕ) : ℤ) * M < Inhibit :=
    lt_of_le_of_lt (natMulM_le (show b.length + 1 ≤ a.length + b.length + 1 by omega) hM) hbig
  have hb2 : ((([] : List α).length + a.length + b.length + 1 : ℕ) : ℤ) * M < Inhibit := by
    simpa using hbig
  rw [initRow_eq b hok hM hb1]
  rw [distLoop_zero_eq b hok hcons hM a ([] : List α) hb2]
  rw [List.append_nil]
  exact idealRow_getLastD f a.reverse b

theorem FiniteCosts.ok {α : Type _} {f : CostFunc α} {M : ℤ}
    (hf : FiniteCosts f M) : OkCosts f M := fun x y =>
  ⟨Or.inr (hf x y).1, Or.inr (hf x y).2.1, Or.inr (hf x y).2.2⟩

/-- With finite costs no transition is inhibited, so the two reference
recurrences agree. -/
theorem refDrevO_eq_some {α : Type _} [DecidableEq α] {f : CostFunc α} {M : ℤ}
    (hf : FiniteCosts f M) (hMI : M < Inhibit) :
    ∀ ra rb : List α, refDrevO f ra rb = some (refDrev f ra rb) := by
  intro ra rb
  induction ra, rb using refDrevO.induct f with
  | case1 => rw [refDrevO, refDrev]
  | case2 y ys ih =>
    have hcI : (f none (some y)).InsertB ≠ Inhibit := by
      have := (hf y y).2.2; omega
    rw [refDrevO, refDrev, ih]
    simp [addCand, hcI]
  | case3 x xs ih =>
    have hcI : (f (some x) none).DeleteA ≠ Inhibit := by
      have := (hf x x).2.1; omega
    rw [refDrevO, refDrev, ih]
    simp [addCand, hcI]
  | case4 x xs y ys ih1 ih2 ih3 =>
    have hsI : (f (some x) (some y)).SwapAB ≠ Inhibit := by
      have := (hf x y).1; omega
    have hdI : (f (some x) none).DeleteA ≠ Inhibit := by
      have := (hf x x).2.1; omega
    have hiI : (f none (some y)).InsertB ≠ Inhibit := by
      have := (hf y y).2.2; omega
    rw [refDrevO, refDrev, ih1, ih2, ih3]
    by_cases hxy : x = y
    · subst hxy
      simp [addCand, minCand, hsI, hdI, hiI]
    · simp [hxy, addCand, minCand, hsI, hdI, hiI]

/-- With finite, consistent, bounded costs, `Distance` at `cut = 0`
computes the claim-side recurrence value. -/
theorem distance_zero_eq_refDist {α : Type _} [DecidableEq α] (f : CostFunc α) {M : ℤ}
    (a b : List α) (hf : FiniteCosts f M) (hcons : ConsistentCosts f) (hM : 0 ≤ M)
    (hbig : ((a.length + b.length + 1 : ℕ) : ℤ) * M < Inhibit) :
    Distance a b f 0 = refDist f a b := by
  have hMI : M < Inhibit := lt_of_le_of_lt (M_le_cast_mul hM (by omega)) hbig
  rw [distance_zero_eq f a b hf.ok hcons hM hbig]
  unfold refDistO refDist
  rw [refDrevO_eq_some hf hMI]
  rfl

/-- C2 (counterexample): for the non-negative cost function `f0`, the
engine returns 5 on `A = [0], B = [1]` while the claim-side recurrence
(delete at `f(A[i],absent).delete`, insert at `f(absent,B[j]).insert`)
yields 2 — the engine reads delete/insert costs from the aligned-pair
callback `f(A[i],B[j])` instead. -/
theorem C2_counterexample :
    (∀ x y : Option ℕ, 0 ≤ (f0 x y).SwapAB ∧ 0 ≤ (f0 x y).DeleteA ∧ 0 ≤ (f0 x y).InsertB) ∧
    Distance [0] [1] f0 0 = 5 ∧ refDist f0 [0] [1] = 2 ∧ (5 : ℤ) ≠ 2 := by
  refine ⟨?_, by decide, ?_, by decide⟩
  · intro x y
    rcases x with _ | n <;> rcases y with _ | m <;> simp [f0]
  · simp [refDist, refDrev, f0]

/-- C2 (amended): if in addition the cost function reads its delete cost
only from the source element and its insert cost only from the target
element (`ConsistentCosts`), all components are finite weights in
`[0, M]`, and the total work stays below the sentinel, then
`Distance(A, B, f, 0)` equals the claim-side recurrence value. -/
theorem C2_dist_eq_recurrence {α : Type _} [DecidableEq α] (a b : List α)
    (f : CostFunc α) (M : ℤ) (hf : FiniteCosts f M) (hcons : ConsistentCosts f)
    (hM : 0 ≤ M) (hbig : ((a.length + b.length + 1 : ℕ) : ℤ) * M < Inhibit) :
    Distance a b f 0 = refDist f a b :=
  distance_zero_eq_refDist f a b hf hcons hM hbig

/-- C2 (witness): the amended theorem applied at a concrete instance. -/
theorem C2_witness :
    Distance [0, 1] [1] (StandardCost (α := ℕ)) 0 = refDist StandardCost [0, 1] [1] :=
  C2_dist_eq_recurrence [0, 1] [1] StandardCost 1
    (fun x y => by norm_num [StandardCost])
    (fun x y => ⟨rfl, rfl⟩)
    (by norm_num)
    (by norm_num [Inhibit])

/-- C7 (counterexample): on `A = [0,1], B = []` with finite non-negative
deletion costs `1` and `2^63 - 2`, a feasible transformation exists (the
claim-side recurrence returns a value), yet the engine returns the
inhibited sentinel, because the summed path cost reaches the sentinel
exactly. -/
theorem C7_counterexample :
    refDistO f7 [0, 1] [] = some Inhibit ∧
    Distance [0, 1] ([] : List ℕ) f7 0 = Inhibit := by
  constructor
  · simp [refDistO, refDrevO, f7, addCand, Inhibit]
  · decide

/-- C7 (amended): with consistent costs whose components are inhibited or
in `[0, M]` and total work below the sentinel, infeasibility (per the
claim-side recurrence) is reported as the sentinel and never as an
error, and a feasible result is the true value and never the sentinel. -/
theorem C7_sentinel_infeasible {α : Type _} [DecidableEq α] (a b : List α)
    (f : CostFunc α) (M : ℤ) (hok : OkCosts f M) (hcons : ConsistentCosts f)
    (hM : 0 ≤ M) (hbig : ((a.length + b.length + 1 : ℕ) : ℤ) * M < Inhibit) :
    (refDistO f a b = none → Distance a b f 0 = Inhibit) ∧
    (∀ v, refDistO f a b = some v → Distance a b f 0 = v ∧ v ≠ Inhibit) := by
  have hmain := distance_zero_eq f a b hok hcons hM hbig
  constructor
  · intro h
    rw [hmain, h]
    rfl
  · intro v hv
    have hv2 : refDrevO f a.reverse b.reverse = some v := hv
    have hb := refDrevO_bound hok hM a.reverse b.reverse v hv2
    have hlt : v < Inhibit := by
      have e1 : (↑a.reverse.length + ↑b.reverse.length) * M ≤
          ((a.length + b.length + 1 : ℕ) : ℤ) * M := by
        simp only [List.length_reverse]
        push_cast
        nlinarith
      have := hb.2
      omega
    refine ⟨?_, by omega⟩
    rw [hmain, hv]
    rfl

/-- C7 (witness): the amended theorem applied at a concrete instance. -/
theorem C7_witness :
    (refDistO (StandardCost (α := ℕ)) [0] [] = none →
      Distance [0] [] (StandardCost (α := ℕ)) 0 = Inhibit) ∧
    (∀ v, refDistO (StandardCost (α := ℕ)) [0] [] = some v →
      Distance [0] [] (StandardCost (α := ℕ)) 0 = v ∧ v ≠ Inhibit) :=
  C7_sentinel_infeasible [0] [] StandardCost 1
    (fun x y => ⟨Or.inr (by norm_num [StandardCost]),
      Or.inr (by norm_num [StandardCost]), Or.inr (by norm_num [StandardCost])⟩)
    (fun x y => ⟨rfl, rfl⟩)
    (by norm_num)
    (by norm_num [Inhibit])

/-- C10: with a non-empty source, an empty target, a non-inhibited delete
cost for the first source element and a positive cutoff, the early-exit
scan is vacuously satisfied after the first row, so the engine returns
only the deletion cost of the first element of `A` — independently of the
rest of `A`. -/
theorem C10_empty_target_early_exit {α : Type _} [DecidableEq α] (a0 : α)
    (rest : List α) (f : CostFunc α) (cut : ℤ)
    (hdel : (f (some a0) none).DeleteA ≠ Inhibit) (hcut : 0 < cut) :
    Distance (a0 :: rest) [] f cut = (f (some a0) none).DeleteA := by
  have hc : cut ≠ 0 := by omega
  have h0 : (0 : ℤ) ≠ Inhibit := by norm_num [Inhibit]
  unfold Distance initRow initRowAux distLoop
  simp [distRow, rowAux, stopRow, hdel, hc, h0]

/-- C10 (witness): the theorem applied at a concrete instance. -/
theorem C10_witness :
    Distance [0, 1, 2] ([] : List ℕ) StandardCost 3 =
      (StandardCost (some 0) none).DeleteA :=
  C10_empty_target_early_exit 0 [1, 2] StandardCost 3
    (by norm_num [StandardCost, Inhibit]) (by norm_num)

theorem idealCells_eq_refCells {α : Type _} [DecidableEq α] {f : CostFunc α} {M : ℤ}
    (hf : FiniteCosts f M) (hMI : M < Inhibit) (ra : List α) :
    ∀ (bs rb : List α), idealCells f ra rb bs = refCells f ra rb bs := by
  intro bs
  induction bs with
  | nil => intro rb; rfl
  | cons y ys ih =>
    intro rb
    rw [idealCells_cons]
    show _ = refDrev f ra (y :: rb) :: refCells f ra (y :: rb) ys
    rw [refDrevO_eq_some hf hMI ra (y :: rb), ih (y :: rb)]
    rfl

theorem idealRow_eq_refRow {α : Type _} [DecidableEq α] {f : CostFunc α} {M : ℤ}
    (hf : FiniteCosts f M) (hMI : M < Inhibit) (ra b : List α) :
    idealRow f ra b = refRow f ra b := by
  unfold idealRow refRow
  rw [refDrevO_eq_some hf hMI ra ([] : List α), idealCells_eq_refCells hf hMI ra b ([] : List α)]
  rfl

theorem finite_standard {α : Type _} :
    FiniteCosts (StandardCost : CostFunc α) 1 := fun _ _ => by
  norm_num [StandardCost]

theorem one_lt_inhibit : (1 : ℤ) < Inhibit := by norm_num [Inhibit]

theorem consistent_standard {α : Type _} :
    ConsistentCosts (StandardCost : CostFunc α) := fun _ _ => ⟨rfl, rfl⟩

/-- With unit costs, transforming a prefix into the empty sequence costs
its length. -/
theorem refDrev_nil_right {α : Type _} [DecidableEq α] (ra : List α) :
    refDrev (StandardCost : CostFunc α) ra [] = ra.length := by
  induction ra with
  | nil => rw [refDrev]; rfl
  | cons x xs ih =>
    rw [refDrev, ih]
    simp [StandardCost, List.length_cons]

/-- With unit costs, transforming a non-empty prefix into a single
element costs at most the length of the prefix. -/
theorem refDrev_single_le {α : Type _} [DecidableEq α] (x : α) (xs : List α) (y : α) :
    refDrev (StandardCost : CostFunc α) (x :: xs) [y] ≤ (x :: xs).length := by
  rw [refDrev]
  have h1 : refDrev (StandardCost : CostFunc α) xs [] = xs.length := refDrev_nil_right xs
  have hs : (if x = y then (0 : ℤ) else (StandardCost (some x) (some y)).SwapAB) ≤ 1 := by
    split <;> simp [StandardCost]
  simp only [List.length_cons]
  have h2 := min_le_left
    (min (refDrev (StandardCost : CostFunc α) xs [] +
        (if x = y then (0 : ℤ) else (StandardCost (some x) (some y)).SwapAB))
      (refDrev (StandardCost : CostFunc α) xs [y] + (StandardCost (some x) none).DeleteA))
    (refDrev (StandardCost : CostFunc α) (x :: xs) [] + (StandardCost none (some y)).InsertB)
  have h3 := min_le_left
    (refDrev (StandardCost : CostFunc α) xs [] +
      (if x = y then (0 : ℤ) else (StandardCost (some x) (some y)).SwapAB))
    (refDrev (StandardCost : CostFunc α) xs [y] + (StandardCost (some x) none).DeleteA)
  push_cast
  omega

/-- With unit costs, every cell of the next row is at least the minimum
of the cells of the previous row together with the already computed
cells of the next row. -/
theorem newRow_cells_ge {α : Type _} [DecidableEq α] (ar : α) (ra : List α) (m : ℤ) :
    ∀ (bs rb : List α),
      m ≤ refDrev (StandardCost : CostFunc α) (ar :: ra) rb →
      m ≤ refDrev (StandardCost : CostFunc α) ra rb →
      (∀ u ∈ refCells (StandardCost : CostFunc α) ra rb bs, m ≤ u) →
      ∀ v ∈ refCells (StandardCost : CostFunc α) (ar :: ra) rb bs, m ≤ v := by
  intro bs
  induction bs with
  | nil => intro rb _ _ _ v hv; simp [refCells] at hv
  | cons y ys ih =>
    intro rb hleft hdiag hcells v hv
    have hup : m ≤ refDrev (StandardCost : CostFunc α) ra (y :: rb) :=
      hcells _ (by simp [refCells])
    have hnew : m ≤ refDrev (StandardCost : CostFunc α) (ar :: ra) (y :: rb) := by
      rw [refDrev]
      have hs : (0 : ℤ) ≤
          (if ar = y then (0 : ℤ) else (StandardCost (some ar) (some y)).SwapAB) := by
        split <;> simp [StandardCost]
      have hd : (StandardCost (α := α) (some ar) none).DeleteA = 1 := rfl
      have hi : (StandardCost (α := α) none (some y)).InsertB = 1 := rfl
      rw [hd, hi]
      omega
    simp only [refCells, List.mem_cons] at hv
    rcases hv with rfl | hv
    · exact hnew
    · refine ih (y :: rb) hnew hup ?_ v hv
      intro u hu
      exact hcells u (by simp [refCells, hu])

/-- With unit costs, a lower bound on a whole row is a lower bound on the
next row. -/
theorem refRow_ge_step {α : Type _} [DecidableEq α] (ar : α) (ra b : List α) (m : ℤ)
    (h : ∀ u ∈ refRow (StandardCost : CostFunc α) ra b, m ≤ u) :
    ∀ v ∈ refRow (StandardCost : CostFunc α) (ar :: ra) b, m ≤ v := by
  have hhead : m ≤ refDrev (StandardCost : CostFunc α) ra [] :=
    h _ (by simp [refRow])
  have hhead2 : m ≤ refDrev (StandardCost : CostFunc α) (ar :: ra) [] := by
    rw [refDrev]
    have hd : (StandardCost (α := α) (some ar) none).DeleteA = 1 := rfl
    rw [hd]
    omega
  intro v hv
  simp only [refRow, List.mem_cons] at hv
  rcases hv with rfl | hv
  · exact hhead2
  · refine newRow_cells_ge ar ra m b ([] : List α) hhead2 hhead ?_ v hv
    intro u hu
    exact h u (by simp [refRow, hu])

/-- With unit costs, a lower bound on a row is a lower bound on every
later row. -/
theorem refRow_ge_chain {α : Type _} [DecidableEq α] (b : List α) :
    ∀ (arest ra : List α) (m : ℤ),
      (∀ u ∈ refRow (StandardCost : CostFunc α) ra b, m ≤ u) →
      ∀ v ∈ refRow (StandardCost : CostFunc α) (arest.reverse ++ ra) b, m ≤ v := by
  intro arest
  induction arest with
  | nil => intro ra m h; simpa using h
  | cons ar arest ih =>
    intro ra m h
    have h2 := refRow_ge_step ar ra b m h
    have h3 := ih (ar :: ra) m h2
    simpa [List.reverse_cons, List.append_assoc] using h3

theorem getLastD_mem : ∀ (l : List ℤ) (d : ℤ), l ≠ [] → l.getLastD d ∈ l := by
  intro l
  induction l with
  | nil => intro d h; exact absurd rfl h
  | cons x xs ih =>
    intro d _
    rw [List.getLastD_cons]
    by_cases hxs : xs = []
    · subst hxs; simp [List.getLastD]
    · exact List.mem_cons.mpr (Or.inr (ih x hxs))

theorem refRow_getLastD {α : Type _} [DecidableEq α] (ra b : List α) :
    (refRow (StandardCost : CostFunc α) ra b).getLastD 0 =
      refDrev (StandardCost : CostFunc α) ra b.reverse := by
  rw [← idealRow_eq_refRow finite_standard one_lt_inhibit, idealRow_getLastD,
    refDrevO_eq_some finite_standard one_lt_inhibit]
  rfl

/-- With unit costs, if the cutoff exceeds the final distance then the
early-exit scan of a computed row never succeeds. -/
theorem no_stop {α : Type _} [DecidableEq α] (b : List α) (hb : b ≠ []) (cut : ℤ)
    (arest ra : List α) (hra : ra ≠ [])
    (hd : refDrev (StandardCost : CostFunc α) (arest.reverse ++ ra) b.reverse < cut) :
    stopRow cut (refRow (StandardCost : CostFunc α) ra b) = false := by
  by_contra hstop
  have hstop2 : ∀ v ∈ refCells (StandardCost : CostFunc α) ra ([] : List α) b, cut ≤ v := by
    have h1 : stopRow cut (refRow (StandardCost : CostFunc α) ra b) = true := by
      revert hstop
      cases stopRow cut (refRow (StandardCost : CostFunc α) ra b) <;> simp
    simp only [refRow, stopRow, List.all_eq_true] at h1
    intro v hv
    have := h1 v hv
    simp at this
    omega
  have hhead : refDrev (StandardCost : CostFunc α) ra [] = ra.length :=
    refDrev_nil_right ra
  set m : ℤ := min cut (ra.length : ℤ) with hm
  have hrow : ∀ u ∈ refRow (StandardCost : CostFunc α) ra b, m ≤ u := by
    intro u hu
    simp only [refRow, List.mem_cons] at hu
    rcases hu with rfl | hu
    · rw [hhead]; omega
    · have := hstop2 u hu; omega
  have hfinal := refRow_ge_chain b arest ra m hrow
  have hlast : m ≤ refDrev (StandardCost : CostFunc α) (arest.reverse ++ ra) b.reverse := by
    have hmem := getLastD_mem (refRow (StandardCost : CostFunc α) (arest.reverse ++ ra) b) 0
      (by simp [refRow])
    rw [refRow_getLastD] at hmem
    exact hfinal _ hmem
  have hralen : (ra.length : ℤ) ≤ refDrev (StandardCost : CostFunc α)
      (arest.reverse ++ ra) b.reverse := by omega
  obtain ⟨b0, brest, rfl⟩ : ∃ b0 brest, b = b0 :: brest := by
    cases b with
    | nil => exact absurd rfl hb
    | cons b0 brest => exact ⟨b0, brest, rfl⟩
  obtain ⟨x, xs, rfl⟩ : ∃ x xs, ra = x :: xs := by
    cases ra with
    | nil => exact absurd rfl hra
    | cons x xs => exact ⟨x, xs, rfl⟩
  have hcell1 : cut ≤ refDrev (StandardCost : CostFunc α) (x :: xs) [b0] :=
    hstop2 _ (by simp [refCells])
  have hcell1b := refDrev_single_le x xs b0
  omega

/-- With unit costs and a cutoff exceeding the final distance, the outer
loop never breaks early and computes every row. -/
theorem distLoop_exact {α : Type _} [DecidableEq α] (b : List α) (hb : b ≠ []) (cut : ℤ) :
    ∀ (arest ra : List α),
      ((ra.length + arest.length + b.length + 1 : ℕ) : ℤ) * 1 < Inhibit →
      refDrev (StandardCost : CostFunc α) (arest.reverse ++ ra) b.reverse < cut →
      distLoop (StandardCost : CostFunc α) b cut arest
          (refRow (StandardCost : CostFunc α) ra b) =
        refRow (StandardCost : CostFunc α) (arest.reverse ++ ra) b := by
  intro arest
  induction arest with
  | nil => intro ra _ _; simp [distLoop]
  | cons ar arest ih =>
    intro ra hbig hd
    rw [distLoop]
    have hrow : distRow (StandardCost : CostFunc α) ar b
        (refRow (StandardCost : CostFunc α) ra b) =
        refRow (StandardCost : CostFunc α) (ar :: ra) b := by
      rw [← idealRow_eq_refRow finite_standard one_lt_inhibit,
          ← idealRow_eq_refRow finite_standard one_lt_inhibit]
      exact distRow_eq ar b ra finite_standard.ok consistent_standard (by norm_num)
        (lt_of_le_of_lt (natMulM_le (by simp only [List.length_cons]; omega)
          (by norm_num)) hbig)
    rw [hrow]
    have he : (ar :: arest).reverse ++ ra = arest.reverse ++ (ar :: ra) := by
      simp [List.reverse_cons, List.append_assoc]
    have hd2 : refDrev (StandardCost : CostFunc α) (arest.reverse ++ (ar :: ra))
        b.reverse < cut := by rw [← he]; exact hd
    have hstop : stopRow cut (refRow (StandardCost : CostFunc α) (ar :: ra) b) = false :=
      no_stop b hb cut arest (ar :: ra) (by simp) hd2
    rw [if_neg (by simp [hstop])]
    have hbig2 : (((ar :: ra).length + arest.length + b.length + 1 : ℕ) : ℤ) * 1 <
        Inhibit :=
      lt_of_le_of_lt (natMulM_le (by simp only [List.length_cons]; omega)
        (by norm_num)) hbig
    rw [ih (ar :: ra) hbig2 hd2, he]

/-- C3 (counterexample): the claim asserts
`distance("abcdef","abc",unit,3) == 2`, but the engine returns 3 (the
repository test uses `"abcd"`, not `"abc"`, for the cutoff-3 case). -/
theorem C3_counterexample :
    Distance "abcdef".toList "abc".toList StandardCost 3 = 3 ∧
    ¬ (Distance "abcdef".toList "abc".toList StandardCost 3 = 2) := by
  constructor <;> decide

/-- C3 (amended): for unit costs, a non-empty `B` and input lengths below
the sentinel, the value returned for a cutoff exceeding the true distance
is exactly the true distance; moreover
`distance("abcdef","abc",unit,2) = 2` and
`distance("abcdef","abcd",unit,3) = 2`.  (For cutoff > 0 in general the
returned value need not be a lower bound on the true distance:
`distance("qwabc","abc",unit,2) = 3` while the true distance is 2.) -/
theorem C3_cutoff_exactness :
    (∀ {α : Type u} [DecidableEq α] (a b : List α) (cut : ℤ), b ≠ [] →
      ((a.length + b.length + 1 : ℕ) : ℤ) < Inhibit →
      refDist StandardCost a b < cut →
      Distance a b StandardCost cut = refDist StandardCost a b) ∧
    Distance "abcdef".toList "abc".toList StandardCost 2 = 2 ∧
    Distance "abcdef".toList "abcd".toList StandardCost 3 = 2 := by
  refine ⟨?_, by decide, by decide⟩
  intro α _ a b cut hb hlen hd
  unfold Distance
  have hb0 : ((b.length + 1 : ℕ) : ℤ) * 1 < Inhibit := by
    push_cast at hlen ⊢
    omega
  have h1 : initRow (StandardCost : CostFunc α) b =
      refRow StandardCost ([] : List α) b := by
    rw [initRow_eq b finite_standard.ok (by norm_num) hb0,
      idealRow_eq_refRow finite_standard one_lt_inhibit]
  rw [h1]
  have hb1 : ((([] : List α).length + a.length + b.length + 1 : ℕ) : ℤ) * 1 <
      Inhibit := by
    push_cast at hlen ⊢
    simp only [List.length_nil]
    push_cast
    omega
  have hd2 : refDrev (StandardCost : CostFunc α) (a.reverse ++ ([] : List α))
      b.reverse < cut := by
    rw [List.append_nil]
    exact hd
  rw [distLoop_exact b hb cut a ([] : List α) hb1 hd2, List.append_nil,
    refRow_getLastD]
  rfl

/-- C3 (witness): the exactness part applied at a concrete instance. -/
theorem C3_witness :
    Distance [0, 1] [1] (StandardCost : CostFunc ℕ) 5 =
      refDist StandardCost [0, 1] [1] :=
  C3_cutoff_exactness.1 [0, 1] [1] 5 (by simp) (by norm_num [Inhibit])
    (by simp [refDist, refDrev, StandardCost])

end ListDist

namespace Assign

/-- C4: on sources = [], targets = [10, 20] with insertion costs 5 and 3,
the engine matches column 0 to padding row 1 and column 1 to padding row
0, and the insert branch then emits `targets[i]` instead of `targets[j]`:
the pair for column 0 carries target 20 (which is `targets[1]`) together
with the insertion cost 5 of target 10, instead of target 10 itself. -/
theorem C4_insert_branch_uses_row_index :
    Assign ([] : List ℕ) [10, 20] insOpts =
      some [⟨none, some 20, 5⟩, ⟨none, some 10, 3⟩] ∧
    ([10, 20] : List ℕ).getD 0 default = 10 ∧ (10 : ℕ) ≠ 20 := by
  refine ⟨by decide, by decide, by decide⟩

theorem translatePair_append {α : Type _} [Inhabited α] (sources targets : List α)
    (o : AssignOptions α) (costs : ℕ → ℕ → ℤ) (optimal : ℕ → ℕ)
    (acc : List (Pair α)) (j : ℕ) :
    translatePair sources targets o costs optimal acc j =
      acc ++ translatePair sources targets o costs optimal [] j := by
  simp only [translatePair]
  split
  · split <;> simp
  · split
    · simp
    · split <;> simp

theorem translate_fold_acc {α : Type _} [Inhabited α] (sources targets : List α)
    (o : AssignOptions α) (costs : ℕ → ℕ → ℤ) (optimal : ℕ → ℕ) :
    ∀ (js : List ℕ) (acc : List (Pair α)),
      js.foldl (translatePair sources targets o costs optimal) acc =
        acc ++ js.foldl (translatePair sources targets o costs optimal) [] := by
  intro js
  induction js with
  | nil => intro acc; simp
  | cons j js ih =>
    intro acc
    rw [List.foldl_cons, List.foldl_cons, ih (translatePair sources targets o costs optimal acc j),
      ih (translatePair sources targets o costs optimal [] j),
      translatePair_append, List.append_assoc]

/-- Every pair emitted by the translation for a single column is either
not an update pair or does not carry `maxCost`. -/
theorem translatePair_no_max_update {α : Type _} [Inhabited α]
    (sources targets : List α) (o : AssignOptions α) (costs : ℕ → ℕ → ℤ)
    (optimal : ℕ → ℕ) (j : ℕ) (p : Pair α)
    (hp : p ∈ translatePair sources targets o costs optimal [] j) :
    p.source.isSome → p.target.isSome → p.cost ≠ o.maxCost := by
  simp only [translatePair] at hp
  split at hp
  · split at hp
    · simp at hp
      rcases hp with rfl | rfl <;> simp
    · simp at hp
      subst hp
      intro _ _
      simpa using (by assumption : ¬ _)
  · split at hp
    · simp at hp
      subst hp
      simp
    · split at hp
      · simp at hp
        subst hp
        simp
      · simp at hp

theorem translate_fold_mem {α : Type _} [Inhabited α] (sources targets : List α)
    (o : AssignOptions α) (costs : ℕ → ℕ → ℤ) (optimal : ℕ → ℕ) :
    ∀ (js : List ℕ) (j : ℕ), j ∈ js →
      ∀ p ∈ translatePair sources targets o costs optimal [] j,
        p ∈ js.foldl (translatePair sources targets o costs optimal) [] := by
  intro js
  induction js with
  | nil => intro j hj; simp at hj
  | cons j0 js ih =>
    intro j hj p hp
    rw [List.foldl_cons, translate_fold_acc]
    rcases List.mem_cons.mp hj with rfl | hj2
    · exact List.mem_append.mpr (Or.inl hp)
    · exact List.mem_append.mpr (Or.inr (ih j hj2 p hp))

theorem translate_fold_mem_rev {α : Type _} [Inhabited α] (sources targets : List α)
    (o : AssignOptions α) (costs : ℕ → ℕ → ℤ) (optimal : ℕ → ℕ) :
    ∀ (js : List ℕ) (p : Pair α),
      p ∈ js.foldl (translatePair sources targets o costs optimal) [] →
      ∃ j ∈ js, p ∈ translatePair sources targets o costs optimal [] j := by
  intro js
  induction js with
  | nil => intro p hp; simp at hp
  | cons j0 js ih =>
    intro p hp
    rw [List.foldl_cons, translate_fold_acc] at hp
    rcases List.mem_append.mp hp with h | h
    · exact ⟨j0, List.mem_cons_self j0 js, h⟩
    · obtain ⟨j, hj, hpj⟩ := ih p h
      exact ⟨j, List.mem_cons_of_mem j0 hj, hpj⟩

/-- C6: a matched real source/target pair whose matrix cost equals
`maxCost` is never emitted as an update pair (every update pair in the
result has a cost different from `maxCost`), and is always emitted as one
delete pair for the source and one insert pair for the target, both
carrying that cost. -/
theorem C6_max_cost_split {α : Type _} [Inhabited α] (sources targets : List α)
    (o : AssignOptions α) (pairs : List (Pair α))
    (h : Assign sources targets o = some pairs) :
    (∀ p ∈ pairs, p.source.isSome → p.target.isSome → p.cost ≠ o.maxCost) ∧
    (∀ optimal, optimalCost (buildCosts sources targets o)
        (max sources.length targets.length) o.maxCost o.minCost = some optimal →
      ∀ j, j < targets.length → optimal j < sources.length →
        buildCosts sources targets o (optimal j) j = o.maxCost →
        (⟨some (sources.getD (optimal j) default), none, o.maxCost⟩ : Pair α) ∈ pairs ∧
        (⟨none, some (targets.getD j default), o.maxCost⟩ : Pair α) ∈ pairs) := by
  unfold Assign at h
  rw [Option.map_eq_some'] at h
  obtain ⟨opt, hopt, hpairs⟩ := h
  constructor
  · intro p hp
    rw [← hpairs] at hp
    obtain ⟨j, _, hpj⟩ := translate_fold_mem_rev sources targets o
      (buildCosts sources targets o) opt _ p hp
    exact translatePair_no_max_update sources targets o
      (buildCosts sources targets o) opt j p hpj
  · intro optimal hoptimal j hjm hin hcost
    rw [hoptimal] at hopt
    injection hopt with hopt
    subst hopt
    have hmem : ∀ p ∈ translatePair sources targets o (buildCosts sources targets o)
        optimal [] j, p ∈ pairs := by
      intro p hp
      rw [← hpairs]
      refine translate_fold_mem sources targets o (buildCosts sources targets o)
        optimal (List.range (max sources.length targets.length)) j ?_ p hp
      exact List.mem_range.mpr (lt_of_lt_of_le hjm (le_max_right _ _))
    have hij : optimal j < sources.length ∧ j < targets.length := ⟨hin, hjm⟩
    constructor
    · refine hmem _ ?_
      simp only [translatePair, if_pos hij, if_pos hcost]
      rw [hcost]
      simp
    · refine hmem _ ?_
      simp only [translatePair, if_pos hij, if_pos hcost]
      rw [hcost]
      simp

/-- C6 (witness): the theorem applied at the repository test instance
`Update with max cost becomes delete+insert`. -/
theorem C6_witness :
    (∀ p ∈ [(⟨some 0, none, 2 ^ 31⟩ : Pair ℕ), ⟨none, some 1, 2 ^ 31⟩],
      p.source.isSome → p.target.isSome → p.cost ≠ maxOpts.maxCost) ∧
    (∀ optimal, optimalCost (buildCosts [0] [1] maxOpts)
        (max (List.length [0]) (List.length [1])) maxOpts.maxCost maxOpts.minCost =
          some optimal →
      ∀ j, j < List.length [1] → optimal j < List.length [0] →
        buildCosts [0] [1] maxOpts (optimal j) j = maxOpts.maxCost →
        (⟨some (List.getD [0] (optimal j) default), none, maxOpts.maxCost⟩ : Pair ℕ) ∈
          [(⟨some 0, none, 2 ^ 31⟩ : Pair ℕ), ⟨none, some 1, 2 ^ 31⟩] ∧
        (⟨none, some (List.getD [1] j default), maxOpts.maxCost⟩ : Pair ℕ) ∈
          [(⟨some 0, none, 2 ^ 31⟩ : Pair ℕ), ⟨none, some 1, 2 ^ 31⟩]) :=
  C6_max_cost_split [0] [1] maxOpts
    [⟨some 0, none, 2 ^ 31⟩, ⟨none, some 1, 2 ^ 31⟩] (by decide)

/-- C5 (counterexample): on one source and one target whose match cost is
`maxCost` (the repository test `Update with max cost becomes
delete+insert`), the result has two pairs while `max(n,m) = 1`. -/
theorem C5_counterexample :
    (Assign [0] [1] maxOpts).map List.length = some 2 ∧ max 1 1 = 1 ∧ (2 : ℕ) ≠ 1 :=
  ⟨by decide, rfl, by decide⟩

theorem scanInv_init (cost : ℕ → ℕ → ℤ) (cs cur : ℕ) (sC tC : ℕ → ℤ)
    (vis : ℕ → Bool) (maxCost : ℤ) (ms0 : ℕ → ℤ) (tr0 : ℕ → ℕ) :
    ScanInv cost cs cur sC tC vis maxCost ms0 tr0 [] (ms0, tr0, maxCost, 0) := by
  constructor <;> simp

theorem scanInv_step (cost : ℕ → ℕ → ℤ) (cs cur : ℕ) (sC tC : ℕ → ℤ)
    (vis : ℕ → Bool) (maxCost : ℤ) (ms0 : ℕ → ℤ) (tr0 : ℕ → ℕ) (pre : List ℕ)
    (acc : (ℕ → ℤ) × (ℕ → ℕ) × ℤ × ℕ) (j0 : ℕ) (hj0 : j0 ∉ pre)
    (h : ScanInv cost cs cur sC tC vis maxCost ms0 tr0 pre acc) :
    ScanInv cost cs cur sC tC vis maxCost ms0 tr0 (pre ++ [j0])
      (scanStep cost cs cur sC tC vis acc j0) := by
  obtain ⟨ms, tr, delta, next⟩ := acc
  by_cases hv : vis j0
  · rw [show scanStep cost cs cur sC tC vis (ms, tr, delta, next) j0 =
      (ms, tr, delta, next) by simp [scanStep, hv]]
    refine ⟨?_, ?_, ?_, ?_, ?_, ?_, ?_, ?_, ?_⟩ <;> dsimp only
    · intro j hj hvj
      rcases List.mem_append.mp hj with hj | hj
      · exact h.ms_mem j hj hvj
      · simp at hj; subst hj; rw [hvj] at hv; simp at hv
    · intro j hj
      refine h.ms_other j ?_
      rcases hj with hj | hj
      · exact Or.inl (fun hc => hj (List.mem_append.mpr (Or.inl hc)))
      · exact Or.inr hj
    · intro j hj hvj
      rcases List.mem_append.mp hj with hj | hj
      · exact h.tr_mem_lt j hj hvj
      · simp at hj; subst hj; rw [hvj] at hv; simp at hv
    · intro j hj hvj
      rcases List.mem_append.mp hj with hj | hj
      · exact h.tr_mem_ge j hj hvj
      · simp at hj; subst hj; rw [hvj] at hv; simp at hv
    · intro j hj
      refine h.tr_other j ?_
      rcases hj with hj | hj
      · exact Or.inl (fun hc => hj (List.mem_append.mpr (Or.inl hc)))
      · exact Or.inr hj
    · exact h.delta_le
    · intro j hj hvj
      rcases List.mem_append.mp hj with hj | hj
      · exact h.delta_le_ms j hj hvj
      · simp at hj; subst hj; rw [hvj] at hv; simp at hv
    · intro hlt
      obtain ⟨h1, h2, h3⟩ := h.fired hlt
      exact ⟨List.mem_append.mpr (Or.inl h1), h2, h3⟩
    · exact h.unfired
  · have hvF : vis j0 = false := by revert hv; cases vis j0 <;> simp
    set sl := slackv cost cs sC tC j0 with hsl
    have hstep : scanStep cost cs cur sC tC vis (ms, tr, delta, next) j0 =
        (let ms2 := if sl < ms j0 then Function.update ms j0 sl else ms
         let tr2 := if sl < ms j0 then Function.update tr j0 cur else tr
         if ms2 j0 < delta then (ms2, tr2, ms2 j0, j0) else (ms2, tr2, delta, next)) := by
      simp [scanStep, hvF, slackv, hsl]
    rw [hstep]
    have hmsj0 : ms j0 = ms0 j0 := h.ms_other j0 (Or.inl hj0)
    have htrj0 : tr j0 = tr0 j0 := h.tr_other j0 (Or.inl hj0)
    by_cases hlt : sl < ms j0
    · simp only [if_pos hlt]
      have hms2j0 : Function.update ms j0 sl j0 = sl := by simp
      by_cases hd : Function.update ms j0 sl j0 < delta
      · simp only [if_pos hd]
        refine ⟨?_, ?_, ?_, ?_, ?_, ?_, ?_, ?_, ?_⟩ <;> dsimp only
        · intro j hj hvj
          rcases List.mem_append.mp hj with hj | hj
          · have hne : j ≠ j0 := fun hc => hj0 (hc ▸ hj)
            rw [Function.update_noteq hne]
            exact h.ms_mem j hj hvj
          · simp at hj; subst hj
            rw [hms2j0]
            rw [hmsj0] at hlt
            omega
        · intro j hj
          have hne : j ≠ j0 := by
            rcases hj with hj | hj
            · exact fun hc => hj (List.mem_append.mpr (Or.inr (by simp [hc])))
            · intro hc; subst hc; rw [hj] at hvF; simp at hvF
          rw [Function.update_noteq hne]
          exact h.ms_other j (by
            rcases hj with hj | hj
            · exact Or.inl (fun hc => hj (List.mem_append.mpr (Or.inl hc)))
            · exact Or.inr hj)
        · intro j hj hvj hslt
          rcases List.mem_append.mp hj with hj | hj
          · have hne : j ≠ j0 := fun hc => hj0 (hc ▸ hj)
            rw [Function.update_noteq hne]
            exact h.tr_mem_lt j hj hvj hslt
          · simp at hj; subst hj
            simp
        · intro j hj hvj hslt
          rcases List.mem_append.mp hj with hj | hj
          · have hne : j ≠ j0 := fun hc => hj0 (hc ▸ hj)
            rw [Function.update_noteq hne]
            exact h.tr_mem_ge j hj hvj hslt
          · simp at hj; subst hj
            rw [hmsj0] at hlt
            exact absurd hlt hslt
        · intro j hj
          have hne : j ≠ j0 := by
            rcases hj with hj | hj
            · exact fun hc => hj (List.mem_append.mpr (Or.inr (by simp [hc])))
            · intro hc; subst hc; rw [hj] at hvF; simp at hvF
          rw [Function.update_noteq hne]
          exact h.tr_other j (by
            rcases hj with hj | hj
            · exact Or.inl (fun hc => hj (List.mem_append.mpr (Or.inl hc)))
            · exact Or.inr hj)
        · rw [hms2j0] at hd ⊢
          exact le_trans (le_of_lt hd) h.delta_le
        · intro j hj hvj
          rw [hms2j0]
          rcases List.mem_append.mp hj with hj | hj
          · have hne : j ≠ j0 := fun hc => hj0 (hc ▸ hj)
            rw [Function.update_noteq hne]
            have := h.delta_le_ms j hj hvj
            dsimp only at this
            rw [hms2j0] at hd
            omega
          · simp at hj; subst hj
            simp
        · intro _
          refine ⟨List.mem_append.mpr (Or.inr (by simp)), hvF, by simp⟩
        · intro hge
          rw [hms2j0] at hd hge
          have := h.delta_le
          dsimp only at this
          omega
      · simp only [if_neg hd]
        rw [hms2j0] at hd
        refine ⟨?_, ?_, ?_, ?_, ?_, ?_, ?_, ?_, ?_⟩ <;> dsimp only
        · intro j hj hvj
          rcases List.mem_append.mp hj with hj | hj
          · have hne : j ≠ j0 := fun hc => hj0 (hc ▸ hj)
            rw [Function.update_noteq hne]
            exact h.ms_mem j hj hvj
          · simp at hj; subst hj
            rw [hms2j0]
            rw [hmsj0] at hlt
            omega
        · intro j hj
          have hne : j ≠ j0 := by
            rcases hj with hj | hj
            · exact fun hc => hj (List.mem_append.mpr (Or.inr (by simp [hc])))
            · intro hc; subst hc; rw [hj] at hvF; simp at hvF
          rw [Function.update_noteq hne]
          exact h.ms_other j (by
            rcases hj with hj | hj
            · exact Or.inl (fun hc => hj (List.mem_append.mpr (Or.inl hc)))
            · exact Or.inr hj)
        · intro j hj hvj hslt
          rcases List.mem_append.mp hj with hj | hj
          · have hne : j ≠ j0 := fun hc => hj0 (hc ▸ hj)
            rw [Function.update_noteq hne]
            exact h.tr_mem_lt j hj hvj hslt
          · simp at hj; subst hj
            simp
        · intro j hj hvj hslt
          rcases List.mem_append.mp hj with hj | hj
          · have hne : j ≠ j0 := fun hc => hj0 (hc ▸ hj)
            rw [Function.update_noteq hne]
            exact h.tr_mem_ge j hj hvj hslt
          · simp at hj; subst hj
            rw [hmsj0] at hlt
            exact absurd hlt hslt
        · intro j hj
          have hne : j ≠ j0 := by
            rcases hj with hj | hj
            · exact fun hc => hj (List.mem_append.mpr (Or.inr (by simp [hc])))
            · intro hc; subst hc; rw [hj] at hvF; simp at hvF
          rw [Function.update_noteq hne]
          exact h.tr_other j (by
            rcases hj with hj | hj
            · exact Or.inl (fun hc => hj (List.mem_append.mpr (Or.inl hc)))
            · exact Or.inr hj)
        · exact h.delta_le
        · intro j hj hvj
          rcases List.mem_append.mp hj with hj | hj
          · have hne : j ≠ j0 := fun hc => hj0 (hc ▸ hj)
            rw [Function.update_noteq hne]
            exact h.delta_le_ms j hj hvj
          · simp at hj; subst hj
            rw [hms2j0]
            omega
        · intro hltd
          obtain ⟨h1, h2, h3⟩ := h.fired hltd
          have hne : next ≠ j0 := by
            intro hc; subst hc; exact hj0 h1
          refine ⟨List.mem_append.mpr (Or.inl h1), h2, ?_⟩
          rw [Function.update_noteq hne]
          exact h3
        · intro hge
          obtain ⟨h1, h2⟩ := h.unfired hge
          exact ⟨h1, h2⟩
    · simp only [if_neg hlt]
      have hmin : min (ms0 j0) sl = ms0 j0 := by
        rw [hmsj0] at hlt
        omega
      by_cases hd : ms j0 < delta
      · simp only [if_pos hd]
        refine ⟨?_, ?_, ?_, ?_, ?_, ?_, ?_, ?_, ?_⟩ <;> dsimp only
        · intro j hj hvj
          rcases List.mem_append.mp hj with hj | hj
          · exact h.ms_mem j hj hvj
          · simp at hj; subst hj
            rw [hmsj0, hmin]
        · intro j hj
          refine h.ms_other j ?_
          rcases hj with hj | hj
          · exact Or.inl (fun hc => hj (List.mem_append.mpr (Or.inl hc)))
          · exact Or.inr hj
        · intro j hj hvj hslt
          rcases List.mem_append.mp hj with hj | hj
          · exact h.tr_mem_lt j hj hvj hslt
          · simp at hj; subst hj
            rw [hmsj0] at hlt
            exact absurd hslt hlt
        · intro j hj hvj hslt
          rcases List.mem_append.mp hj with hj | hj
          · exact h.tr_mem_ge j hj hvj hslt
          · simp at hj; subst hj; exact htrj0
        · intro j hj
          refine h.tr_other j ?_
          rcases hj with hj | hj
          · exact Or.inl (fun hc => hj (List.mem_append.mpr (Or.inl hc)))
          · exact Or.inr hj
        · exact le_trans (le_of_lt hd) h.delta_le
        · intro j hj hvj
          rcases List.mem_append.mp hj with hj | hj
          · have := h.delta_le_ms j hj hvj
            dsimp only at this
            omega
          · simp at hj; subst hj
            exact le_refl _
        · intro _
          exact ⟨List.mem_append.mpr (Or.inr (by simp)), hvF, rfl⟩
        · intro hge
          have := h.delta_le
          dsimp only at this
          omega
      · simp only [if_neg hd]
        refine ⟨?_, ?_, ?_, ?_, ?_, ?_, ?_, ?_, ?_⟩ <;> dsimp only
        · intro j hj hvj
          rcases List.mem_append.mp hj with hj | hj
          · exact h.ms_mem j hj hvj
          · simp at hj; subst hj
            rw [hmsj0, hmin]
        · intro j hj
          refine h.ms_other j ?_
          rcases hj with hj | hj
          · exact Or.inl (fun hc => hj (List.mem_append.mpr (Or.inl hc)))
          · exact Or.inr hj
        · intro j hj hvj hslt
          rcases List.mem_append.mp hj with hj | hj
          · exact h.tr_mem_lt j hj hvj hslt
          · simp at hj; subst hj
            rw [hmsj0] at hlt
            exact absurd hslt hlt
        · intro j hj hvj hslt
          rcases List.mem_append.mp hj with hj | hj
          · exact h.tr_mem_ge j hj hvj hslt
          · simp at hj; subst hj; exact htrj0
        · intro j hj
          refine h.tr_other j ?_
          rcases hj with hj | hj
          · exact Or.inl (fun hc => hj (List.mem_append.mpr (Or.inl hc)))
          · exact Or.inr hj
        · exact h.delta_le
        · intro j hj hvj
          rcases List.mem_append.mp hj with hj | hj
          · exact h.delta_le_ms j hj hvj
          · simp at hj; subst hj
            omega
        · intro hltd
          obtain ⟨h1, h2, h3⟩ := h.fired hltd
          exact ⟨List.mem_append.mpr (Or.inl h1), h2, h3⟩
        · exact h.unfired

theorem scanInv_fold (cost : ℕ → ℕ → ℤ) (cs cur : ℕ) (sC tC : ℕ → ℤ)
    (vis : ℕ → Bool) (maxCost : ℤ) (ms0 : ℕ → ℤ) (tr0 : ℕ → ℕ) :
    ∀ (rest pre : List ℕ), (pre ++ rest).Nodup →
      ∀ acc, ScanInv cost cs cur sC tC vis maxCost ms0 tr0 pre acc →
        ScanInv cost cs cur sC tC vis maxCost ms0 tr0 (pre ++ rest)
          (rest.foldl (scanStep cost cs cur sC tC vis) acc) := by
  intro rest
  induction rest with
  | nil => intro pre _ acc h; simpa using h
  | cons j0 rest ih =>
    intro pre hnd acc h
    rw [List.foldl_cons]
    have hj0 : j0 ∉ pre := by
      have hd := (List.nodup_append.mp hnd).2.2
      intro hc
      exact hd hc (List.mem_cons_self j0 rest)
    have hstep := scanInv_step cost cs cur sC tC vis maxCost ms0 tr0 pre acc j0 hj0 h
    have hnd2 : ((pre ++ [j0]) ++ rest).Nodup := by
      rw [List.append_assoc]
      simpa using hnd
    have := ih (pre ++ [j0]) hnd2 _ hstep
    rw [List.append_assoc] at this
    simpa using this

theorem scanLoop_spec (cost : ℕ → ℕ → ℤ) (cs cur : ℕ) (sC tC : ℕ → ℤ)
    (vis : ℕ → Bool) (n : ℕ) (ms0 : ℕ → ℤ) (tr0 : ℕ → ℕ) (maxCost : ℤ) :
    ScanInv cost cs cur sC tC vis maxCost ms0 tr0 (List.range n)
      (scanLoop cost cs cur sC tC vis n ms0 tr0 maxCost) := by
  have := scanInv_fold cost cs cur sC tC vis maxCost ms0 tr0 (List.range n) []
    (by simpa using List.nodup_range n) (ms0, tr0, maxCost, 0)
    (scanInv_init cost cs cur sC tC vis maxCost ms0 tr0)
  simpa [scanLoop] using this

theorem updInv_init (delta : ℤ) (ts : ℕ → ℕ) (vis : ℕ → Bool)
    (sC0 tC0 ms0 : ℕ → ℤ) :
    UpdInv delta ts vis sC0 tC0 ms0 [] (sC0, tC0, ms0) := by
  constructor <;> simp

theorem updInv_step (delta : ℤ) (ts : ℕ → ℕ) (vis : ℕ → Bool)
    (sC0 tC0 ms0 : ℕ → ℤ) (pre : List ℕ) (acc : (ℕ → ℤ) × (ℕ → ℤ) × (ℕ → ℤ))
    (j0 : ℕ) (hj0 : j0 ∉ pre)
    (hinj : ∀ j ∈ pre, vis j = true → vis j0 = true → ts j ≠ ts j0)
    (h : UpdInv delta ts vis sC0 tC0 ms0 pre acc) :
    UpdInv delta ts vis sC0 tC0 ms0 (pre ++ [j0]) (updStep delta ts vis acc j0) := by
  obtain ⟨sC, tC, ms⟩ := acc
  by_cases hv : vis j0
  · rw [show updStep delta ts vis (sC, tC, ms) j0 =
      (Function.update sC (ts j0) (sC (ts j0) + delta),
       Function.update tC j0 (tC j0 - delta), ms) by simp [updStep, hv]]
    have hmiss0 : sC (ts j0) = sC0 (ts j0) := by
      refine h.sC_miss (ts j0) ?_
      rintro ⟨j, hj, hvj, hts⟩
      exact hinj j hj hvj hv hts
    refine ⟨?_, ?_, ?_, ?_, ?_, ?_⟩ <;> dsimp only
    · intro s hs
      obtain ⟨j, hj, hvj, hts⟩ := hs
      rcases List.mem_append.mp hj with hj | hj
      · have hne : s ≠ ts j0 := by
          intro hc
          exact hinj j hj hvj hv (by rw [hts, hc])
        rw [Function.update_noteq hne]
        exact h.sC_hit s ⟨j, hj, hvj, hts⟩
      · simp at hj; subst hj
        subst hts
        rw [Function.update_same, hmiss0]
    · intro s hs
      have hne : s ≠ ts j0 := by
        intro hc
        exact hs ⟨j0, List.mem_append.mpr (Or.inr (by simp)), hv, hc.symm⟩
      rw [Function.update_noteq hne]
      refine h.sC_miss s ?_
      rintro ⟨j, hj, hvj, hts⟩
      exact hs ⟨j, List.mem_append.mpr (Or.inl hj), hvj, hts⟩
    · intro j hj hvj
      rcases List.mem_append.mp hj with hj | hj
      · have hne : j ≠ j0 := fun hc => hj0 (hc ▸ hj)
        rw [Function.update_noteq hne]
        exact h.tC_vis j hj hvj
      · simp at hj; subst hj
        rw [Function.update_same]
        have h2 := h.tC_other j (Or.inl hj0)
        dsimp only at h2
        rw [h2]
    · intro j hj
      have hne : j ≠ j0 := by
        rcases hj with hj | hj
        · exact fun hc => hj (List.mem_append.mpr (Or.inr (by simp [hc])))
        · intro hc; subst hc; rw [hj] at hv; simp at hv
      rw [Function.update_noteq hne]
      exact h.tC_other j (by
        rcases hj with hj | hj
        · exact Or.inl (fun hc => hj (List.mem_append.mpr (Or.inl hc)))
        · exact Or.inr hj)
    · intro j hj hvj
      rcases List.mem_append.mp hj with hj | hj
      · exact h.ms_unvis j hj hvj
      · simp at hj; subst hj; rw [hvj] at hv; simp at hv
    · intro j hj
      refine h.ms_other j ?_
      rcases hj with hj | hj
      · exact Or.inl (fun hc => hj (List.mem_append.mpr (Or.inl hc)))
      · exact Or.inr hj
  · have hvF : vis j0 = false := by revert hv; cases vis j0 <;> simp
    rw [show updStep delta ts vis (sC, tC, ms) j0 =
      (sC, tC, Function.update ms j0 (ms j0 - delta)) by simp [updStep, hvF]]
    refine ⟨?_, ?_, ?_, ?_, ?_, ?_⟩ <;> dsimp only
    · intro s hs
      obtain ⟨j, hj, hvj, hts⟩ := hs
      rcases List.mem_append.mp hj with hj | hj
      · exact h.sC_hit s ⟨j, hj, hvj, hts⟩
      · simp at hj; subst hj; rw [hvj] at hvF; simp at hvF
    · intro s hs
      refine h.sC_miss s ?_
      rintro ⟨j, hj, hvj, hts⟩
      exact hs ⟨j, List.mem_append.mpr (Or.inl hj), hvj, hts⟩
    · intro j hj hvj
      rcases List.mem_append.mp hj with hj | hj
      · exact h.tC_vis j hj hvj
      · simp at hj; subst hj; rw [hvj] at hvF; simp at hvF
    · intro j hj
      refine h.tC_other j ?_
      rcases hj with hj | hj
      · exact Or.inl (fun hc => hj (List.mem_append.mpr (Or.inl hc)))
      · exact Or.inr hj
    · intro j hj hvj
      rcases List.mem_append.mp hj with hj | hj
      · have hne : j ≠ j0 := fun hc => hj0 (hc ▸ hj)
        rw [Function.update_noteq hne]
        exact h.ms_unvis j hj hvj
      · simp at hj; subst hj
        rw [Function.update_same]
        have h2 := h.ms_other j (Or.inl hj0)
        dsimp only at h2
        rw [h2]
    · intro j hj
      have hne : j ≠ j0 := by
        rcases hj with hj | hj
        · exact fun hc => hj (List.mem_append.mpr (Or.inr (by simp [hc])))
        · intro hc; subst hc; rw [hj] at hvF; simp at hvF
      rw [Function.update_noteq hne]
      exact h.ms_other j (by
        rcases hj with hj | hj
        · exact Or.inl (fun hc => hj (List.mem_append.mpr (Or.inl hc)))
        · exact Or.inr hj)

theorem updInv_fold (delta : ℤ) (ts : ℕ → ℕ) (vis : ℕ → Bool)
    (sC0 tC0 ms0 : ℕ → ℤ) :
    ∀ (rest pre : List ℕ), (pre ++ rest).Nodup →
      (∀ j1 ∈ pre ++ rest, ∀ j2 ∈ pre ++ rest, vis j1 = true → vis j2 = true →
        j1 ≠ j2 → ts j1 ≠ ts j2) →
      ∀ acc, UpdInv delta ts vis sC0 tC0 ms0 pre acc →
        UpdInv delta ts vis sC0 tC0 ms0 (pre ++ rest)
          (rest.foldl (updStep delta ts vis) acc) := by
  intro rest
  induction rest with
  | nil => intro pre _ _ acc h; simpa using h
  | cons j0 rest ih =>
    intro pre hnd hinj acc h
    rw [List.foldl_cons]
    have hj0 : j0 ∉ pre := by
      have hd := (List.nodup_append.mp hnd).2.2
      intro hc
      exact hd hc (List.mem_cons_self j0 rest)
    have hstep := updInv_step delta ts vis sC0 tC0 ms0 pre acc j0 hj0
      (fun j hj hvj hvj0 => hinj j (List.mem_append.mpr (Or.inl hj))
        j0 (List.mem_append.mpr (Or.inr (by simp))) hvj hvj0
        (fun hc => hj0 (hc ▸ hj))) h
    have hnd2 : ((pre ++ [j0]) ++ rest).Nodup := by
      rw [List.append_assoc]
      simpa using hnd
    have hinj2 : ∀ j1 ∈ (pre ++ [j0]) ++ rest, ∀ j2 ∈ (pre ++ [j0]) ++ rest,
        vis j1 = true → vis j2 = true → j1 ≠ j2 → ts j1 ≠ ts j2 := by
      intro j1 hj1 j2 hj2
      rw [List.append_assoc] at hj1 hj2
      exact hinj j1 (by simpa using hj1) j2 (by simpa using hj2)
    have := ih (pre ++ [j0]) hnd2 hinj2 _ hstep
    rw [List.append_assoc] at this
    simpa using this

theorem updLoop_spec (delta : ℤ) (ts : ℕ → ℕ) (vis : ℕ → Bool) (n : ℕ)
    (sC0 tC0 ms0 : ℕ → ℤ)
    (hinj : ∀ j1 j2, j1 < n + 1 → j2 < n + 1 → vis j1 = true → vis j2 = true →
      j1 ≠ j2 → ts j1 ≠ ts j2) :
    UpdInv delta ts vis sC0 tC0 ms0 (List.range (n + 1))
      (updLoop delta ts vis n sC0 tC0 ms0) := by
  have := updInv_fold delta ts vis sC0 tC0 ms0 (List.range (n + 1)) []
    (by simpa using List.nodup_range (n + 1))
    (by
      intro j1 hj1 j2 hj2
      simp only [List.nil_append, List.mem_range] at hj1 hj2
      exact hinj j1 j2 hj1 hj2)
    (sC0, tC0, ms0) (updInv_init delta ts vis sC0 tC0 ms0)
  simpa [updLoop] using this

theorem visCard_le (n : ℕ) (st : HState) : visCard n st ≤ n + 1 := by
  unfold visCard
  calc ((Finset.range (n + 1)).filter (fun j => st.vis j = true)).card
      ≤ (Finset.range (n + 1)).card := Finset.card_filter_le _ _
    _ = n + 1 := Finset.card_range _

theorem loopInv_step (cost : ℕ → ℕ → ℤ) (n : ℕ) (W : ℤ) (i : ℕ)
    (hrange : ∀ a b, a < n → b < n → 0 ≤ cost a b ∧ cost a b ≤ W)
    (st : HState) (cur : ℕ)
    (h : LoopInv cost n W i st cur) (hguard : st.ts cur ≠ n) :
    LoopInv cost n W i (innerStep cost n W st cur).1
      (innerStep cost n W st cur).2 := by
  obtain ⟨hi, cur_le, ts_dummy, ts_lt, ts_ne_i, ts_inj, unmatched_exists, feas,
    tight, unmatched_tC, unmatched_unvis, fresh_sC, vis_n, D_lb, D_ub, ms_cap,
    ms_nonneg, ms_le_slack, ms_witness, trail_lt, vis_path, cur_ms, order⟩ := h
  have hn1 : 0 < n := Nat.lt_of_le_of_lt (Nat.zero_le i) hi
  have hW : 0 ≤ W := le_trans (hrange 0 0 hn1 hn1).1 (hrange 0 0 hn1 hn1).2
  set vis2 := Function.update st.vis cur true with hv2d
  have hv2T : ∀ j, st.vis j = true → vis2 j = true := by
    intro j hj
    by_cases hjc : j = cur
    · subst hjc; simp [hv2d]
    · simpa [hv2d, Function.update_noteq hjc] using hj
  have hv2F : ∀ j, vis2 j = false → st.vis j = false ∧ j ≠ cur := by
    intro j hj
    by_cases hjc : j = cur
    · subst hjc; simp [hv2d] at hj
    · refine ⟨?_, hjc⟩
      simpa [hv2d, Function.update_noteq hjc] using hj
  have hv2cur : vis2 cur = true := by simp [hv2d]
  have hv2n : vis2 n = true := by
    by_cases hc : cur = n
    · subst hc; exact hv2cur
    · exact hv2T n vis_n
  have hv2cases : ∀ j, vis2 j = true → j = cur ∨ st.vis j = true := by
    intro j hj
    by_cases hjc : j = cur
    · exact Or.inl hjc
    · exact Or.inr (by simpa [hv2d, Function.update_noteq hjc] using hj)
  have hmatched2 : ∀ t, t < n → vis2 t = true → st.ts t ≠ n := by
    intro t ht hv
    rcases hv2cases t hv with hc | hc
    · subst hc; exact hguard
    · intro he
      rw [unmatched_unvis t ht he] at hc
      simp at hc
  have hinj2 : ∀ j1 j2, j1 < n + 1 → j2 < n + 1 → vis2 j1 = true →
      vis2 j2 = true → j1 ≠ j2 → st.ts j1 ≠ st.ts j2 := by
    intro j1 j2 hj1 hj2 hvj1 hvj2 hne
    rcases Nat.lt_or_ge j1 n with hl1 | hg1
    · rcases Nat.lt_or_ge j2 n with hl2 | hg2
      · exact ts_inj j1 j2 hl1 hl2 (hmatched2 j1 hl1 hvj1) (hmatched2 j2 hl2 hvj2) hne
      · have : j2 = n := by omega
        subst this
        rw [ts_dummy]
        exact ts_ne_i j1 hl1
    · have he1 : j1 = n := by omega
      rw [he1, ts_dummy]
      intro hc
      have hl2 : j2 < n := by
        rcases Nat.lt_or_ge j2 n with hx | hx
        · exact hx
        · exact absurd (by omega : j2 = n) (by rw [he1] at hne; exact fun hz => hne hz.symm)
      exact ts_ne_i j2 hl2 hc.symm
  have hcs_lt : st.ts cur < n := by
    by_cases hc : cur = n
    · subst hc; rw [ts_dummy]; exact hi
    · have hcl : cur < n := by omega
      exact lt_trans (ts_lt cur hcl hguard) hi
  have hsl_nonneg : ∀ b, b < n → 0 ≤ slackv cost (st.ts cur) st.sC st.tC b := by
    intro b hb
    have := feas (st.ts cur) b hcs_lt hb
    unfold slackv
    omega
  have S := scanLoop_spec cost (st.ts cur) cur st.sC st.tC vis2 n st.ms st.trail W
  set sc := scanLoop cost (st.ts cur) cur st.sC st.tC vis2 n st.ms st.trail W
    with hscd
  have U := updLoop_spec sc.2.2.1 st.ts vis2 n st.sC st.tC sc.1 hinj2
  set up := updLoop sc.2.2.1 st.ts vis2 n st.sC st.tC sc.1 with hupd
  have hms2 : ∀ j, j < n → vis2 j = false →
      sc.1 j = min (st.ms j) (slackv cost (st.ts cur) st.sC st.tC j) :=
    fun j hj hv => S.ms_mem j (List.mem_range.mpr hj) hv
  have hms2le : ∀ j, j < n → vis2 j = false → sc.1 j ≤ st.ms j := by
    intro j hj hv
    rw [hms2 j hj hv]
    exact min_le_left _ _
  have hms2sl : ∀ j, j < n → vis2 j = false →
      sc.1 j ≤ slackv cost (st.ts cur) st.sC st.tC j := by
    intro j hj hv
    rw [hms2 j hj hv]
    exact min_le_right _ _
  have hdle : sc.2.2.1 ≤ W := S.delta_le
  have hdlems : ∀ j, j < n → vis2 j = false → sc.2.2.1 ≤ sc.1 j :=
    fun j hj hv => S.delta_le_ms j (List.mem_range.mpr hj) hv
  have hd0 : 0 ≤ sc.2.2.1 := by
    by_cases hf : sc.2.2.1 < W
    · obtain ⟨hm, hv, he⟩ := S.fired hf
      have hmn : sc.2.2.2 < n := List.mem_range.mp hm
      have h1 := ms_nonneg sc.2.2.2 hmn (hv2F _ hv).1
      have h2 := hsl_nonneg sc.2.2.2 hmn
      rw [← he, hms2 sc.2.2.2 hmn hv]
      exact le_min h1 h2
    · have := (S.unfired (le_of_not_lt hf)).2
      omega
  have hdcap : sc.2.2.1 ≤ W - st.sC i := by
    obtain ⟨j, hj, hjts⟩ := unmatched_exists
    have hjv : st.vis j = false := unmatched_unvis j hj hjts
    have hjne : j ≠ cur := by
      intro hc; subst hc; exact hguard hjts
    have hjv2 : vis2 j = false := by
      simpa [hv2d, Function.update_noteq hjne] using hjv
    calc sc.2.2.1 ≤ sc.1 j := hdlems j hj hjv2
      _ ≤ st.ms j := hms2le j hj hjv2
      _ ≤ W - st.sC i := ms_cap j hj hjv
  have hupi : up.1 i = st.sC i + sc.2.2.1 :=
    U.sC_hit i ⟨n, List.mem_range.mpr (by omega), hv2n, ts_dummy⟩
  have hgainT : ∀ t, t ≤ n → vis2 t = true →
      up.1 (st.ts t) = st.sC (st.ts t) + sc.2.2.1 :=
    fun t ht hv => U.sC_hit _ ⟨t, List.mem_range.mpr (by omega), hv, rfl⟩
  have hnogain : ∀ j0, j0 < n → st.ts j0 ≠ n → vis2 j0 = false →
      up.1 (st.ts j0) = st.sC (st.ts j0) := by
    intro j0 hj0 hm0 hv0
    refine U.sC_miss _ ?_
    rintro ⟨t, htm, htv, hte⟩
    have htn : t < n + 1 := List.mem_range.mp htm
    rcases Nat.lt_or_ge t n with htl | htg
    · have : t ≠ j0 := by
        intro hc; subst hc; rw [htv] at hv0; simp at hv0
      exact ts_inj t j0 htl hj0 (hmatched2 t htl htv) hm0 this hte
    · have : t = n := by omega
      subst this
      rw [ts_dummy] at hte
      exact ts_ne_i j0 hj0 hte.symm
  have hfreshsC : ∀ s, i < s → s ≤ n → up.1 s = st.sC s := by
    intro s hs1 hs2
    refine U.sC_miss _ ?_
    rintro ⟨t, htm, htv, hte⟩
    have htn : t < n + 1 := List.mem_range.mp htm
    rcases Nat.lt_or_ge t n with htl | htg
    · have := ts_lt t htl (hmatched2 t htl htv)
      omega
    · have : t = n := by omega
      subst this
      rw [ts_dummy] at hte
      omega
  have htCv : ∀ j, j ≤ n → vis2 j = true → up.2.1 j = st.tC j - sc.2.2.1 :=
    fun j hj hv => U.tC_vis j (List.mem_range.mpr (by omega)) hv
  have htCu : ∀ j, vis2 j = false → up.2.1 j = st.tC j :=
    fun j hv => U.tC_other j (Or.inr hv)
  have hms3u : ∀ j, j ≤ n → vis2 j = false → up.2.2 j = sc.1 j - sc.2.2.1 :=
    fun j hj hv => U.ms_unvis j (List.mem_range.mpr (by omega)) hv
  have htrR : ∀ j, j < n → vis2 j = false →
      slackv cost (st.ts cur) st.sC st.tC j < st.ms j → sc.2.1 j = cur :=
    fun j hj hv hlt => S.tr_mem_lt j (List.mem_range.mpr hj) hv hlt
  have htrN : ∀ j, j < n → vis2 j = false →
      ¬(slackv cost (st.ts cur) st.sC st.tC j < st.ms j) → sc.2.1 j = st.trail j :=
    fun j hj hv hge => S.tr_mem_ge j (List.mem_range.mpr hj) hv hge
  have htrV : ∀ j, vis2 j = true → sc.2.1 j = st.trail j :=
    fun j hv => S.tr_other j (Or.inr hv)
  have hslack_vis : ∀ t j, t ≤ n → vis2 t = true → j ≤ n → vis2 j = true →
      slackv cost (st.ts t) up.1 up.2.1 j = slackv cost (st.ts t) st.sC st.tC j := by
    intro t j ht hvt hj hvj
    unfold slackv
    rw [hgainT t ht hvt, htCv j hj hvj]
    ring
  have hslack_unvis : ∀ t j, t ≤ n → vis2 t = true → vis2 j = false →
      slackv cost (st.ts t) up.1 up.2.1 j =
        slackv cost (st.ts t) st.sC st.tC j - sc.2.2.1 := by
    intro t j ht hvt hvj
    unfold slackv
    rw [hgainT t ht hvt, htCu j hvj]
    ring
  have hslack_i_vis : ∀ j, j ≤ n → vis2 j = true →
      slackv cost i up.1 up.2.1 j = slackv cost i st.sC st.tC j := by
    intro j hj hvj
    unfold slackv
    rw [hupi, htCv j hj hvj]
    ring
  have hslack_i_unvis : ∀ j, vis2 j = false →
      slackv cost i up.1 up.2.1 j = slackv cost i st.sC st.tC j - sc.2.2.1 := by
    intro j hvj
    unfold slackv
    rw [hupi, htCu j hvj]
    ring
  show LoopInv cost n W i ⟨up.1, up.2.1, st.ts, up.2.2, sc.2.1, vis2⟩ sc.2.2.2
  refine ⟨hi, ?_, ts_dummy, ts_lt, ts_ne_i, ts_inj, unmatched_exists, ?_, ?_,
    ?_, ?_, ?_, hv2n, ?_, ?_, ?_, ?_, ?_, ?_, ?_, ?_, ?_, ?_⟩
  · -- cur_le
    by_cases hf : sc.2.2.1 < W
    · have := List.mem_range.mp (S.fired hf).1
      omega
    · rw [(S.unfired (le_of_not_lt hf)).1]
      omega
  · -- feas
    intro a b ha hb
    dsimp only
    by_cases hg : ∃ t, t ∈ List.range (n + 1) ∧ vis2 t = true ∧ st.ts t = a
    · have hga : up.1 a = st.sC a + sc.2.2.1 := U.sC_hit a hg
      by_cases hvb : vis2 b = true
      · have htb := htCv b (by omega) hvb
        have := feas a b ha hb
        omega
      · have hvb' : vis2 b = false := by simpa using hvb
        have htb := htCu b hvb'
        obtain ⟨t, htm, htv, hte⟩ := hg
        have htn : t < n + 1 := List.mem_range.mp htm
        have h1 : sc.2.2.1 ≤ sc.1 b := hdlems b hb hvb'
        have h2 : sc.1 b ≤ slackv cost a st.sC st.tC b := by
          by_cases htc : t = cur
          · rw [← hte, htc]
            exact hms2sl b hb hvb'
          · have hvt : st.vis t = true := by
              rcases hv2cases t htv with hx | hx
              · exact absurd hx htc
              · exact hx
            calc sc.1 b ≤ st.ms b := hms2le b hb hvb'
              _ ≤ slackv cost (st.ts t) st.sC st.tC b :=
                  ms_le_slack b t hb (hv2F b hvb').1 (by omega) hvt
              _ = slackv cost a st.sC st.tC b := by rw [hte]
        unfold slackv at h2
        omega
    · have hga : up.1 a = st.sC a := U.sC_miss a hg
      by_cases hvb : vis2 b = true
      · have htb := htCv b (by omega) hvb
        have := feas a b ha hb
        omega
      · have hvb' : vis2 b = false := by simpa using hvb
        have htb := htCu b hvb'
        have := feas a b ha hb
        omega
  · -- tight
    intro j hj hm
    dsimp only at hm ⊢
    by_cases hvj : vis2 j = true
    · have h1 := hgainT j (by omega) hvj
      have h2 := htCv j (by omega) hvj
      have := tight j hj hm
      omega
    · have hvj' : vis2 j = false := by simpa using hvj
      have h1 := hnogain j hj hm hvj'
      have h2 := htCu j hvj'
      have := tight j hj hm
      omega
  · -- unmatched_tC
    intro j hj hm
    dsimp only at hm ⊢
    have hvj : st.vis j = false := unmatched_unvis j hj hm
    have hne : j ≠ cur := fun hc => hguard (hc ▸ hm)
    have hvj2 : vis2 j = false := by
      simpa [hv2d, Function.update_noteq hne] using hvj
    rw [htCu j hvj2]
    exact unmatched_tC j hj hm
  · -- unmatched_unvis
    intro j hj hm
    dsimp only at hm ⊢
    have hne : j ≠ cur := fun hc => hguard (hc ▸ hm)
    simpa [hv2d, Function.update_noteq hne] using unmatched_unvis j hj hm
  · -- fresh_sC
    intro s hs1 hs2
    dsimp only
    rw [hfreshsC s hs1 hs2]
    exact fresh_sC s hs1 hs2
  · -- D_lb
    dsimp only
    rw [hupi]
    omega
  · -- D_ub
    dsimp only
    rw [hupi]
    omega
  · -- ms_cap
    intro j hj hvj
    dsimp only at hvj ⊢
    rw [hms3u j (by omega) hvj, hupi]
    have h1 := hms2le j hj hvj
    have h2 := ms_cap j hj (hv2F j hvj).1
    omega
  · -- ms_nonneg
    intro j hj hvj
    dsimp only at hvj ⊢
    rw [hms3u j (by omega) hvj]
    have := hdlems j hj hvj
    omega
  · -- ms_le_slack
    intro j t hj hvj ht hvt
    dsimp only at hvj hvt ⊢
    rw [hms3u j (by omega) hvj, hslack_unvis t j ht hvt hvj]
    have h2 : sc.1 j ≤ slackv cost (st.ts t) st.sC st.tC j := by
      by_cases htc : t = cur
      · rw [htc]
        exact hms2sl j hj hvj
      · have hvt' : st.vis t = true := by
          rcases hv2cases t hvt with hx | hx
          · exact absurd hx htc
          · exact hx
        calc sc.1 j ≤ st.ms j := hms2le j hj hvj
          _ ≤ _ := ms_le_slack j t hj (hv2F j hvj).1 ht hvt'
    omega
  · -- ms_witness
    intro j hj hvj
    dsimp only at hvj ⊢
    have hvj' := (hv2F j hvj).1
    have hms3 := hms3u j (by omega) hvj
    by_cases hrec : slackv cost (st.ts cur) st.sC st.tC j < st.ms j
    · have htr := htrR j hj hvj hrec
      have hscj : sc.1 j = slackv cost (st.ts cur) st.sC st.tC j := by
        rw [hms2 j hj hvj]
        exact min_eq_right (le_of_lt hrec)
      constructor
      · intro hne
        rw [htr] at hne ⊢
        rw [hms3, hscj, hslack_unvis cur j cur_le hv2cur hvj]
      · intro he
        rw [htr] at he
        have hcsi : st.ts cur = i := by rw [he, ts_dummy]
        have hrec' : slackv cost i st.sC st.tC j < st.ms j := by
          rw [← hcsi]; exact hrec
        have hcap := ms_cap j hj hvj'
        rw [hms3, hscj, hcsi, hupi, hslack_i_unvis j hvj]
        rw [min_eq_right (by omega)]
    · have htr := htrN j hj hvj hrec
      have hscj : sc.1 j = st.ms j := by
        rw [hms2 j hj hvj]
        exact min_eq_left (le_of_not_lt hrec)
      obtain ⟨hw1, hw2⟩ := ms_witness j hj hvj'
      constructor
      · intro hne
        rw [htr] at hne ⊢
        have hb := hw1 hne
        have htl := trail_lt j (by omega) hne
        rw [hms3, hscj, hb,
          hslack_unvis (st.trail j) j (by omega) (hv2T _ htl.2) hvj]
      · intro he
        rw [htr] at he
        have hb := hw2 he
        rw [hms3, hscj, hb, hupi, hslack_i_unvis j hvj]
        omega
  · -- trail_lt
    intro x hx hne
    dsimp only at hne ⊢
    rcases Nat.lt_or_ge x n with hxl | hxg
    · by_cases hvx : vis2 x = true
      · rw [htrV x hvx] at hne ⊢
        obtain ⟨h1, h2⟩ := trail_lt x hx hne
        exact ⟨h1, hv2T _ h2⟩
      · have hvx' : vis2 x = false := by simpa using hvx
        by_cases hrec : slackv cost (st.ts cur) st.sC st.tC x < st.ms x
        · rw [htrR x hxl hvx' hrec] at hne ⊢
          have hcl : cur < n := by omega
          exact ⟨hcl, hv2cur⟩
        · rw [htrN x hxl hvx' hrec] at hne ⊢
          obtain ⟨h1, h2⟩ := trail_lt x hx hne
          exact ⟨h1, hv2T _ h2⟩
    · rw [S.tr_other x (Or.inl (by simp [List.mem_range]; omega))] at hne ⊢
      obtain ⟨h1, h2⟩ := trail_lt x hx hne
      exact ⟨h1, hv2T _ h2⟩
  · -- vis_path
    intro j hj hvj
    dsimp only at hvj ⊢
    have htr := htrV j hvj
    rw [htr]
    by_cases hvisj : st.vis j = true
    · obtain ⟨hp1, hp2⟩ := vis_path j hj hvisj
      constructor
      · intro hne
        have htl := trail_lt j (by omega) hne
        rw [hslack_vis (st.trail j) j (by omega) (hv2T _ htl.2) (by omega) hvj]
        exact hp1 hne
      · intro he
        rcases hp2 he with hz | ⟨hDW, hnp⟩
        · left
          rw [hslack_i_vis j (by omega) hvj]
          exact hz
        · right
          have hd0' : sc.2.2.1 = 0 := by omega
          refine ⟨by rw [hupi]; omega, ?_⟩
          intro x hx
          rcases Nat.lt_or_ge x n with hxl | hxg
          · by_cases hvx : vis2 x = true
            · rw [htrV x hvx]; exact hnp x hx
            · have hvx' : vis2 x = false := by simpa using hvx
              by_cases hrec : slackv cost (st.ts cur) st.sC st.tC x < st.ms x
              · exfalso
                have h1 := ms_cap x hxl (hv2F x hvx').1
                have h2 := ms_nonneg x hxl (hv2F x hvx').1
                have h3 := hsl_nonneg x hxl
                omega
              · rw [htrN x hxl hvx' hrec]; exact hnp x hx
          · rw [S.tr_other x (Or.inl (by simp [List.mem_range]; omega))]
            exact hnp x hx
    · have hjc : j = cur := by
        rcases hv2cases j hvj with hx | hx
        · exact hx
        · exact absurd hx hvisj
      subst hjc
      have hvisj' : st.vis j = false := by simpa using hvisj
      obtain ⟨hcm1, hcm2⟩ := cur_ms hvisj'
      obtain ⟨hw1, hw2⟩ := ms_witness j hj hvisj'
      constructor
      · intro hne
        have htl := trail_lt j (by omega) hne
        rw [hslack_vis (st.trail j) j (by omega) (hv2T _ htl.2) (by omega) hvj]
        have := hw1 hne
        omega
      · intro he
        have hmin := hw2 he
        by_cases hsc : slackv cost i st.sC st.tC j ≤ W - st.sC i
        · left
          rw [hslack_i_vis j (by omega) hvj]
          omega
        · right
          have hDW : st.sC i = W := by omega
          have hd0' : sc.2.2.1 = 0 := by omega
          refine ⟨by rw [hupi]; omega, ?_⟩
          intro x hx
          rcases Nat.lt_or_ge x n with hxl | hxg
          · by_cases hvx : vis2 x = true
            · rw [htrV x hvx]
              intro hcx
              have htl := trail_lt x hx (by rw [hcx]; omega)
              rw [hcx] at htl
              rw [htl.2] at hvisj'
              simp at hvisj'
            · have hvx' : vis2 x = false := by simpa using hvx
              by_cases hrec : slackv cost (st.ts j) st.sC st.tC x < st.ms x
              · exfalso
                have h1 := ms_cap x hxl (hv2F x hvx').1
                have h2 := ms_nonneg x hxl (hv2F x hvx').1
                have h3 := hsl_nonneg x hxl
                omega
              · rw [htrN x hxl hvx' hrec]
                intro hcx
                have htl := trail_lt x hx (by rw [hcx]; omega)
                rw [hcx] at htl
                rw [htl.2] at hvisj'
                simp at hvisj'
          · rw [S.tr_other x (Or.inl (by simp [List.mem_range]; omega))]
            intro hcx
            have htl := trail_lt x hx (by rw [hcx]; omega)
            rw [hcx] at htl
            rw [htl.2] at hvisj'
            simp at hvisj'
  · -- cur_ms
    intro hvn
    dsimp only at hvn ⊢
    by_cases hf : sc.2.2.1 < W
    · obtain ⟨hm, hv, he⟩ := S.fired hf
      have hmn : sc.2.2.2 < n := List.mem_range.mp hm
      refine ⟨hmn, ?_⟩
      rw [hms3u _ (by omega) hv]
      omega
    · obtain ⟨he0, heW⟩ := S.unfired (le_of_not_lt hf)
      rw [he0] at hvn ⊢
      refine ⟨hn1, ?_⟩
      rw [hms3u 0 (by omega) hvn]
      have h1 := hdlems 0 hn1 hvn
      have h2 := hms2le 0 hn1 hvn
      have h3 := ms_cap 0 hn1 (hv2F 0 hvn).1
      omega
  · -- order
    obtain ⟨r, hrdec, hrbound⟩ := order
    by_cases hfresh : st.vis cur = true
    · have hveq : vis2 = st.vis := by
        funext x
        by_cases hxc : x = cur
        · rw [hxc]; simp [hv2d, hfresh]
        · simp [hv2d, Function.update_noteq hxc]
      refine ⟨r, ?_, ?_⟩
      · intro x hx hvx hne
        dsimp only at hvx hne ⊢
        have hvx' : st.vis x = true := by rw [← hveq]; exact hvx
        rw [htrV x hvx] at hne ⊢
        exact hrdec x hx hvx' hne
      · intro j hj hvj
        dsimp only at hvj ⊢
        have hvj' : st.vis j = true := by rw [← hveq]; exact hvj
        have hcard : visCard n ⟨up.1, up.2.1, st.ts, up.2.2, sc.2.1, vis2⟩ =
            visCard n st := by
          unfold visCard
          dsimp only
          rw [hveq]
        rw [hcard]
        exact hrbound j hj hvj'
    · have hvisF : st.vis cur = false := by simpa using hfresh
      obtain ⟨hcl, _⟩ := cur_ms hvisF
      have hsplit : (Finset.range (n + 1)).filter (fun j => vis2 j = true) =
          insert cur ((Finset.range (n + 1)).filter (fun j => st.vis j = true)) := by
        ext x
        simp only [Finset.mem_insert, Finset.mem_filter, Finset.mem_range]
        constructor
        · rintro ⟨hx1, hx2⟩
          rcases hv2cases x hx2 with hc | hc
          · exact Or.inl hc
          · exact Or.inr ⟨hx1, hc⟩
        · rintro (hc | ⟨hx1, hx2⟩)
          · rw [hc]; exact ⟨by omega, hv2cur⟩
          · exact ⟨hx1, hv2T x hx2⟩
      have hnotmem : cur ∉ (Finset.range (n + 1)).filter
          (fun j => st.vis j = true) := by
        simp [Finset.mem_filter, hvisF]
      have hcard2 : visCard n ⟨up.1, up.2.1, st.ts, up.2.2, sc.2.1, vis2⟩ =
          visCard n st + 1 := by
        unfold visCard
        dsimp only
        rw [hsplit, Finset.card_insert_of_not_mem hnotmem]
      refine ⟨Function.update r cur (visCard n st), ?_, ?_⟩
      · intro x hx hvx hne
        dsimp only at hvx hne ⊢
        by_cases hxc : x = cur
        · subst hxc
          rw [htrV x hv2cur] at hne ⊢
          have htl := trail_lt x hx hne
          have htne : st.trail x ≠ x := by
            intro hc; rw [hc] at htl; rw [htl.2] at hvisF; simp at hvisF
          rw [Function.update_same, Function.update_noteq htne]
          exact hrbound (st.trail x) (by omega) htl.2
        · have hvx' : st.vis x = true := by
            rcases hv2cases x hvx with hc | hc
            · exact absurd hc hxc
            · exact hc
          rw [htrV x hvx] at hne ⊢
          have htl := trail_lt x hx hne
          have h1 : st.trail x ≠ cur := by
            intro hc; rw [hc] at htl; rw [htl.2] at hvisF; simp at hvisF
          rw [Function.update_noteq h1, Function.update_noteq hxc]
          exact hrdec x hx hvx' hne
      · intro j hj hvj
        dsimp only at hvj ⊢
        rw [hcard2]
        by_cases hjc : j = cur
        · subst hjc
          rw [Function.update_same]
          omega
        · have hvj' : st.vis j = true := by
            rcases hv2cases j hvj with hc | hc
            · exact absurd hc hjc
            · exact hc
          rw [Function.update_noteq hjc]
          have := hrbound j hj hvj'
          omega

theorem phaseInv_inj (cost : ℕ → ℕ → ℤ) (n k : ℕ) (st : HState)
    (P : PhaseInv cost n k st) (hkn : k ≤ n) :
    ∀ j1 j2, j1 < n → j2 < n → st.ts j1 ≠ n → st.ts j2 ≠ n → j1 ≠ j2 →
      st.ts j1 ≠ st.ts j2 := by
  intro j1 j2 hj1 hj2 hm1 hm2 hne
  have hmem1 : j1 ∈ (Finset.range n).filter (fun j => st.ts j ≠ n) := by
    simp [Finset.mem_filter, Finset.mem_range, hj1, hm1]
  have hmem2 : j2 ∈ (Finset.range n).filter (fun j => st.ts j ≠ n) := by
    simp [Finset.mem_filter, Finset.mem_range, hj2, hm2]
  intro hc
  refine hne (Finset.inj_on_of_surj_on_of_card_le
    (t := Finset.range k) (fun j _ => st.ts j)
    (fun a ha => by
      simp only [Finset.mem_filter, Finset.mem_range] at ha
      exact Finset.mem_range.mpr (P.ts_lt a ha.1 ha.2))
    (fun b hb => by
      obtain ⟨j, hj, hts⟩ := P.cover b (Finset.mem_range.mp hb)
      have hjm : st.ts j ≠ n := by
        rw [hts]
        have := Finset.mem_range.mp hb
        omega
      exact ⟨j, by simp [Finset.mem_filter, Finset.mem_range, hj, hjm], hts⟩)
    (by rw [P.count, Finset.card_range]) hmem1 hmem2 hc)

theorem phaseInv_unmatched (cost : ℕ → ℕ → ℤ) (n k : ℕ) (st : HState)
    (P : PhaseInv cost n k st) (hk : k < n) : ∃ j, j < n ∧ st.ts j = n := by
  by_contra hc
  push_neg at hc
  have hall : ∀ j, j < n → st.ts j ≠ n := hc
  have : n ≤ (Finset.range k).card := by
    refine Finset.le_card_of_inj_on_range st.ts
      (fun i hi => Finset.mem_range.mpr (P.ts_lt i hi (hall i hi))) ?_
    intro i hi j hj he
    by_contra hne
    exact phaseInv_inj cost n k st P (by omega) i j hi hj (hall i hi) (hall j hj)
      hne he
  rw [Finset.card_range] at this
  omega

theorem loopInv_init (cost : ℕ → ℕ → ℤ) (n : ℕ) (W : ℤ) (k : ℕ)
    (hrange : ∀ a b, a < n → b < n → 0 ≤ cost a b ∧ cost a b ≤ W)
    (st : HState) (P : PhaseInv cost n k st) (hk : k < n) :
    LoopInv cost n W k (innerStep cost n W (resetPhase n W st k) n).1
      (innerStep cost n W (resetPhase n W st k) n).2 := by
  have hn1 : 0 < n := by omega
  have hW : 0 ≤ W := le_trans (hrange 0 0 hn1 hn1).1 (hrange 0 0 hn1 hn1).2
  have hsCk : st.sC k = 0 := P.fresh_sC k le_rfl (by omega)
  have hreset : resetPhase n W st k =
      ⟨st.sC, st.tC, Function.update st.ts n k, fun _ => W, fun _ => n,
       fun _ => false⟩ := rfl
  rw [hreset]
  set ts0 := Function.update st.ts n k with hts0d
  have hts0n : ts0 n = k := Function.update_same n k st.ts
  have hts0 : ∀ j, j < n → ts0 j = st.ts j := by
    intro j hj
    have hne : j ≠ n := by omega
    exact Function.update_noteq hne k st.ts
  set vis2 := Function.update (fun _ => (false : Bool)) n true with hv2d
  have hv2 : ∀ j, vis2 j = true ↔ j = n := by
    intro j
    by_cases hj : j = n
    · rw [hj]; simp [hv2d]
    · simp [hv2d, Function.update_noteq hj, hj]
  have hv2n : vis2 n = true := (hv2 n).mpr rfl
  have hv2lt : ∀ j, j < n → vis2 j = false := by
    intro j hj
    by_cases hb : vis2 j = true
    · have := (hv2 j).mp hb; omega
    · simpa using hb
  have hinj2 : ∀ j1 j2, j1 < n + 1 → j2 < n + 1 → vis2 j1 = true →
      vis2 j2 = true → j1 ≠ j2 → ts0 j1 ≠ ts0 j2 := by
    intro j1 j2 _ _ h1 h2 hne
    rw [(hv2 j1).mp h1, (hv2 j2).mp h2] at hne
    omega
  have S := scanLoop_spec cost (ts0 n) n st.sC st.tC vis2 n (fun _ => W)
    (fun _ => n) W
  set sc := scanLoop cost (ts0 n) n st.sC st.tC vis2 n (fun _ => W)
    (fun _ => n) W with hscd
  have U := updLoop_spec sc.2.2.1 ts0 vis2 n st.sC st.tC sc.1 hinj2
  set up := updLoop sc.2.2.1 ts0 vis2 n st.sC st.tC sc.1 with hupd
  have hsl : ∀ b, slackv cost (ts0 n) st.sC st.tC b =
      cost k b - st.sC k - st.tC b := by
    intro b
    rw [hts0n]
    rfl
  have hsl_nonneg : ∀ b, b < n → 0 ≤ slackv cost (ts0 n) st.sC st.tC b := by
    intro b hb
    rw [hsl b]
    have := P.feas k b hk hb
    omega
  have hms2 : ∀ j, j < n →
      sc.1 j = min W (slackv cost (ts0 n) st.sC st.tC j) :=
    fun j hj => S.ms_mem j (List.mem_range.mpr hj) (hv2lt j hj)
  have hms2le : ∀ j, j < n → sc.1 j ≤ W := by
    intro j hj
    rw [hms2 j hj]
    exact min_le_left _ _
  have hms2sl : ∀ j, j < n → sc.1 j ≤ slackv cost (ts0 n) st.sC st.tC j := by
    intro j hj
    rw [hms2 j hj]
    exact min_le_right _ _
  have hdle : sc.2.2.1 ≤ W := S.delta_le
  have hdlems : ∀ j, j < n → sc.2.2.1 ≤ sc.1 j :=
    fun j hj => S.delta_le_ms j (List.mem_range.mpr hj) (hv2lt j hj)
  have hd0 : 0 ≤ sc.2.2.1 := by
    by_cases hf : sc.2.2.1 < W
    · obtain ⟨hm, hv, he⟩ := S.fired hf
      have hmn : sc.2.2.2 < n := List.mem_range.mp hm
      rw [← he, hms2 sc.2.2.2 hmn]
      exact le_min hW (hsl_nonneg sc.2.2.2 hmn)
    · have := (S.unfired (le_of_not_lt hf)).2
      omega
  have hupk : up.1 k = st.sC k + sc.2.2.1 :=
    U.sC_hit k ⟨n, List.mem_range.mpr (by omega), hv2n, hts0n⟩
  have hmiss : ∀ s, s ≠ k → up.1 s = st.sC s := by
    intro s hs
    refine U.sC_miss s ?_
    rintro ⟨t, htm, htv, hte⟩
    rw [(hv2 t).mp htv, hts0n] at hte
    exact hs hte.symm
  have htCu : ∀ j, j < n → up.2.1 j = st.tC j :=
    fun j hj => U.tC_other j (Or.inr (hv2lt j hj))
  have hms3 : ∀ j, j < n → up.2.2 j = sc.1 j - sc.2.2.1 :=
    fun j hj => U.ms_unvis j (List.mem_range.mpr (by omega)) (hv2lt j hj)
  have htr2 : ∀ x, sc.2.1 x = n := by
    intro x
    by_cases hxv : vis2 x = true
    · rw [S.tr_other x (Or.inr hxv)]
    · rcases Nat.lt_or_ge x n with hxl | hxg
      · have hxf : vis2 x = false := by simpa using hxv
        by_cases hrec : slackv cost (ts0 n) st.sC st.tC x < W
        · rw [S.tr_mem_lt x (List.mem_range.mpr hxl) hxf hrec]
        · rw [S.tr_mem_ge x (List.mem_range.mpr hxl) hxf hrec]
      · rw [S.tr_other x (Or.inl (by simp [List.mem_range]; omega))]
  show LoopInv cost n W k ⟨up.1, up.2.1, ts0, up.2.2, sc.2.1, vis2⟩ sc.2.2.2
  have hinj := phaseInv_inj cost n k st P (by omega)
  refine ⟨hk, ?_, hts0n, ?_, ?_, ?_, ?_, ?_, ?_, ?_, ?_, ?_, hv2n, ?_, ?_, ?_,
    ?_, ?_, ?_, ?_, ?_, ?_, ?_⟩
  · -- cur_le
    by_cases hf : sc.2.2.1 < W
    · have := List.mem_range.mp (S.fired hf).1
      omega
    · rw [(S.unfired (le_of_not_lt hf)).1]
      omega
  · -- ts_lt
    intro j hj hm
    dsimp only at hm ⊢
    rw [hts0 j hj] at hm ⊢
    exact P.ts_lt j hj hm
  · -- ts_ne_i
    intro j hj
    dsimp only
    rw [hts0 j hj]
    by_cases hm : st.ts j = n
    · rw [hm]; omega
    · have := P.ts_lt j hj hm; omega
  · -- ts_inj
    intro j1 j2 hj1 hj2 hm1 hm2 hne
    dsimp only at hm1 hm2 ⊢
    rw [hts0 j1 hj1] at hm1 ⊢
    rw [hts0 j2 hj2] at hm2 ⊢
    exact hinj j1 j2 hj1 hj2 hm1 hm2 hne
  · -- unmatched_exists
    obtain ⟨j, hj, hts⟩ := phaseInv_unmatched cost n k st P hk
    refine ⟨j, hj, ?_⟩
    dsimp only
    rw [hts0 j hj]
    exact hts
  · -- feas
    intro a b ha hb
    dsimp only
    rw [htCu b hb]
    by_cases hak : a = k
    · rw [hak, hupk]
      have h1 := hdlems b hb
      have h2 := hms2sl b hb
      rw [hsl b] at h2
      omega
    · rw [hmiss a hak]
      exact P.feas a b ha hb
  · -- tight
    intro j hj hm
    dsimp only at hm ⊢
    rw [hts0 j hj] at hm ⊢
    have hlt := P.ts_lt j hj hm
    rw [hmiss (st.ts j) (by omega), htCu j hj]
    exact P.tight j hj hm
  · -- unmatched_tC
    intro j hj hm
    dsimp only at hm ⊢
    rw [hts0 j hj] at hm
    rw [htCu j hj]
    exact P.unmatched_tC j hj hm
  · -- unmatched_unvis
    intro j hj _
    exact hv2lt j hj
  · -- fresh_sC
    intro s hs1 hs2
    dsimp only
    rw [hmiss s (by omega)]
    exact P.fresh_sC s (by omega) hs2
  · -- D_lb
    dsimp only
    rw [hupk, hsCk]
    omega
  · -- D_ub
    dsimp only
    rw [hupk, hsCk]
    omega
  · -- ms_cap
    intro j hj _
    dsimp only
    rw [hms3 j hj, hupk, hsCk]
    have := hms2le j hj
    omega
  · -- ms_nonneg
    intro j hj _
    dsimp only
    rw [hms3 j hj]
    have := hdlems j hj
    omega
  · -- ms_le_slack
    intro j t hj _ ht hvt
    dsimp only at hvt ⊢
    have htn := (hv2 t).mp hvt
    rw [htn, hts0n]
    unfold slackv
    rw [hupk, hsCk, htCu j hj]
    have h2 := hms2sl j hj
    rw [hsl j] at h2
    have h3 := hms3 j hj
    omega
  · -- ms_witness
    intro j hj _
    dsimp only
    rw [htr2 j]
    constructor
    · intro hne
      exact absurd rfl hne
    · intro _
      unfold slackv
      rw [hms3 j hj, hupk, hsCk, htCu j hj]
      have h2 := hms2 j hj
      rw [hsl j] at h2
      rw [h2]
      omega
  · -- trail_lt
    intro x _ hne
    dsimp only at hne
    exact absurd (htr2 x) hne
  · -- vis_path
    intro j hj hvj
    dsimp only at hvj
    have := (hv2 j).mp hvj
    omega
  · -- cur_ms
    intro hvn
    dsimp only at hvn ⊢
    by_cases hf : sc.2.2.1 < W
    · obtain ⟨hm, hv, he⟩ := S.fired hf
      have hmn : sc.2.2.2 < n := List.mem_range.mp hm
      refine ⟨hmn, ?_⟩
      rw [hms3 _ hmn]
      omega
    · obtain ⟨he0, heW⟩ := S.unfired (le_of_not_lt hf)
      rw [he0]
      refine ⟨hn1, ?_⟩
      rw [hms3 0 hn1]
      have h1 := hdlems 0 hn1
      have h2 := hms2le 0 hn1
      omega
  · -- order
    refine ⟨fun _ => 0, ?_, ?_⟩
    · intro x _ _ hne
      dsimp only at hne
      exact absurd (htr2 x) hne
    · intro j hj hvj
      dsimp only at hvj ⊢
      have hpos : 0 < visCard n ⟨up.1, up.2.1, ts0, up.2.2, sc.2.1, vis2⟩ := by
        unfold visCard
        refine Finset.card_pos.mpr ⟨n, ?_⟩
        simp only [Finset.mem_filter, Finset.mem_range]
        exact ⟨by omega, hv2n⟩
      omega

theorem loopMeasure_decr (cost : ℕ → ℕ → ℤ) (n : ℕ) (W : ℤ) (i : ℕ)
    (hrange : ∀ a b, a < n → b < n → 0 ≤ cost a b ∧ cost a b ≤ W)
    (hWpos : 0 < W) (st : HState) (cur : ℕ)
    (h : LoopInv cost n W i st cur) (hguard : st.ts cur ≠ n) :
    loopMeasure n W i (innerStep cost n W st cur).1
      (innerStep cost n W st cur).2 < loopMeasure n W i st cur := by
  obtain ⟨hi, cur_le, ts_dummy, ts_lt, ts_ne_i, ts_inj, unmatched_exists, feas,
    tight, unmatched_tC, unmatched_unvis, fresh_sC, vis_n, D_lb, D_ub, ms_cap,
    ms_nonneg, ms_le_slack, ms_witness, trail_lt, vis_path, cur_ms, order⟩ := h
  have hn1 : 0 < n := Nat.lt_of_le_of_lt (Nat.zero_le i) hi
  set vis2 := Function.update st.vis cur true with hv2d
  have hv2T : ∀ j, st.vis j = true → vis2 j = true := by
    intro j hj
    by_cases hjc : j = cur
    · rw [hjc]; simp [hv2d]
    · simpa [hv2d, Function.update_noteq hjc] using hj
  have hv2F : ∀ j, vis2 j = false → st.vis j = false ∧ j ≠ cur := by
    intro j hj
    by_cases hjc : j = cur
    · rw [hjc] at hj; simp [hv2d] at hj
    · refine ⟨?_, hjc⟩
      simpa [hv2d, Function.update_noteq hjc] using hj
  have hv2cur : vis2 cur = true := by simp [hv2d]
  have hv2n : vis2 n = true := by
    by_cases hc : cur = n
    · rw [← hc]; exact hv2cur
    · exact hv2T n vis_n
  have hv2cases : ∀ j, vis2 j = true → j = cur ∨ st.vis j = true := by
    intro j hj
    by_cases hjc : j = cur
    · exact Or.inl hjc
    · exact Or.inr (by simpa [hv2d, Function.update_noteq hjc] using hj)
  have hmatched2 : ∀ t, t < n → vis2 t = true → st.ts t ≠ n := by
    intro t ht hv
    rcases hv2cases t hv with hc | hc
    · rw [hc]; exact hguard
    · intro he
      rw [unmatched_unvis t ht he] at hc
      simp at hc
  have hinj2 : ∀ j1 j2, j1 < n + 1 → j2 < n + 1 → vis2 j1 = true →
      vis2 j2 = true → j1 ≠ j2 → st.ts j1 ≠ st.ts j2 := by
    intro j1 j2 hj1 hj2 hvj1 hvj2 hne
    rcases Nat.lt_or_ge j1 n with hl1 | hg1
    · rcases Nat.lt_or_ge j2 n with hl2 | hg2
      · exact ts_inj j1 j2 hl1 hl2 (hmatched2 j1 hl1 hvj1) (hmatched2 j2 hl2 hvj2) hne
      · have he2 : j2 = n := by omega
        rw [he2, ts_dummy]
        exact ts_ne_i j1 hl1
    · have he1 : j1 = n := by omega
      rw [he1, ts_dummy]
      intro hc
      have hl2 : j2 < n := by
        rcases Nat.lt_or_ge j2 n with hx | hx
        · exact hx
        · exact absurd (by omega : j2 = n) (by rw [he1] at hne; exact fun hz => hne hz.symm)
      exact ts_ne_i j2 hl2 hc.symm
  have hcs_lt : st.ts cur < n := by
    by_cases hc : cur = n
    · rw [hc, ts_dummy]; exact hi
    · have hcl : cur < n := by omega
      exact lt_trans (ts_lt cur hcl hguard) hi
  have hsl_nonneg : ∀ b, b < n → 0 ≤ slackv cost (st.ts cur) st.sC st.tC b := by
    intro b hb
    have := feas (st.ts cur) b hcs_lt hb
    unfold slackv
    omega
  have S := scanLoop_spec cost (st.ts cur) cur st.sC st.tC vis2 n st.ms st.trail W
  set sc := scanLoop cost (st.ts cur) cur st.sC st.tC vis2 n st.ms st.trail W
    with hscd
  have U := updLoop_spec sc.2.2.1 st.ts vis2 n st.sC st.tC sc.1 hinj2
  set up := updLoop sc.2.2.1 st.ts vis2 n st.sC st.tC sc.1 with hupd
  have hms2 : ∀ j, j < n → vis2 j = false →
      sc.1 j = min (st.ms j) (slackv cost (st.ts cur) st.sC st.tC j) :=
    fun j hj hv => S.ms_mem j (List.mem_range.mpr hj) hv
  have hms2le : ∀ j, j < n → vis2 j = false → sc.1 j ≤ st.ms j := by
    intro j hj hv
    rw [hms2 j hj hv]
    exact min_le_left _ _
  have hdlems : ∀ j, j < n → vis2 j = false → sc.2.2.1 ≤ sc.1 j :=
    fun j hj hv => S.delta_le_ms j (List.mem_range.mpr hj) hv
  have hd0 : 0 ≤ sc.2.2.1 := by
    by_cases hf : sc.2.2.1 < W
    · obtain ⟨hm, hv, he⟩ := S.fired hf
      have hmn : sc.2.2.2 < n := List.mem_range.mp hm
      have h1 := ms_nonneg sc.2.2.2 hmn (hv2F _ hv).1
      have h2 := hsl_nonneg sc.2.2.2 hmn
      rw [← he, hms2 sc.2.2.2 hmn hv]
      exact le_min h1 h2
    · have := (S.unfired (le_of_not_lt hf)).2
      omega
  have hdcap : sc.2.2.1 ≤ W - st.sC i := by
    obtain ⟨j, hj, hjts⟩ := unmatched_exists
    have hjv : st.vis j = false := unmatched_unvis j hj hjts
    have hjne : j ≠ cur := by
      intro hc; rw [hc] at hjts; exact hguard hjts
    have hjv2 : vis2 j = false := by
      simpa [hv2d, Function.update_noteq hjne] using hjv
    calc sc.2.2.1 ≤ sc.1 j := hdlems j hj hjv2
      _ ≤ st.ms j := hms2le j hj hjv2
      _ ≤ W - st.sC i := ms_cap j hj hjv
  have hupi : up.1 i = st.sC i + sc.2.2.1 :=
    U.sC_hit i ⟨n, List.mem_range.mpr (by omega), hv2n, ts_dummy⟩
  have hstep1 : (innerStep cost n W st cur).1 =
      ⟨up.1, up.2.1, st.ts, up.2.2, sc.2.1, vis2⟩ := rfl
  have hstep2 : (innerStep cost n W st cur).2 = sc.2.2.2 := rfl
  rw [hstep1, hstep2]
  unfold loopMeasure
  dsimp only
  have hvcle := visCard_le n st
  have hv2next : vis2 sc.2.2.2 = false ∨ vis2 sc.2.2.2 = true := by
    rcases vis2 sc.2.2.2 with _ | _
    · exact Or.inl rfl
    · exact Or.inr rfl
  by_cases hfresh : st.vis cur = true
  · -- revisit: card unchanged
    have hveq : vis2 = st.vis := by
      funext x
      by_cases hxc : x = cur
      · rw [hxc]; simp [hv2d, hfresh]
      · simp [hv2d, Function.update_noteq hxc]
    have hcard : visCard n ⟨up.1, up.2.1, st.ts, up.2.2, sc.2.1, vis2⟩ =
        visCard n st := by
      unfold visCard
      dsimp only
      rw [hveq]
    rw [hcard, hfresh, if_pos rfl]
    by_cases hf : sc.2.2.1 < W
    · have hnext := (S.fired hf).2.1
      rw [hnext]
      simp only [Bool.false_eq_true, if_false]
      by_cases hD2 : up.1 i < W
      · rw [if_pos hD2, if_pos (by omega : st.sC i < W)]
        omega
      · rw [if_neg hD2]
        by_cases hD : st.sC i < W
        · rw [if_pos hD]; omega
        · rw [if_neg hD]; omega
    · have hdW := (S.unfired (le_of_not_lt hf)).2
      have hD0 : st.sC i = 0 := by omega
      have hD2 : ¬(up.1 i < W) := by omega
      rw [if_neg hD2, if_pos (by omega : st.sC i < W)]
      rcases hv2next with hv | hv
      · rw [hv]
        simp only [Bool.false_eq_true, if_false]
        omega
      · rw [hv, if_pos rfl]
        omega
  · -- fresh visit: card increments
    have hvisF : st.vis cur = false := by simpa using hfresh
    have hsplit : (Finset.range (n + 1)).filter (fun j => vis2 j = true) =
        insert cur ((Finset.range (n + 1)).filter (fun j => st.vis j = true)) := by
      ext x
      simp only [Finset.mem_insert, Finset.mem_filter, Finset.mem_range]
      constructor
      · rintro ⟨hx1, hx2⟩
        rcases hv2cases x hx2 with hc | hc
        · exact Or.inl hc
        · exact Or.inr ⟨hx1, hc⟩
      · rintro (hc | ⟨hx1, hx2⟩)
        · rw [hc]; exact ⟨by omega, hv2cur⟩
        · exact ⟨hx1, hv2T x hx2⟩
    have hnotmem : cur ∉ (Finset.range (n + 1)).filter
        (fun j => st.vis j = true) := by
      simp [Finset.mem_filter, hvisF]
    have hcard2 : visCard n ⟨up.1, up.2.1, st.ts, up.2.2, sc.2.1, vis2⟩ =
        visCard n st + 1 := by
      unfold visCard
      dsimp only
      rw [hsplit, Finset.card_insert_of_not_mem hnotmem]
    have hcle : visCard n st + 1 ≤ n + 1 := by
      rw [← hcard2]
      exact visCard_le n _
    rw [hcard2, hvisF]
    simp only [Bool.false_eq_true, if_false]
    have hee : (if up.1 i < W then (1 : ℕ) else 0) ≤
        (if st.sC i < W then (1 : ℕ) else 0) := by
      by_cases hD2 : up.1 i < W
      · rw [if_pos hD2, if_pos (by omega : st.sC i < W)]
      · rw [if_neg hD2]; omega
    have hvv : (if vis2 sc.2.2.2 = true then (1 : ℕ) else 0) ≤ 1 := by
      rcases hv2next with hv | hv
      · rw [hv]; simp
      · rw [hv]; simp
    omega

theorem innerLoop_some (cost : ℕ → ℕ → ℤ) (n : ℕ) (W : ℤ) (i : ℕ)
    (hrange : ∀ a b, a < n → b < n → 0 ≤ cost a b ∧ cost a b ≤ W)
    (hWpos : 0 < W) :
    ∀ (fuel : ℕ) (st : HState) (cur : ℕ), LoopInv cost n W i st cur →
      loopMeasure n W i st cur ≤ fuel →
      ∃ st2 cur2, innerLoop cost n W fuel st cur = some (st2, cur2) ∧
        LoopInv cost n W i st2 cur2 ∧ st2.ts cur2 = n ∧ st2.ts = st.ts := by
  intro fuel
  induction fuel with
  | zero =>
    intro st cur h hm
    by_cases hguard : st.ts cur = n
    · exact ⟨st, cur, by rw [innerLoop.eq_def]; dsimp only; rw [if_pos hguard], h, hguard, rfl⟩
    · exfalso
      obtain ⟨j, hj, hjts⟩ := h.unmatched_exists
      have hjv : st.vis j = false := h.unmatched_unvis j hj hjts
      have hjmem : j ∉ (Finset.range (n + 1)).filter (fun x => st.vis x = true) := by
        simp [Finset.mem_filter, hjv]
      have hlt : visCard n st < n + 1 := by
        unfold visCard
        calc ((Finset.range (n + 1)).filter (fun x => st.vis x = true)).card
            < (Finset.range (n + 1)).card := Finset.card_lt_card
              ((Finset.ssubset_iff_of_subset (Finset.filter_subset _ _)).mpr
                ⟨j, Finset.mem_range.mpr (by omega), hjmem⟩)
          _ = n + 1 := Finset.card_range _
      unfold loopMeasure at hm
      omega
  | succ fuel ih =>
    intro st cur h hm
    by_cases hguard : st.ts cur = n
    · exact ⟨st, cur, by rw [innerLoop.eq_def]; dsimp only; rw [if_pos hguard], h, hguard, rfl⟩
    · have h2 := loopInv_step cost n W i hrange st cur h hguard
      have hd := loopMeasure_decr cost n W i hrange hWpos st cur h hguard
      obtain ⟨st2, cur2, he, hl, hts, htseq⟩ := ih (innerStep cost n W st cur).1
        (innerStep cost n W st cur).2 h2 (by omega)
      refine ⟨st2, cur2, ?_, hl, hts, ?_⟩
      · rw [innerLoop.eq_def]
        dsimp only
        rw [if_neg hguard]
        exact he
      · rw [htseq]
        rfl

theorem walk_main (cost : ℕ → ℕ → ℤ) (n : ℕ) (W : ℤ) (i : ℕ) (st : HState)
    (r : ℕ → ℕ)
    (htr : ∀ x, x ≤ n → st.trail x ≠ n →
      st.trail x < n ∧ st.vis (st.trail x) = true)
    (hvp : ∀ j, j < n → st.vis j = true →
      (st.trail j ≠ n → slackv cost (st.ts (st.trail j)) st.sC st.tC j = 0) ∧
      (st.trail j = n → slackv cost i st.sC st.tC j = 0 ∨
        (st.sC i = W ∧ ∀ x, x ≤ n → st.trail x ≠ j)))
    (hrdec : ∀ x, x ≤ n → st.vis x = true → st.trail x ≠ n →
      r (st.trail x) < r x)
    (hts_dummy : st.ts n = i)
    (hvismatch : ∀ j, j < n → st.vis j = true → st.ts j ≠ n)
    (htslt : ∀ j, j < n → st.ts j ≠ n → st.ts j < n)
    (hi : i < n) :
    ∀ (rx : ℕ) (x : ℕ) (ts0 : ℕ → ℕ) (fuel : ℕ), r x = rx →
      x < n → st.vis x = true →
      (∃ y, y ≤ n ∧ st.trail y = x) →
      ts0 x = st.ts x →
      (∀ y, y ≤ n → st.vis y = true → r y < r x → ts0 y = st.ts y) →
      ts0 n = st.ts n →
      (∃ y, y < n ∧ y ≠ x ∧ ts0 y = ts0 x) →
      r x + 1 ≤ fuel →
      ∃ ts2, augmentLoop n st.trail fuel ts0 x = some ts2 ∧
        (∀ j, j ≤ n → ts2 j ≠ ts0 j → j < n ∧ st.vis j = true ∧ r j ≤ r x) ∧
        (∀ j, j ≤ n → ts2 j ≠ ts0 j → ts2 j < n ∧
          st.sC (ts2 j) + st.tC j = cost (ts2 j) j ∧
          (ts2 j = i ∨ ∃ y, y < n ∧ st.ts y = ts2 j ∧ st.ts y ≠ n)) ∧
        (ts2 x < n ∧ st.sC (ts2 x) + st.tC x = cost (ts2 x) x ∧
          (ts2 x = i ∨ ∃ y, y < n ∧ st.ts y = ts2 x ∧ st.ts y ≠ n)) ∧
        (∀ s, s < n → (∃ j, j < n ∧ ts0 j = s) → ∃ j, j < n ∧ ts2 j = s) ∧
        (∃ j, j < n ∧ ts2 j = ts0 n) ∧
        ts2 n = ts0 n := by
  intro rx
  induction rx using Nat.strong_induction_on with
  | _ rx ih =>
    intro x ts0 fuel hrx hx hvx hpointed hx0 hagree hn0 hdup hfuel
    obtain ⟨fuel, rfl⟩ : ∃ f, fuel = f + 1 := by
      cases fuel with
      | zero => omega
      | succ f => exact ⟨f, rfl⟩
    have hxn : ¬ x = n := by omega
    have hstep : augmentLoop n st.trail (fuel + 1) ts0 x =
        augmentLoop n st.trail fuel
          (Function.update ts0 x (ts0 (st.trail x))) (st.trail x) := by
      rw [augmentLoop.eq_def]
      dsimp only
      rw [if_neg hxn]
    set ts1 := Function.update ts0 x (ts0 (st.trail x)) with hts1d
    by_cases htn : st.trail x = n
    · -- the predecessor is the dummy: one step and stop
      have hdone : augmentLoop n st.trail fuel ts1 (st.trail x) = some ts1 := by
        rw [htn, augmentLoop.eq_def]
        dsimp only
        rw [if_pos rfl]
      have hv1x : ts1 x = i := by
        rw [hts1d, Function.update_same, htn, hn0, hts_dummy]
      have htight : st.sC i + st.tC x = cost i x := by
        rcases (hvp x hx hvx).2 htn with hz | ⟨_, hnp⟩
        · unfold slackv at hz
          omega
        · obtain ⟨y, hy, hyx⟩ := hpointed
          exact absurd hyx (hnp y hy)
      refine ⟨ts1, by rw [hstep]; exact hdone, ?_, ?_, ?_, ?_, ?_, ?_⟩
      · intro j hj hne
        by_cases hjx : j = x
        · exact ⟨by omega, by rw [hjx]; exact hvx, by rw [hjx]⟩
        · rw [hts1d, Function.update_noteq hjx] at hne
          exact absurd rfl hne
      · intro j hj hne
        by_cases hjx : j = x
        · rw [hjx, hv1x]
          exact ⟨hi, htight, Or.inl rfl⟩
        · rw [hts1d, Function.update_noteq hjx] at hne
          exact absurd rfl hne
      · rw [hv1x]
        exact ⟨hi, htight, Or.inl rfl⟩
      · intro s hs hw
        obtain ⟨j, hj, hjs⟩ := hw
        by_cases hjx : j = x
        · obtain ⟨y, hy, hyx, hyv⟩ := hdup
          refine ⟨y, hy, ?_⟩
          rw [hts1d, Function.update_noteq hyx, hyv, ← hjx, hjs]
        · exact ⟨j, hj, by rw [hts1d, Function.update_noteq hjx]; exact hjs⟩
      · refine ⟨x, hx, ?_⟩
        rw [hts1d, Function.update_same, htn]
      · rw [hts1d, Function.update_noteq (by omega : n ≠ x)]
    · -- the predecessor is a visited real target: recurse
      obtain ⟨hpn, hpv⟩ := htr x (by omega) htn
      have hrp : r (st.trail x) < r x := hrdec x (by omega) hvx htn
      have hpx : st.trail x ≠ x := by
        intro hc
        rw [hc] at hrp
        omega
      have hv1x : ts1 x = st.ts (st.trail x) := by
        rw [hts1d, Function.update_same]
        exact hagree (st.trail x) (by omega) hpv (by omega)
      have hpm : st.ts (st.trail x) ≠ n := hvismatch _ hpn hpv
      have hpmlt : st.ts (st.trail x) < n := htslt _ hpn hpm
      have htight : st.sC (st.ts (st.trail x)) + st.tC x =
          cost (st.ts (st.trail x)) x := by
        have hz := (hvp x hx hvx).1 htn
        unfold slackv at hz
        omega
      obtain ⟨ts2, he2, hA, hB, hC, hD, hF, hN⟩ :=
        ih (r (st.trail x)) (by omega) (st.trail x) ts1 fuel rfl hpn hpv
          ⟨x, by omega, rfl⟩
          (by rw [hts1d, Function.update_noteq hpx]
              exact hagree (st.trail x) (by omega) hpv (by omega))
          (by intro y hy hvy hry
              have hyx : y ≠ x := by
                intro hc
                rw [hc] at hry
                omega
              rw [hts1d, Function.update_noteq hyx]
              exact hagree y hy hvy (by omega))
          (by rw [hts1d, Function.update_noteq (by omega : n ≠ x)]
              exact hn0)
          (⟨x, hx, hpx.symm, by
              rw [hv1x, hts1d, Function.update_noteq hpx]
              exact (hagree (st.trail x) (by omega) hpv (by omega)).symm⟩)
          (by omega)
      have hts2x : ts2 x = ts1 x := by
        by_cases hc : ts2 x = ts1 x
        · exact hc
        · have := (hA x (by omega) hc).2.2
          omega
      refine ⟨ts2, by rw [hstep]; exact he2, ?_, ?_, ?_, ?_, ?_, ?_⟩
      · intro j hj hne
        by_cases hc : ts2 j = ts1 j
        · rw [hc] at hne
          by_cases hjx : j = x
          · exact ⟨by omega, by rw [hjx]; exact hvx, by rw [hjx]⟩
          · rw [hts1d, Function.update_noteq hjx] at hne
            exact absurd rfl hne
        · obtain ⟨h1, h2, h3⟩ := hA j hj hc
          exact ⟨h1, h2, by omega⟩
      · intro j hj hne
        by_cases hc : ts2 j = ts1 j
        · rw [hc] at hne
          by_cases hjx : j = x
          · subst hjx
            rw [hc, hv1x]
            exact ⟨hpmlt, htight, Or.inr ⟨st.trail j, hpn, rfl, hpm⟩⟩
          · rw [hts1d, Function.update_noteq hjx] at hne
            exact absurd rfl hne
        · exact hB j hj hc
      · rw [hts2x, hv1x]
        exact ⟨hpmlt, htight, Or.inr ⟨st.trail x, hpn, rfl, hpm⟩⟩
      · intro s hs hw
        obtain ⟨j, hj, hjs⟩ := hw
        refine hD s hs ?_
        by_cases hjx : j = x
        · obtain ⟨y, hy, hyx, hyv⟩ := hdup
          refine ⟨y, hy, ?_⟩
          rw [hts1d, Function.update_noteq hyx, hyv, ← hjx, hjs]
        · exact ⟨j, hj, by rw [hts1d, Function.update_noteq hjx]; exact hjs⟩
      · obtain ⟨j, hj, hjv⟩ := hF
        refine ⟨j, hj, ?_⟩
        rw [hjv, hts1d, Function.update_noteq (by omega : n ≠ x)]
      · rw [hN, hts1d, Function.update_noteq (by omega : n ≠ x)]

theorem walk_full (cost : ℕ → ℕ → ℤ) (n : ℕ) (W : ℤ) (i : ℕ)
    (hrange : ∀ a b, a < n → b < n → 0 ≤ cost a b ∧ cost a b ≤ W)
    (st : HState) (cur : ℕ)
    (h : LoopInv cost n W i st cur) (hexit : st.ts cur = n)
    (hvcard : visCard n st ≤ n) :
    ∃ tsF, augmentLoop n st.trail (n + 1) st.ts cur = some tsF ∧
      (∀ j, j ≤ n → tsF j ≠ st.ts j → j < n ∧ (j = cur ∨ st.vis j = true)) ∧
      (∀ j, j ≤ n → tsF j ≠ st.ts j → tsF j < n ∧
        st.sC (tsF j) + st.tC j = cost (tsF j) j ∧
        (tsF j = i ∨ ∃ y, y < n ∧ st.ts y = tsF j ∧ st.ts y ≠ n)) ∧
      tsF cur < n ∧
      (∀ s, s < n → (∃ j, j < n ∧ st.ts j = s) → ∃ j, j < n ∧ tsF j = s) ∧
      (∃ j, j < n ∧ tsF j = i) ∧
      tsF n = st.ts n := by
  have hcur_lt : cur < n := by
    rcases Nat.lt_or_ge cur n with hc | hc
    · exact hc
    · exfalso
      have hcn : cur = n := by have := h.cur_le; omega
      rw [hcn, h.ts_dummy] at hexit
      have := h.hi
      omega
  have hcurv : st.vis cur = false := h.unmatched_unvis cur hcur_lt hexit
  obtain ⟨_, hms0⟩ := h.cur_ms hcurv
  obtain ⟨hw1, hw2⟩ := h.ms_witness cur hcur_lt hcurv
  have htCcur : st.tC cur = 0 := h.unmatched_tC cur hcur_lt hexit
  have hcurn : ¬ cur = n := by omega
  have hstep : augmentLoop n st.trail (n + 1) st.ts cur =
      augmentLoop n st.trail n
        (Function.update st.ts cur (st.ts (st.trail cur))) (st.trail cur) := by
    rw [augmentLoop.eq_def]
    dsimp only
    rw [if_neg hcurn]
  set ts1 := Function.update st.ts cur (st.ts (st.trail cur)) with hts1d
  by_cases htn : st.trail cur = n
  · have hdone : augmentLoop n st.trail n ts1 (st.trail cur) = some ts1 := by
      rw [htn, augmentLoop.eq_def]
      dsimp only
      rw [if_pos rfl]
    have hv1x : ts1 cur = i := by
      rw [hts1d, Function.update_same, htn, h.ts_dummy]
    have htight : st.sC i + st.tC cur = cost i cur := by
      have hmin := hw2 htn
      rw [hms0] at hmin
      have hcb := hrange i cur h.hi hcur_lt
      have hcap := h.D_ub
      unfold slackv at hmin
      rw [htCcur] at hmin ⊢
      omega
    refine ⟨ts1, by rw [hstep]; exact hdone, ?_, ?_, ?_, ?_, ?_, ?_⟩
    · intro j hj hne
      by_cases hjx : j = cur
      · exact ⟨by omega, Or.inl hjx⟩
      · rw [hts1d, Function.update_noteq hjx] at hne
        exact absurd rfl hne
    · intro j hj hne
      by_cases hjx : j = cur
      · subst hjx
        rw [hv1x]
        exact ⟨h.hi, htight, Or.inl rfl⟩
      · rw [hts1d, Function.update_noteq hjx] at hne
        exact absurd rfl hne
    · rw [hv1x]
      exact h.hi
    · intro s hs hw
      obtain ⟨j, hj, hjs⟩ := hw
      have hjx : j ≠ cur := by
        intro hc
        rw [hc, hexit] at hjs
        omega
      exact ⟨j, hj, by rw [hts1d, Function.update_noteq hjx]; exact hjs⟩
    · exact ⟨cur, hcur_lt, hv1x⟩
    · rw [hts1d, Function.update_noteq (by omega : n ≠ cur)]
  · obtain ⟨hpn, hpv⟩ := h.trail_lt cur (by omega) htn
    have hpc : st.trail cur ≠ cur := by
      intro hc
      rw [hc, hcurv] at hpv
      simp at hpv
    have hv1x : ts1 cur = st.ts (st.trail cur) := by
      rw [hts1d, Function.update_same]
    have hpm : st.ts (st.trail cur) ≠ n := by
      intro hc
      rw [h.unmatched_unvis _ hpn hc] at hpv
      simp at hpv
    have hpmlt : st.ts (st.trail cur) < n := by
      have := h.ts_lt _ hpn hpm
      have := h.hi
      omega
    have htight : st.sC (st.ts (st.trail cur)) + st.tC cur =
        cost (st.ts (st.trail cur)) cur := by
      have hz := hw1 htn
      rw [hms0] at hz
      unfold slackv at hz
      omega
    obtain ⟨r, hrdec, hrbound⟩ := h.order
    obtain ⟨ts2, he2, hA, hB, hC, hD, hF, hN⟩ :=
      walk_main cost n W i st r h.trail_lt h.vis_path hrdec h.ts_dummy
        (fun j hj hv => by
          intro hc
          rw [h.unmatched_unvis j hj hc] at hv
          simp at hv)
        (fun j hj hm => by
          have := h.ts_lt j hj hm
          have := h.hi
          omega)
        h.hi (r (st.trail cur)) (st.trail cur) ts1 n rfl hpn hpv
        ⟨cur, by omega, rfl⟩
        (by rw [hts1d, Function.update_noteq hpc])
        (by intro y hy hvy _
            have hyx : y ≠ cur := by
              intro hc
              rw [hc, hcurv] at hvy
              simp at hvy
            rw [hts1d, Function.update_noteq hyx])
        (by rw [hts1d, Function.update_noteq (by omega : n ≠ cur)])
        ⟨cur, hcur_lt, hpc.symm, by
          rw [hv1x, hts1d, Function.update_noteq hpc]⟩
        (by have := hrbound (st.trail cur) (by omega) hpv; omega)
    have hts2cur : ts2 cur = ts1 cur := by
      by_cases hc : ts2 cur = ts1 cur
      · exact hc
      · have := (hA cur (by omega) hc).2.1
        rw [hcurv] at this
        simp at this
    refine ⟨ts2, by rw [hstep]; exact he2, ?_, ?_, ?_, ?_, ?_, ?_⟩
    · intro j hj hne
      by_cases hc : ts2 j = ts1 j
      · rw [hc] at hne
        by_cases hjx : j = cur
        · exact ⟨by omega, Or.inl hjx⟩
        · rw [hts1d, Function.update_noteq hjx] at hne
          exact absurd rfl hne
      · obtain ⟨h1, h2, _⟩ := hA j hj hc
        exact ⟨h1, Or.inr h2⟩
    · intro j hj hne
      by_cases hc : ts2 j = ts1 j
      · rw [hc] at hne
        by_cases hjx : j = cur
        · subst hjx
          rw [hc, hv1x]
          exact ⟨hpmlt, htight, Or.inr ⟨st.trail j, hpn, rfl, hpm⟩⟩
        · rw [hts1d, Function.update_noteq hjx] at hne
          exact absurd rfl hne
      · exact hB j hj hc
    · rw [hts2cur, hv1x]
      exact hpmlt
    · intro s hs hw
      obtain ⟨j, hj, hjs⟩ := hw
      refine hD s hs ?_
      have hjx : j ≠ cur := by
        intro hc
        rw [hc, hexit] at hjs
        omega
      exact ⟨j, hj, by rw [hts1d, Function.update_noteq hjx]; exact hjs⟩
    · obtain ⟨j, hj, hjv⟩ := hF
      refine ⟨j, hj, ?_⟩
      rw [hjv, hts1d, Function.update_noteq (by omega : n ≠ cur), h.ts_dummy]
    · rw [hN, hts1d, Function.update_noteq (by omega : n ≠ cur)]

theorem phase_spec (cost : ℕ → ℕ → ℤ) (n : ℕ) (W : ℤ) (k : ℕ)
    (hrange : ∀ a b, a < n → b < n → 0 ≤ cost a b ∧ cost a b ≤ W)
    (hWpos : 0 < W) (st : HState) (P : PhaseInv cost n k st) (hk : k < n) :
    ∃ st3, phase cost n W st k = some st3 ∧ PhaseInv cost n (k + 1) st3 := by
  have L1 := loopInv_init cost n W k hrange st P hk
  have hmeas : loopMeasure n W k (innerStep cost n W (resetPhase n W st k) n).1
      (innerStep cost n W (resetPhase n W st k) n).2 ≤ 3 * n + 2 := by
    unfold loopMeasure
    have hge1 : 1 ≤ visCard n (innerStep cost n W (resetPhase n W st k) n).1 := by
      unfold visCard
      refine Finset.card_pos.mpr ⟨n, ?_⟩
      simp only [Finset.mem_filter, Finset.mem_range]
      exact ⟨by omega, L1.vis_n⟩
    have hb1 : (if (innerStep cost n W (resetPhase n W st k) n).1.sC k < W
        then (1 : ℕ) else 0) ≤ 1 := by
      split <;> omega
    have hb2 : (if (innerStep cost n W (resetPhase n W st k) n).1.vis
        (innerStep cost n W (resetPhase n W st k) n).2 = true
        then (1 : ℕ) else 0) ≤ 1 := by
      split <;> omega
    omega
  obtain ⟨st2, cur2, he, L2, hexit, htseq⟩ :=
    innerLoop_some cost n W k hrange hWpos (3 * n + 2)
      (innerStep cost n W (resetPhase n W st k) n).1
      (innerStep cost n W (resetPhase n W st k) n).2 L1 hmeas
  have hguard0 : ¬ (resetPhase n W st k).ts n = n := by
    show ¬ Function.update st.ts n k n = n
    rw [Function.update_same]
    omega
  have hrun : innerLoop cost n W (3 * n + 3) (resetPhase n W st k) n =
      some (st2, cur2) := by
    rw [innerLoop.eq_def]
    dsimp only
    rw [if_neg hguard0]
    exact he
  have hts2 : ∀ j, j < n → st2.ts j = st.ts j := by
    intro j hj
    rw [htseq]
    show Function.update st.ts n k j = st.ts j
    have hne : j ≠ n := by omega
    exact Function.update_noteq hne k st.ts
  have hcur_lt : cur2 < n := by
    rcases Nat.lt_or_ge cur2 n with hc | hc
    · exact hc
    · exfalso
      have hcn : cur2 = n := by have := L2.cur_le; omega
      rw [hcn, L2.ts_dummy] at hexit
      have := L2.hi
      omega
  have hMeq : (Finset.range n).filter (fun j => st2.ts j ≠ n) =
      (Finset.range n).filter (fun j => st.ts j ≠ n) := by
    apply Finset.filter_congr
    intro x hx
    rw [hts2 x (Finset.mem_range.mp hx)]
  have hvcard : visCard n st2 ≤ n := by
    have hsub : (Finset.range (n + 1)).filter (fun j => st2.vis j = true) ⊆
        insert n ((Finset.range n).filter (fun j => st2.ts j ≠ n)) := by
      intro x hx
      simp only [Finset.mem_filter, Finset.mem_range] at hx
      simp only [Finset.mem_insert, Finset.mem_filter, Finset.mem_range]
      by_cases hxn : x = n
      · exact Or.inl hxn
      · refine Or.inr ⟨by omega, ?_⟩
        intro hc
        rw [L2.unmatched_unvis x (by omega) hc] at hx
        simp at hx
    calc visCard n st2
        ≤ (insert n ((Finset.range n).filter (fun j => st2.ts j ≠ n))).card :=
          Finset.card_le_card hsub
      _ ≤ ((Finset.range n).filter (fun j => st2.ts j ≠ n)).card + 1 :=
          Finset.card_insert_le _ _
      _ = k + 1 := by rw [hMeq, P.count]
      _ ≤ n := by omega
  obtain ⟨tsF, haug, hA, hB, hC, hD, hF, hN⟩ :=
    walk_full cost n W k hrange st2 cur2 L2 hexit hvcard
  have hstatus : ∀ j, j < n → j ≠ cur2 → (tsF j = n ↔ st2.ts j = n) := by
    intro j hj hjc
    constructor
    · intro hc
      by_cases hch : tsF j = st2.ts j
      · rw [← hch]; exact hc
      · have := (hB j (by omega) hch).1
        omega
    · intro hc
      by_cases hch : tsF j = st2.ts j
      · rw [hch]; exact hc
      · obtain ⟨_, hor⟩ := hA j (by omega) hch
        rcases hor with h1 | h1
        · exact absurd h1 hjc
        · rw [L2.unmatched_unvis j hj hc] at h1
          simp at h1
  refine ⟨⟨st2.sC, st2.tC, tsF, st2.ms, st2.trail, st2.vis⟩, ?_, ?_⟩
  · unfold phase
    rw [hrun]
    dsimp only
    rw [haug]
  · refine ⟨?_, ?_, ?_, L2.feas, ?_, ?_, ?_⟩
    · intro j hj hm
      dsimp only at hm ⊢
      by_cases hch : tsF j = st2.ts j
      · rw [hch] at hm ⊢
        rw [hts2 j hj] at hm ⊢
        have := P.ts_lt j hj hm
        omega
      · obtain ⟨hlt, _, hval⟩ := hB j (by omega) hch
        rcases hval with h1 | ⟨y, hy, hyv, hym⟩
        · omega
        · rw [hts2 y hy] at hyv hym
          have := P.ts_lt y hy hym
          omega
    · intro s hs
      dsimp only
      rcases Nat.lt_or_ge s k with hsk | hsk
      · obtain ⟨j, hj, hjs⟩ := P.cover s hsk
        refine hD s (by omega) ⟨j, hj, ?_⟩
        rw [hts2 j hj]
        exact hjs
      · have hsek : s = k := by omega
        obtain ⟨j, hj, hjv⟩ := hF
        exact ⟨j, hj, by rw [hsek]; exact hjv⟩
    · dsimp only
      have hsplit : (Finset.range n).filter (fun j => tsF j ≠ n) =
          insert cur2 ((Finset.range n).filter (fun j => st2.ts j ≠ n)) := by
        ext x
        simp only [Finset.mem_insert, Finset.mem_filter, Finset.mem_range]
        constructor
        · rintro ⟨hx1, hx2⟩
          by_cases hxc : x = cur2
          · exact Or.inl hxc
          · exact Or.inr ⟨hx1, fun hc => hx2 ((hstatus x hx1 hxc).mpr hc)⟩
        · rintro (hc | ⟨hx1, hx2⟩)
          · subst hc
            refine ⟨hcur_lt, ?_⟩
            have := hC
            omega
          · refine ⟨hx1, ?_⟩
            by_cases hch : tsF x = st2.ts x
            · rw [hch]; exact hx2
            · have := (hB x (by omega) hch).1
              omega
      have hnot : cur2 ∉ (Finset.range n).filter (fun j => st2.ts j ≠ n) := by
        simp only [Finset.mem_filter, Finset.mem_range]
        rintro ⟨_, hc⟩
        exact hc hexit
      rw [hsplit, Finset.card_insert_of_not_mem hnot, hMeq, P.count]
    · intro j hj hm
      dsimp only at hm ⊢
      by_cases hch : tsF j = st2.ts j
      · rw [hch] at hm ⊢
        exact L2.tight j hj hm
      · exact (hB j (by omega) hch).2.1
    · intro j hj hm
      dsimp only at hm ⊢
      have hst2 : st2.ts j = n := by
        by_cases hch : tsF j = st2.ts j
        · rw [← hch]; exact hm
        · have := (hB j (by omega) hch).1; omega
      exact L2.unmatched_tC j hj hst2
    · intro s hs1 hs2
      dsimp only
      exact L2.fresh_sC s (by omega) hs2

theorem runPhases_spec (cost : ℕ → ℕ → ℤ) (n : ℕ) (W : ℤ)
    (hrange : ∀ a b, a < n → b < n → 0 ≤ cost a b ∧ cost a b ≤ W)
    (hWpos : 0 < W) :
    ∀ k, k ≤ n → ∃ st, runPhases cost n W 0 k = some st ∧ PhaseInv cost n k st := by
  intro k
  induction k with
  | zero =>
    intro _
    refine ⟨initState n 0, rfl, ?_, ?_, ?_, ?_, ?_, ?_, ?_⟩
    · intro j hj hm
      exact absurd rfl hm
    · intro s hs
      omega
    · have : (Finset.range n).filter (fun j => (initState n 0).ts j ≠ n) = ∅ := by
        apply Finset.filter_false_of_mem
        intro x _
        show ¬ (n ≠ n)
        simp
      rw [this, Finset.card_empty]
    · intro a b ha hb
      have := (hrange a b ha hb).1
      show (0 : ℤ) + 0 ≤ cost a b
      omega
    · intro j hj hm
      exact absurd rfl hm
    · intro j hj hm
      rfl
    · intro s _ _
      rfl
  | succ k ih =>
    intro hk
    obtain ⟨st, hrun, P⟩ := ih (by omega)
    obtain ⟨st3, hphase, P3⟩ := phase_spec cost n W k hrange hWpos st P (by omega)
    refine ⟨st3, ?_, P3⟩
    show (match runPhases cost n W 0 k with
      | none => none
      | some st => phase cost n W st k) = some st3
    rw [hrun]
    exact hphase

theorem sum_reindex (g : ℕ → ℤ) (f : ℕ → ℕ) (n : ℕ)
    (hf : ∀ j, j < n → f j < n)
    (hinj : ∀ j1 j2, j1 < n → j2 < n → j1 ≠ j2 → f j1 ≠ f j2) :
    ∑ j ∈ Finset.range n, g (f j) = ∑ s ∈ Finset.range n, g s := by
  have hinj' : ∀ x ∈ Finset.range n, ∀ y ∈ Finset.range n, f x = f y → x = y := by
    intro x hx y hy hxy
    by_contra hne
    exact hinj x y (Finset.mem_range.mp hx) (Finset.mem_range.mp hy) hne hxy
  have himg : (Finset.range n).image f = Finset.range n := by
    apply Finset.eq_of_subset_of_card_le
    · intro x hx
      simp only [Finset.mem_image] at hx
      obtain ⟨j, hj, rfl⟩ := hx
      exact Finset.mem_range.mpr (hf j (Finset.mem_range.mp hj))
    · rw [Finset.card_image_of_injOn hinj', Finset.card_range]
  calc ∑ j ∈ Finset.range n, g (f j)
      = ∑ s ∈ (Finset.range n).image f, g s := (Finset.sum_image hinj').symm
    _ = ∑ s ∈ Finset.range n, g s := by rw [himg]

/-- Hungarian-algorithm correctness for `optimalCost` with `MinCost = 0`:
with all costs in `[0, MaxCost]` and `MaxCost` positive, the engine
terminates with a permutation of minimal total cost. -/
theorem hungarian_opt (cost : ℕ → ℕ → ℤ) (n : ℕ) (W : ℤ)
    (hrange : ∀ a b, a < n → b < n → 0 ≤ cost a b ∧ cost a b ≤ W)
    (hWpos : 0 < W) :
    ∃ ts, optimalCost cost n W 0 = some ts ∧
      (∀ j, j < n → ts j < n) ∧
      (∀ j1 j2, j1 < n → j2 < n → j1 ≠ j2 → ts j1 ≠ ts j2) ∧
      ∀ p : ℕ → ℕ, (∀ j, j < n → p j < n) →
        (∀ j1 j2, j1 < n → j2 < n → j1 ≠ j2 → p j1 ≠ p j2) →
        (∑ j ∈ Finset.range n, cost (ts j) j) ≤
          ∑ j ∈ Finset.range n, cost (p j) j := by
  obtain ⟨stF, hrun, PF⟩ := runPhases_spec cost n W hrange hWpos n le_rfl
  have hfeq : (Finset.range n).filter (fun j => stF.ts j ≠ n) = Finset.range n :=
    Finset.eq_of_subset_of_card_le (Finset.filter_subset _ _)
      (by rw [PF.count, Finset.card_range])
  have hall : ∀ j, j < n → stF.ts j ≠ n := by
    intro j hj
    have : j ∈ (Finset.range n).filter (fun j => stF.ts j ≠ n) := by
      rw [hfeq]
      exact Finset.mem_range.mpr hj
    exact (Finset.mem_filter.mp this).2
  have hts_lt : ∀ j, j < n → stF.ts j < n := by
    intro j hj
    exact PF.ts_lt j hj (hall j hj)
  have hinj := phaseInv_inj cost n n stF PF le_rfl
  have hinj' : ∀ j1 j2, j1 < n → j2 < n → j1 ≠ j2 → stF.ts j1 ≠ stF.ts j2 :=
    fun j1 j2 h1 h2 hne => hinj j1 j2 h1 h2 (hall j1 h1) (hall j2 h2) hne
  refine ⟨stF.ts, ?_, hts_lt, hinj', ?_⟩
  · unfold optimalCost
    rw [hrun]
    rfl
  · intro p hp hpinj
    have htight : ∀ j ∈ Finset.range n,
        cost (stF.ts j) j = stF.sC (stF.ts j) + stF.tC j := by
      intro j hj
      exact (PF.tight j (Finset.mem_range.mp hj) (hall j (Finset.mem_range.mp hj))).symm
    have hfeas : ∀ j ∈ Finset.range n,
        stF.sC (p j) + stF.tC j ≤ cost (p j) j := by
      intro j hj
      exact PF.feas (p j) j (hp j (Finset.mem_range.mp hj)) (Finset.mem_range.mp hj)
    calc ∑ j ∈ Finset.range n, cost (stF.ts j) j
        = ∑ j ∈ Finset.range n, (stF.sC (stF.ts j) + stF.tC j) :=
          Finset.sum_congr rfl htight
      _ = (∑ j ∈ Finset.range n, stF.sC (stF.ts j)) +
          ∑ j ∈ Finset.range n, stF.tC j := Finset.sum_add_distrib
      _ = (∑ s ∈ Finset.range n, stF.sC s) + ∑ j ∈ Finset.range n, stF.tC j := by
          rw [sum_reindex stF.sC stF.ts n hts_lt hinj']
      _ = (∑ j ∈ Finset.range n, stF.sC (p j)) + ∑ j ∈ Finset.range n, stF.tC j := by
          rw [sum_reindex stF.sC p n hp hpinj]
      _ = ∑ j ∈ Finset.range n, (stF.sC (p j) + stF.tC j) :=
          Finset.sum_add_distrib.symm
      _ ≤ ∑ j ∈ Finset.range n, cost (p j) j := Finset.sum_le_sum hfeas

theorem list_sum_range (f : ℕ → ℤ) (n : ℕ) :
    ((List.range n).map f).sum = ∑ j ∈ Finset.range n, f j := by
  induction n with
  | zero => simp
  | succ n ih =>
    rw [List.range_succ, List.map_append, List.sum_append, Finset.sum_range_succ,
      ih]
    simp

theorem perm_props (size : ℕ) (p : List ℕ) (hp : List.Perm p (List.range size)) :
    (∀ j, j < size → p.getD j 0 < size) ∧
    (∀ j1 j2, j1 < size → j2 < size → j1 ≠ j2 → p.getD j1 0 ≠ p.getD j2 0) := by
  have hlen : p.length = size := by
    rw [hp.length_eq, List.length_range]
  have hnd : p.Nodup := hp.symm.nodup (List.nodup_range size)
  constructor
  · intro j hj
    have hjl : j < p.length := by omega
    rw [List.getD_eq_getElem p 0 hjl]
    have : p[j] ∈ p := List.getElem_mem hjl
    have := hp.mem_iff.mp this
    simpa [List.mem_range] using this
  · intro j1 j2 h1 h2 hne
    have h1l : j1 < p.length := by omega
    have h2l : j2 < p.length := by omega
    rw [List.getD_eq_getElem p 0 h1l, List.getD_eq_getElem p 0 h2l]
    intro hc
    exact hne (List.Nodup.getElem_inj_iff hnd |>.mp hc)

theorem map_range_perm (size : ℕ) (ts : ℕ → ℕ)
    (hlt : ∀ j, j < size → ts j < size)
    (hinj : ∀ j1 j2, j1 < size → j2 < size → j1 ≠ j2 → ts j1 ≠ ts j2) :
    List.Perm ((List.range size).map ts) (List.range size) := by
  have hnd : ((List.range size).map ts).Nodup := by
    refine List.Nodup.map_on ?_ (List.nodup_range size)
    intro x hx y hy hxy
    by_contra hne
    exact hinj x y (List.mem_range.mp hx) (List.mem_range.mp hy) hne hxy
  have hsub : (List.range size).map ts ⊆ List.range size := by
    intro x hx
    obtain ⟨j, hj, rfl⟩ := List.mem_map.mp hx
    exact List.mem_range.mpr (hlt j (List.mem_range.mp hj))
  refine (List.subperm_of_subset hnd hsub).perm_of_length_le ?_
  rw [List.length_map]

/-- C1 (amended): with `MinCost = 0`, positive `MaxCost` and every edit
cost in `[0, MaxCost]`, `Assign` terminates and the total matrix cost of
its matching equals the brute-force minimum over all one-to-one
assignments of the padded square matrix. -/
theorem C1_assign_minimal {α : Type _} [Inhabited α] (sources targets : List α)
    (o : AssignOptions α)
    (hmin : o.minCost = 0) (hpos : 0 < o.maxCost)
    (hedit : ∀ x y, 0 ≤ o.editCost x y ∧ o.editCost x y ≤ o.maxCost) :
    ∃ c, assignCost sources targets o = some c ∧
      minAssignmentCost (max sources.length targets.length)
        (buildCosts sources targets o) = some c := by
  have hrange : ∀ a b, a < max sources.length targets.length →
      b < max sources.length targets.length →
      0 ≤ buildCosts sources targets o a b ∧
        buildCosts sources targets o a b ≤ o.maxCost := by
    intro a b _ _
    unfold buildCosts
    split
    · exact hedit _ _
    · split
      · exact hedit _ _
      · split
        · exact hedit _ _
        · rw [hmin]
          exact ⟨le_refl 0, le_of_lt hpos⟩
  obtain ⟨ts, hopt, hlt, hinj, hopt_min⟩ :=
    hungarian_opt (buildCosts sources targets o)
      (max sources.length targets.length) o.maxCost hrange hpos
  have hAC : assignCost sources targets o =
      some (((List.range (max sources.length targets.length)).map fun j =>
        buildCosts sources targets o (ts j) j).sum) := by
    show (optimalCost (buildCosts sources targets o)
        (max sources.length targets.length) o.maxCost o.minCost).map
        (fun optimal => ((List.range (max sources.length targets.length)).map
          fun j => buildCosts sources targets o (optimal j) j).sum) = _
    rw [hmin, hopt]
    rfl
  refine ⟨_, hAC, ?_⟩
  show (((List.range (max sources.length targets.length)).permutations').map
    fun p => ((List.range (max sources.length targets.length)).map fun j =>
      buildCosts sources targets o (p.getD j 0) j).sum).min? = _
  refine (@List.min?_eq_some_iff ℤ _ _ _ ⟨fun h1 h2 => le_antisymm h1 h2⟩
    (fun a => le_refl a) (fun a b => min_choice a b)
    (fun a b c => le_min_iff) _).mpr ⟨?_, ?_⟩
  · refine List.mem_map.mpr
      ⟨(List.range (max sources.length targets.length)).map ts, ?_, ?_⟩
    · exact List.mem_permutations'.mpr (map_range_perm _ ts hlt hinj)
    · refine congrArg List.sum (List.map_congr_left ?_)
      intro j hj
      have hjr := List.mem_range.mp hj
      have hjl : j < ((List.range (max sources.length targets.length)).map
          ts).length := by
        rw [List.length_map, List.length_range]
        exact hjr
      rw [List.getD_eq_getElem _ 0 hjl]
      simp
  · intro b hb
    obtain ⟨p, hpmem, hpeq⟩ := List.mem_map.mp hb
    have hperm := List.mem_permutations'.mp hpmem
    obtain ⟨hplt, hpinj⟩ := perm_props _ p hperm
    have hle := hopt_min (fun j => p.getD j 0) hplt hpinj
    rw [← hpeq,
      list_sum_range (fun j => buildCosts sources targets o (ts j) j),
      list_sum_range (fun j => buildCosts sources targets o (p.getD j 0) j)]
    exact hle

theorem updStep_zero (ts : ℕ → ℕ) (vis : ℕ → Bool)
    (acc : (ℕ → ℤ) × (ℕ → ℤ) × (ℕ → ℤ)) (j : ℕ) (x : ℕ) :
    (updStep 0 ts vis acc j).1 x = acc.1 x ∧
    (updStep 0 ts vis acc j).2.1 x = acc.2.1 x ∧
    (updStep 0 ts vis acc j).2.2 x = acc.2.2 x := by
  obtain ⟨sC, tC, ms⟩ := acc
  by_cases hv : vis j
  · rw [show updStep 0 ts vis (sC, tC, ms) j =
      (Function.update sC (ts j) (sC (ts j) + 0),
       Function.update tC j (tC j - 0), ms) by simp [updStep, hv]]
    dsimp only
    refine ⟨?_, ?_, rfl⟩
    · by_cases hx : x = ts j
      · rw [hx, Function.update_same, add_zero]
      · rw [Function.update_noteq hx]
    · by_cases hx : x = j
      · rw [hx, Function.update_same, sub_zero]
      · rw [Function.update_noteq hx]
  · rw [show updStep 0 ts vis (sC, tC, ms) j =
      (sC, tC, Function.update ms j (ms j - 0)) by simp [updStep, hv]]
    dsimp only
    refine ⟨rfl, rfl, ?_⟩
    by_cases hx : x = j
    · rw [hx, Function.update_same, sub_zero]
    · rw [Function.update_noteq hx]

theorem updFold_zero (ts : ℕ → ℕ) (vis : ℕ → Bool) :
    ∀ (js : List ℕ) (acc : (ℕ → ℤ) × (ℕ → ℤ) × (ℕ → ℤ)) (x : ℕ),
      (js.foldl (updStep 0 ts vis) acc).1 x = acc.1 x ∧
      (js.foldl (updStep 0 ts vis) acc).2.1 x = acc.2.1 x ∧
      (js.foldl (updStep 0 ts vis) acc).2.2 x = acc.2.2 x := by
  intro js
  induction js with
  | nil => intro acc x; exact ⟨rfl, rfl, rfl⟩
  | cons j js ih =>
    intro acc x
    rw [List.foldl_cons]
    obtain ⟨h1, h2, h3⟩ := ih (updStep 0 ts vis acc j) x
    obtain ⟨g1, g2, g3⟩ := updStep_zero ts vis acc j x
    exact ⟨h1.trans g1, h2.trans g2, h3.trans g3⟩

/-- With `MaxCost = 0` and all relevant slacks non-negative, one loop
iteration leaves the potentials unchanged and moves to target 0, so the
alternating-tree loop never reaches an unmatched target: it runs forever
(`none` for every fuel). -/
theorem innerLoop_zero_none (cost : ℕ → ℕ → ℤ) (n : ℕ) :
    ∀ (fuel : ℕ) (st : HState) (cur : ℕ),
      st.ts cur ≠ n → st.ts 0 ≠ n →
      (∀ j, j < n → 0 ≤ st.ms j) →
      (∀ j, j < n → 0 ≤ slackv cost (st.ts cur) st.sC st.tC j) →
      (∀ j, j < n → 0 ≤ slackv cost (st.ts 0) st.sC st.tC j) →
      innerLoop cost n 0 fuel st cur = none := by
  intro fuel
  induction fuel with
  | zero =>
    intro st cur hg _ _ _ _
    rw [innerLoop.eq_def]
    dsimp only
    rw [if_neg hg]
  | succ fuel ih =>
    intro st cur hg h0 hms hsl hsl0
    rw [innerLoop.eq_def]
    dsimp only
    rw [if_neg hg]
    show innerLoop cost n 0 fuel (innerStep cost n 0 st cur).1
      (innerStep cost n 0 st cur).2 = none
    set vis2 := Function.update st.vis cur true with hv2d
    have S := scanLoop_spec cost (st.ts cur) cur st.sC st.tC vis2 n st.ms
      st.trail 0
    set sc := scanLoop cost (st.ts cur) cur st.sC st.tC vis2 n st.ms st.trail 0
      with hscd
    have hd : sc.2.2.1 = 0 ∧ sc.2.2.2 = 0 := by
      by_cases hf : sc.2.2.1 < 0
      · exfalso
        obtain ⟨hm, hv, he⟩ := S.fired hf
        have hmn : sc.2.2.2 < n := List.mem_range.mp hm
        have hval := S.ms_mem sc.2.2.2 hm hv
        have h1 := hms sc.2.2.2 hmn
        have h2 := hsl sc.2.2.2 hmn
        rw [hval] at he
        omega
      · have := S.unfired (le_of_not_lt hf)
        exact ⟨this.2, this.1⟩
    have hupd : ∀ x,
        (updLoop sc.2.2.1 st.ts vis2 n st.sC st.tC sc.1).1 x = st.sC x ∧
        (updLoop sc.2.2.1 st.ts vis2 n st.sC st.tC sc.1).2.1 x = st.tC x ∧
        (updLoop sc.2.2.1 st.ts vis2 n st.sC st.tC sc.1).2.2 x = sc.1 x := by
      intro x
      rw [hd.1]
      exact updFold_zero st.ts vis2 (List.range (n + 1)) (st.sC, st.tC, sc.1) x
    have hms1 : ∀ j, j < n → 0 ≤ sc.1 j := by
      intro j hj
      by_cases hv : vis2 j = true
      · rw [S.ms_other j (Or.inr hv)]
        exact hms j hj
      · have hvf : vis2 j = false := by simpa using hv
        rw [S.ms_mem j (List.mem_range.mpr hj) hvf]
        exact le_min (hms j hj) (hsl j hj)
    have hcur0 : (innerStep cost n 0 st cur).2 = 0 := hd.2
    have htseq : (innerStep cost n 0 st cur).1.ts = st.ts := rfl
    apply ih
    · rw [hcur0, htseq]
      exact h0
    · rw [htseq]
      exact h0
    · intro j hj
      have e3 : (innerStep cost n 0 st cur).1.ms j = sc.1 j := (hupd j).2.2
      rw [e3]
      exact hms1 j hj
    · intro j hj
      rw [hcur0, htseq]
      unfold slackv
      have e1 : (innerStep cost n 0 st cur).1.sC (st.ts 0) =
          st.sC (st.ts 0) := (hupd (st.ts 0)).1
      have e2 : (innerStep cost n 0 st cur).1.tC j = st.tC j := (hupd j).2.1
      rw [e1, e2]
      have := hsl0 j hj
      unfold slackv at this
      exact this
    · intro j hj
      rw [htseq]
      unfold slackv
      have e1 : (innerStep cost n 0 st cur).1.sC (st.ts 0) =
          st.sC (st.ts 0) := (hupd (st.ts 0)).1
      have e2 : (innerStep cost n 0 st cur).1.tC j = st.tC j := (hupd j).2.1
      rw [e1, e2]
      have := hsl0 j hj
      unfold slackv at this
      exact this

/-- C9 (counterexample): with `MinCost = MaxCost = 0` and all costs 0 (a
configuration satisfying `MinCost ≤ c ≤ MaxCost`), the first phase
completes, but from the reset state of the second phase the inner
alternating-tree loop never terminates, whatever the fuel; `Assign`
consequently produces no result. -/
theorem C9_counterexample :
    Assign [0, 1] [0, 1] zeroOpts = none ∧
    (runPhases zcost 2 zeroOpts.maxCost zeroOpts.minCost 1).isSome = true ∧
    ∀ fuel, innerLoop zcost 2 zeroOpts.maxCost fuel
      (resetPhase 2 zeroOpts.maxCost zst9 1) 2 = none := by
  refine ⟨by decide, by decide, ?_⟩
  intro fuel
  show innerLoop zcost 2 0 fuel (resetPhase 2 zeroOpts.maxCost zst9 1) 2 = none
  apply innerLoop_zero_none
  · decide
  · decide
  · intro j _
    exact le_refl 0
  · intro j hj
    interval_cases j <;> decide
  · intro j hj
    interval_cases j <;> decide

/-- C9 (amended): with `MinCost = 0`, positive `MaxCost` and every edit
cost in `[0, MaxCost]`, the assignment engine terminates: `Assign`
always returns a result. -/
theorem C9_termination {α : Type _} [Inhabited α] (sources targets : List α)
    (o : AssignOptions α)
    (hmin : o.minCost = 0) (hpos : 0 < o.maxCost)
    (hedit : ∀ x y, 0 ≤ o.editCost x y ∧ o.editCost x y ≤ o.maxCost) :
    (Assign sources targets o).isSome = true := by
  have hrange : ∀ a b, a < max sources.length targets.length →
      b < max sources.length targets.length →
      0 ≤ buildCosts sources targets o a b ∧
        buildCosts sources targets o a b ≤ o.maxCost := by
    intro a b _ _
    unfold buildCosts
    split
    · exact hedit _ _
    · split
      · exact hedit _ _
      · split
        · exact hedit _ _
        · rw [hmin]
          exact ⟨le_refl 0, le_of_lt hpos⟩
  obtain ⟨ts, hopt, _, _, _⟩ :=
    hungarian_opt (buildCosts sources targets o)
      (max sources.length targets.length) o.maxCost hrange hpos
  show ((optimalCost (buildCosts sources targets o)
      (max sources.length targets.length) o.maxCost o.minCost).map _).isSome = true
  rw [hmin, hopt]
  rfl

/-- C9 (witness): the amended termination theorem applied to the
repository test instance with `MaxCost`-valued update cost. -/
theorem C9_witness : (Assign [0] [1] maxOpts).isSome = true :=
  C9_termination [0] [1] maxOpts rfl (by norm_num [maxOpts])
    (by
      intro x y
      show 0 ≤ maxOpts.editCost x y ∧ maxOpts.editCost x y ≤ maxOpts.maxCost
      unfold maxOpts
      dsimp only
      split <;> norm_num)

/-- C1 (counterexample): on two sources and two targets with every cost
0 and `MinCost = MaxCost = 0` (satisfying the stated cost invariants and
n,m ≤ 6), `Assign` diverges and returns no pairs at all, while the
brute-force minimum assignment cost is 0. -/
theorem C1_counterexample :
    assignCost [0, 1] [0, 1] zeroOpts = none ∧
    minAssignmentCost 2 (buildCosts [0, 1] [0, 1] zeroOpts) = some 0 ∧
    (none : Option ℤ) ≠ some 0 :=
  ⟨by decide, by decide, by decide⟩

/-- C1 (witness): the amended optimality theorem applied to the
repository test instance `Update with max cost becomes delete+insert`. -/
theorem C1_witness :
    ∃ c, assignCost [0] [1] maxOpts = some c ∧
      minAssignmentCost (max (List.length ([0] : List ℕ))
        (List.length ([1] : List ℕ))) (buildCosts [0] [1] maxOpts) = some c :=
  C1_assign_minimal [0] [1] maxOpts rfl (by norm_num [maxOpts])
    (by
      intro x y
      show 0 ≤ maxOpts.editCost x y ∧ maxOpts.editCost x y ≤ maxOpts.maxCost
      unfold maxOpts
      dsimp only
      split <;> norm_num)

/-- C8 (counterexample): with `MinCost = MaxCost = 1` and every cost 1
(satisfying `MinCost ≤ c ≤ MaxCost`), the first phase completes with
target 0 matched to source 0, yet dual feasibility fails after the
phase: `sourceCost[1] + targetCost[0] = 2 > 1 = cost[1][0]`. -/
theorem C8_counterexample :
    (runPhases c8cost 2 onesOpts.maxCost onesOpts.minCost 1).isSome = true ∧
    st8.ts 0 = 0 ∧
    st8.sC 0 + st8.tC 0 = c8cost 0 0 ∧
    ¬ (st8.sC 1 + st8.tC 0 ≤ c8cost 1 0) :=
  ⟨by decide, by decide, by decide, by decide⟩

/-- C8 (amended): with `MinCost = 0`, positive `MaxCost` and all costs
in `[0, MaxCost]`, after every completed phase dual feasibility holds
everywhere and every matched edge is tight. -/
theorem C8_phase_invariant (cost : ℕ → ℕ → ℤ) (n : ℕ) (W : ℤ)
    (hrange : ∀ a b, a < n → b < n → 0 ≤ cost a b ∧ cost a b ≤ W)
    (hWpos : 0 < W) (k : ℕ) (hk : k ≤ n) :
    ∃ st, runPhases cost n W 0 k = some st ∧
      (∀ a b, a < n → b < n → st.sC a + st.tC b ≤ cost a b) ∧
      (∀ j, j < n → st.ts j ≠ n → st.sC (st.ts j) + st.tC j = cost (st.ts j) j) := by
  obtain ⟨st, h1, P⟩ := runPhases_spec cost n W hrange hWpos k hk
  exact ⟨st, h1, P.feas, P.tight⟩

/-- C8 (witness): the phase invariant after the single phase of the
one-by-one `MaxCost` instance. -/
theorem C8_witness :
    ∃ st, runPhases (buildCosts [0] [1] maxOpts) 1 maxOpts.maxCost 0 1 = some st ∧
      (∀ a b, a < 1 → b < 1 →
        st.sC a + st.tC b ≤ buildCosts [0] [1] maxOpts a b) ∧
      (∀ j, j < 1 → st.ts j ≠ 1 →
        st.sC (st.ts j) + st.tC j = buildCosts [0] [1] maxOpts (st.ts j) j) :=
  C8_phase_invariant (buildCosts [0] [1] maxOpts) 1 maxOpts.maxCost
    (by
      intro a b ha hb
      interval_cases a <;> interval_cases b <;> decide)
    (by norm_num [maxOpts]) 1 le_rfl

theorem surj_of_inj_range (f : ℕ → ℕ) (size : ℕ)
    (hlt : ∀ j, j < size → f j < size)
    (hinj : ∀ j1 j2, j1 < size → j2 < size → j1 ≠ j2 → f j1 ≠ f j2) :
    ∀ s, s < size → ∃ j, j < size ∧ f j = s := by
  intro s hs
  have := Finset.surj_on_of_inj_on_of_card_le (s := Finset.range size)
    (t := Finset.range size) (fun a _ => f a)
    (fun a ha => Finset.mem_range.mpr (hlt a (Finset.mem_range.mp ha)))
    (fun a1 a2 ha1 ha2 he => by
      by_contra hne
      exact hinj a1 a2 (Finset.mem_range.mp ha1) (Finset.mem_range.mp ha2) hne he)
    le_rfl s (Finset.mem_range.mpr hs)
  obtain ⟨j, hj, he⟩ := this
  exact ⟨j, Finset.mem_range.mp hj, he.symm⟩

theorem translatePair_cases {α : Type _} [Inhabited α] (sources targets : List α)
    (o : AssignOptions α) (costs : ℕ → ℕ → ℤ) (optimal : ℕ → ℕ) (j : ℕ)
    (hnc : optimal j < sources.length ∨ j < targets.length) :
    (translatePair sources targets o costs optimal [] j).length =
      (if optimal j < sources.length ∧ j < targets.length ∧
          costs (optimal j) j = o.maxCost then 2 else 1) ∧
    (translatePair sources targets o costs optimal [] j).filterMap Pair.source =
      (if optimal j < sources.length
        then [sources.getD (optimal j) default] else []) ∧
    (optimal j < sources.length →
      (translatePair sources targets o costs optimal [] j).filterMap Pair.target =
        (if j < targets.length then [targets.getD j default] else [])) := by
  simp only [translatePair]
  by_cases h1 : optimal j < sources.length ∧ j < targets.length
  · rw [if_pos h1]
    by_cases h2 : costs (optimal j) j = o.maxCost
    · rw [if_pos h2]
      refine ⟨?_, ?_, ?_⟩
      · rw [if_pos ⟨h1.1, h1.2, h2⟩]
        rfl
      · rw [if_pos h1.1]
        rfl
      · intro _
        rw [if_pos h1.2]
        rfl
    · rw [if_neg h2]
      refine ⟨?_, ?_, ?_⟩
      · rw [if_neg (by
          rintro ⟨_, _, hc⟩
          exact h2 hc)]
        rfl
      · rw [if_pos h1.1]
        rfl
      · intro _
        rw [if_pos h1.2]
        rfl
  · rw [if_neg h1]
    by_cases h3 : optimal j < sources.length ∧ targets.length ≤ j
    · rw [if_pos h3]
      refine ⟨?_, ?_, ?_⟩
      · rw [if_neg (by
          rintro ⟨ha, hb, _⟩
          exact h1 ⟨ha, hb⟩)]
        rfl
      · rw [if_pos h3.1]
        rfl
      · intro _
        rw [if_neg (by omega)]
        rfl
    · by_cases h4 : sources.length ≤ optimal j ∧ j < targets.length
      · rw [if_neg h3, if_pos h4]
        refine ⟨?_, ?_, ?_⟩
        · rw [if_neg (by
            rintro ⟨ha, _, _⟩
            omega)]
          rfl
        · rw [if_neg (by omega)]
          rfl
        · intro hc
          omega
      · exfalso
        rcases hnc with hc | hc <;> omega

theorem translate_fold_length {α : Type _} [Inhabited α] (sources targets : List α)
    (o : AssignOptions α) (costs : ℕ → ℕ → ℤ) (optimal : ℕ → ℕ) :
    ∀ js : List ℕ,
      (js.foldl (translatePair sources targets o costs optimal) []).length =
        (js.map fun j =>
          (translatePair sources targets o costs optimal [] j).length).sum := by
  intro js
  induction js with
  | nil => rfl
  | cons j js ih =>
    rw [List.foldl_cons, translate_fold_acc, List.length_append, List.map_cons,
      List.sum_cons, ih]

theorem translate_fold_filterMap {α : Type _} [Inhabited α]
    (sources targets : List α) (o : AssignOptions α) (costs : ℕ → ℕ → ℤ)
    (optimal : ℕ → ℕ) (f : Pair α → Option α) :
    ∀ js : List ℕ,
      (js.foldl (translatePair sources targets o costs optimal) []).filterMap f =
        js.flatMap fun j =>
          (translatePair sources targets o costs optimal [] j).filterMap f := by
  intro js
  induction js with
  | nil => rfl
  | cons j js ih =>
    rw [List.foldl_cons, translate_fold_acc, List.filterMap_append,
      List.flatMap_cons, ih]

theorem flatMap_congr_left {β : Type _} (f g : ℕ → List β) :
    ∀ js : List ℕ, (∀ j ∈ js, f j = g j) → js.flatMap f = js.flatMap g := by
  intro js
  induction js with
  | nil => intro _; rfl
  | cons j js ih =>
    intro h
    rw [List.flatMap_cons, List.flatMap_cons, h j (List.mem_cons_self j js),
      ih (fun x hx => h x (List.mem_cons_of_mem j hx))]

theorem flatMap_if_singleton {β : Type _} (P : ℕ → Prop) [DecidablePred P]
    (g : ℕ → β) :
    ∀ js : List ℕ, (js.flatMap fun j => if P j then [g j] else []) =
      (js.filter fun j => decide (P j)).map g := by
  intro js
  induction js with
  | nil => rfl
  | cons j js ih =>
    rw [List.flatMap_cons, List.filter_cons]
    by_cases h : P j
    · rw [if_pos h, ih]
      simp [h]
    · rw [if_neg h, ih]
      simp [h]

theorem sum_if_two_one (P : ℕ → Prop) [DecidablePred P] :
    ∀ js : List ℕ, (js.map fun j => if P j then (2 : ℕ) else 1).sum =
      js.length + (js.filter fun j => decide (P j)).length := by
  intro js
  induction js with
  | nil => rfl
  | cons j js ih =>
    rw [List.map_cons, List.sum_cons, List.filter_cons, ih]
    by_cases h : P j
    · rw [if_pos h, if_pos (show decide (P j) = true by simpa using h)]
      simp only [List.length_cons]
      omega
    · rw [if_neg h, if_neg (show ¬ decide (P j) = true by simpa using h)]
      simp only [List.length_cons]
      omega

theorem filter_map_perm_range (f : ℕ → ℕ) (size n : ℕ)
    (hlt : ∀ j, j < size → f j < size)
    (hinj : ∀ j1 j2, j1 < size → j2 < size → j1 ≠ j2 → f j1 ≠ f j2)
    (hn : n ≤ size) :
    List.Perm (((List.range size).filter fun j => decide (f j < n)).map f)
      (List.range n) := by
  have hndA : (((List.range size).filter fun j => decide (f j < n)).map f).Nodup := by
    refine List.Nodup.map_on ?_ (List.Nodup.filter _ (List.nodup_range size))
    intro x hx y hy hxy
    have hx2 := List.mem_range.mp (List.mem_of_mem_filter hx)
    have hy2 := List.mem_range.mp (List.mem_of_mem_filter hy)
    by_contra hne
    exact hinj x y hx2 hy2 hne hxy
  refine List.Subperm.antisymm ?_ ?_
  · refine List.subperm_of_subset hndA ?_
    intro x hx
    obtain ⟨j, hj, rfl⟩ := List.mem_map.mp hx
    have := List.of_mem_filter hj
    exact List.mem_range.mpr (by simpa using this)
  · refine List.subperm_of_subset (List.nodup_range n) ?_
    intro s hs
    have hs2 := List.mem_range.mp hs
    obtain ⟨j, hj, hfj⟩ := surj_of_inj_range f size hlt hinj s (by omega)
    refine List.mem_map.mpr ⟨j, ?_, hfj⟩
    refine List.mem_filter.mpr ⟨List.mem_range.mpr hj, ?_⟩
    rw [hfj]
    simpa using hs2

theorem filter_lt_range_perm (size m : ℕ) (hm : m ≤ size) :
    List.Perm ((List.range size).filter fun j => decide (j < m))
      (List.range m) := by
  refine List.Subperm.antisymm ?_ ?_
  · refine List.subperm_of_subset
      (List.Nodup.filter _ (List.nodup_range size)) ?_
    intro x hx
    have := List.of_mem_filter hx
    exact List.mem_range.mpr (by simpa using this)
  · refine List.subperm_of_subset (List.nodup_range m) ?_
    intro s hs
    have hs2 := List.mem_range.mp hs
    refine List.mem_filter.mpr ⟨List.mem_range.mpr (by omega), ?_⟩
    simpa using hs2

theorem self_eq_map_range_getD {α : Type _} [Inhabited α] (l : List α) :
    (List.range l.length).map (fun s => l.getD s default) = l := by
  refine List.ext_getElem ?_ ?_
  · rw [List.length_map, List.length_range]
  · intro i h1 h2
    simp only [List.getElem_map, List.getElem_range]
    rw [List.getD_eq_getElem l default h2]

/-- C5 (amended): under the cost conditions that make the engine total,
the result of `Assign` has exactly `max(n,m)` pairs plus one extra pair
for every matched update cell carrying `MaxCost` (which is split into a
delete and an insert); the `Source` fields of the result are exactly the
sources, each once; and when `m ≤ n` the `Target` fields are exactly the
targets, each once. -/
theorem C5_structure {α : Type _} [Inhabited α] (sources targets : List α)
    (o : AssignOptions α)
    (hmin : o.minCost = 0) (hpos : 0 < o.maxCost)
    (hedit : ∀ x y, 0 ≤ o.editCost x y ∧ o.editCost x y ≤ o.maxCost) :
    ∃ pairs optimal,
      Assign sources targets o = some pairs ∧
      optimalCost (buildCosts sources targets o)
        (max sources.length targets.length) o.maxCost o.minCost = some optimal ∧
      pairs.length = max sources.length targets.length +
        (List.range (max sources.length targets.length)).countP (fun j =>
          decide (optimal j < sources.length ∧ j < targets.length ∧
            buildCosts sources targets o (optimal j) j = o.maxCost)) ∧
      List.Perm (pairs.filterMap Pair.source) sources ∧
      (targets.length ≤ sources.length →
        List.Perm (pairs.filterMap Pair.target) targets) := by
  have hrange : ∀ a b, a < max sources.length targets.length →
      b < max sources.length targets.length →
      0 ≤ buildCosts sources targets o a b ∧
        buildCosts sources targets o a b ≤ o.maxCost := by
    intro a b _ _
    unfold buildCosts
    split
    · exact hedit _ _
    · split
      · exact hedit _ _
      · split
        · exact hedit _ _
        · rw [hmin]
          exact ⟨le_refl 0, le_of_lt hpos⟩
  obtain ⟨opt, hopt, hlt, hinj, _⟩ :=
    hungarian_opt (buildCosts sources targets o)
      (max sources.length targets.length) o.maxCost hrange hpos
  have hopt2 : optimalCost (buildCosts sources targets o)
      (max sources.length targets.length) o.maxCost o.minCost = some opt := by
    rw [hmin]
    exact hopt
  have hassign : Assign sources targets o =
      some ((List.range (max sources.length targets.length)).foldl
        (translatePair sources targets o (buildCosts sources targets o) opt)
        []) := by
    show (optimalCost (buildCosts sources targets o)
        (max sources.length targets.length) o.maxCost o.minCost).map _ = _
    rw [hopt2]
    rfl
  have hnc : ∀ j, j < max sources.length targets.length →
      (opt j < sources.length ∨ j < targets.length) := by
    intro j hj
    have h1 := hlt j hj
    rcases max_choice sources.length targets.length with he | he <;> omega
  refine ⟨_, opt, hassign, hopt2, ?_, ?_, ?_⟩
  · -- length
    rw [translate_fold_length, List.countP_eq_length_filter]
    have hmapeq : (List.range (max sources.length targets.length)).map
        (fun j => (translatePair sources targets o
          (buildCosts sources targets o) opt [] j).length) =
        (List.range (max sources.length targets.length)).map
        (fun j => if opt j < sources.length ∧ j < targets.length ∧
            buildCosts sources targets o (opt j) j = o.maxCost
          then (2 : ℕ) else 1) := by
      refine List.map_congr_left ?_
      intro j hj
      exact (translatePair_cases sources targets o
        (buildCosts sources targets o) opt j (hnc j (List.mem_range.mp hj))).1
    rw [hmapeq, sum_if_two_one]
    rw [List.length_range]
  · -- sources
    rw [translate_fold_filterMap]
    rw [flatMap_congr_left _
      (fun j => if opt j < sources.length
        then [sources.getD (opt j) default] else []) _
      (fun j hj => (translatePair_cases sources targets o
        (buildCosts sources targets o) opt j
        (hnc j (List.mem_range.mp hj))).2.1)]
    rw [flatMap_if_singleton (fun j => opt j < sources.length)
      (fun j => sources.getD (opt j) default)]
    have hmm : ((List.range (max sources.length targets.length)).filter
        fun j => decide (opt j < sources.length)).map
          (fun j => sources.getD (opt j) default) =
        (((List.range (max sources.length targets.length)).filter
          fun j => decide (opt j < sources.length)).map opt).map
          (fun s => sources.getD s default) := by
      rw [List.map_map]
      rfl
    rw [hmm]
    have hperm := (filter_map_perm_range opt
      (max sources.length targets.length) sources.length hlt hinj
      (le_max_left _ _)).map (fun s => sources.getD s default)
    rw [self_eq_map_range_getD sources] at hperm
    exact hperm
  · -- targets (m ≤ n)
    intro hmn
    rw [translate_fold_filterMap]
    have hoptn : ∀ j, j < max sources.length targets.length →
        opt j < sources.length := by
      intro j hj
      have h1 := hlt j hj
      rw [max_eq_left hmn] at h1
      exact h1
    rw [flatMap_congr_left _
      (fun j => if j < targets.length
        then [targets.getD j default] else []) _
      (fun j hj => (translatePair_cases sources targets o
        (buildCosts sources targets o) opt j
        (hnc j (List.mem_range.mp hj))).2.2
        (hoptn j (List.mem_range.mp hj)))]
    rw [flatMap_if_singleton (fun j => j < targets.length)
      (fun j => targets.getD j default)]
    have hperm := (filter_lt_range_perm (max sources.length targets.length)
      targets.length (le_max_right _ _)).map
      (fun s => targets.getD s default)
    rw [self_eq_map_range_getD targets] at hperm
    exact hperm

/-- C5 (witness): the amended structure theorem at the repository
`MaxCost`-split instance: two pairs, source 0 once, target 1 once. -/
theorem C5_witness :
    ∃ pairs optimal,
      Assign [0] [1] maxOpts = some pairs ∧
      optimalCost (buildCosts [0] [1] maxOpts)
        (max (List.length ([0] : List ℕ)) (List.length ([1] : List ℕ)))
        maxOpts.maxCost maxOpts.minCost = some optimal ∧
      pairs.length = max (List.length ([0] : List ℕ))
          (List.length ([1] : List ℕ)) +
        (List.range (max (List.length ([0] : List ℕ))
          (List.length ([1] : List ℕ)))).countP (fun j =>
          decide (optimal j < List.length ([0] : List ℕ) ∧
            j < List.length ([1] : List ℕ) ∧
            buildCosts [0] [1] maxOpts (optimal j) j = maxOpts.maxCost)) ∧
      List.Perm (pairs.filterMap Pair.source) [0] ∧
      (List.length ([1] : List ℕ) ≤ List.length ([0] : List ℕ) →
        List.Perm (pairs.filterMap Pair.target) [1]) :=
  C5_structure [0] [1] maxOpts rfl (by norm_num [maxOpts])
    (by
      intro x y
      show 0 ≤ maxOpts.editCost x y ∧ maxOpts.editCost x y ≤ maxOpts.maxCost
      unfold maxOpts
      dsimp only
      split <;> norm_num)

end Assign
